import Mathlib

/-!
Verification of the cuopt dual-simplex support code against its specification.

This file gives a shallow embedding, in Lean 4, of

* `src/cpp/src/dual_simplex/vector_math.hpp` (`permute_vector`,
  `inverse_permute_vector`, `inverse_permutation`),
* `src/cpp/src/dual_simplex/singletons.cpp` (`order_singletons`,
  `create_row_representation`, `complete_permutation`, `find_singletons`),
* `src/cpp/src/dual_simplex/bnb_worker.hpp` (`bnb_worker_t::init_best_first`),

and proves the specification claims about them.  C++ vectors are modelled as
Lean lists; reads are total via `List.getD` (in-bounds under the stated
hypotheses) and writes use `List.set`.  The machine integer type `i_t` is
`int`; all quantities that can go negative (degrees, flipped degrees) are
modelled as `Int`, indices as `Nat`.  No arithmetic in the modelled code can
overflow 32 bits for inputs within the stated size hypotheses, so `Int`/`Nat`
are a faithful model.
-/

namespace CuoptSpec

/-! ### Generic list lemmas used throughout -/

theorem getD_set_self {α : Type} {l : List α} {i : Nat} {v d : α} (h : i < l.length) :
    (l.set i v).getD i d = v := by
  simp [List.getD_eq_getElem?_getD, List.getElem?_set_self h]

theorem getD_set_ne {α : Type} {l : List α} {i j : Nat} (v : α) {d : α} (h : i ≠ j) :
    (l.set i v).getD j d = l.getD j d := by
  simp [List.getD_eq_getElem?_getD, List.getElem?_set_ne h]

theorem getD_range_map {α : Type} (f : Nat → α) {n k : Nat} {d : α} (h : k < n) :
    (((List.range n).map f).getD k d) = f k := by
  simp [List.getD_eq_getElem?_getD, List.getElem?_map, List.getElem?_range h]

theorem getD_append_left {α : Type} {l₁ l₂ : List α} {k : Nat} {d : α} (h : k < l₁.length) :
    ((l₁ ++ l₂).getD k d) = l₁.getD k d := by
  simp [List.getD_eq_getElem?_getD, List.getElem?_append_left h]

theorem getD_append_right {α : Type} {l₁ l₂ : List α} {k : Nat} {d : α} (h : l₁.length ≤ k) :
    ((l₁ ++ l₂).getD k d) = l₂.getD (k - l₁.length) d := by
  simp [List.getD_eq_getElem?_getD, List.getElem?_append_right h]

theorem getD_eq_getElem {α : Type} {l : List α} {k : Nat} {d : α} (h : k < l.length) :
    l.getD k d = l[k] := by
  simp [List.getD_eq_getElem?_getD, List.getElem?_eq_getElem h]

/-! ### Model of `vector_math.hpp`

`f_t` is `double` in the source; the three permutation routines only move
values around (no floating-point arithmetic), so their behaviour is uniform in
the element type and we model the elements by `Int`. -/

/-- Model of `permute_vector` (vector_math.hpp lines 60-70): returns `x` with
`x[k] = b[p[k]]` for `0 ≤ k < p.size()`.  The C++ writes into a caller-sized
output vector, every slot of which is written, so the result is a pure map. -/
def permute_vector (p : List Nat) (b : List Int) : List Int :=
  (List.range p.length).map (fun k => b.getD (p.getD k 0) 0)

/-- Model of `inverse_permute_vector` (vector_math.hpp lines 72-83): performs
`x[p[k]] = b[k]` for `0 ≤ k < p.size()` on the caller-supplied output vector
`x`, left to right. -/
def inverse_permute_vector (p : List Nat) (b : List Int) (x : List Int) : List Int :=
  (List.range p.length).foldl (fun acc k => acc.set (p.getD k 0) (b.getD k 0)) x

/-- Model of `std::vector::resize`: truncate or pad with zeroes. -/
def resize_list (l : List Nat) (n : Nat) : List Nat :=
  l.take n ++ List.replicate (n - l.length) 0

/-- Model of `inverse_permutation` (vector_math.hpp lines 85-95): resizes
`pinv` to `p.size()` if needed, then performs `pinv[p[k]] = k` for
`0 ≤ k < p.size()`. -/
def inverse_permutation (p : List Nat) (pinv : List Nat) : List Nat :=
  let pv := if pinv.length = p.length then pinv else resize_list pinv p.length
  (List.range p.length).foldl (fun acc k => acc.set (p.getD k 0) k) pv

/-! ### Scatter-write lemmas for the fold `acc.set (pf k) (g k)` -/

theorem scatter_length {α : Type} (pf : Nat → Nat) (g : Nat → α) (ks : List Nat) (x : List α) :
    (ks.foldl (fun acc k => acc.set (pf k) (g k)) x).length = x.length := by
  induction ks generalizing x with
  | nil => rfl
  | cons k rest ih => simpa using ih (x.set (pf k) (g k))

theorem scatter_getD_not_mem {α : Type} (pf : Nat → Nat) (g : Nat → α) {ks : List Nat}
    {x : List α} {j : Nat} {d : α} (hj : ∀ k ∈ ks, pf k ≠ j) :
    (ks.foldl (fun acc k => acc.set (pf k) (g k)) x).getD j d = x.getD j d := by
  induction ks generalizing x with
  | nil => rfl
  | cons k rest ih =>
    have h1 : pf k ≠ j := hj k (by simp)
    have h2 : ∀ k' ∈ rest, pf k' ≠ j := fun k' hk' => hj k' (by simp [hk'])
    simpa [getD_set_ne _ h1] using (ih h2 (x := x.set (pf k) (g k))).trans (getD_set_ne _ h1)

theorem scatter_getD {α : Type} (pf : Nat → Nat) (g : Nat → α) {ks : List Nat}
    {x : List α} {k : Nat} {d : α} (hnd : ks.Nodup)
    (hinj : ∀ k₁ ∈ ks, ∀ k₂ ∈ ks, pf k₁ = pf k₂ → k₁ = k₂)
    (hk : k ∈ ks) (hlt : pf k < x.length) :
    (ks.foldl (fun acc k => acc.set (pf k) (g k)) x).getD (pf k) d = g k := by
  induction ks generalizing x with
  | nil => cases hk
  | cons k₀ rest ih =>
    rcases List.mem_cons.mp hk with hk | hk
    · subst hk
      have hrest : ∀ k' ∈ rest, pf k' ≠ pf k := by
        intro k' hk' he
        have : k' = k := hinj k' (by simp [hk']) k (by simp) he
        subst this
        exact (List.nodup_cons.mp hnd).1 hk'
      have := scatter_getD_not_mem pf g (x := x.set (pf k) (g k)) (d := d) hrest
      simp only [List.foldl_cons] at *
      rw [this, getD_set_self hlt]
    · have hnd' := (List.nodup_cons.mp hnd).2
      have hinj' : ∀ k₁ ∈ rest, ∀ k₂ ∈ rest, pf k₁ = pf k₂ → k₁ = k₂ := by
        intro k₁ h₁ k₂ h₂ he
        exact hinj k₁ (by simp [h₁]) k₂ (by simp [h₂]) he
      simp only [List.foldl_cons]
      exact ih hnd' hinj' hk (by simpa using hlt)

/-! ### Model of `bnb_worker.hpp`

The worker class (bnb_worker.hpp lines 28-88).  Types that come from headers
outside the provided sources (`mip_node_t`, `lp_problem_t`,
`bnb_worker_type_t`) are modelled from the spec; fields of the worker whose
types are entirely absent from the sources (`basis_factors`,
`node_presolver`) are omitted since no embedded operation reads or writes
them.  `f_t` is `double`; `init_best_first` only copies values, so we model
`f_t` by `Int`. -/

/-- Modelled from the spec: the worker-type enumeration `bnb_worker_type_t`
(spec section 4.5, worker states), whose definition lives in a header not in
the sources.  `order_singletons` of the worker uses the `EXPLORATION` and
`DIVING` alternatives. -/
inductive bnb_worker_type_t where
  | EXPLORATION
  | DIVING
deriving DecidableEq, Repr

/-- Modelled from the spec: `lp_problem_t` (spec section 3, "LP Problem":
constraint matrix, lower/upper bound vectors, cost vector); `init_best_first`
reads only the `lower` and `upper` bound vectors, which we model together with
the cost vector. -/
structure lp_problem_t where
  lower : List Int
  upper : List Int
  cost : List Int
deriving DecidableEq, Repr

/-- Modelled from the spec: `mip_node_t` (spec section 3, "Tree Node": parent
bound-change deltas, a computed lower bound, a branching decision), whose
definition lives in `mip_node.hpp`, not in the sources. -/
structure mip_node_t where
  lower_bound : Int
  lower_deltas : List (Nat × Int)
  upper_deltas : List (Nat × Int)
  branch_var : Nat
deriving DecidableEq, Repr

/-- Model of the mutable state of `bnb_worker_t` (bnb_worker.hpp lines
28-88).  The C++ `start_node` is a pointer to a shared node; we model it as
an optional node value.  `basis_factors` and `node_presolver` are omitted
(their types are not in the sources and `init_best_first` does not touch
them). -/
structure bnb_worker_t where
  worker_id : Nat
  worker_type : bnb_worker_type_t
  is_active : Bool
  lower_bound : Int
  leaf_problem : lp_problem_t
  basic_list : List Nat
  nonbasic_list : List Nat
  bounds_changed : List Bool
  start_lower : List Int
  start_upper : List Int
  start_node : Option mip_node_t
  recompute_basis : Bool
  recompute_bounds : Bool
  internal_node : mip_node_t
deriving DecidableEq, Repr

/-- Model of `bnb_worker_t::init_best_first` (bnb_worker.hpp lines 59-67).
The second component of the result is the state of the shared node object
after the call (the C++ holds it by pointer; the function body never writes
through that pointer, which the model makes explicit by returning the node it
was given). -/
def init_best_first (w : bnb_worker_t) (node : mip_node_t) (original_lp : lp_problem_t) :
    bnb_worker_t × mip_node_t :=
  ({ w with
      start_node := some node
      start_lower := original_lp.lower
      start_upper := original_lp.upper
      worker_type := .EXPLORATION
      lower_bound := node.lower_bound
      is_active := true },
   node)

/-! ### Claim C4: permutation round trip and inverse permutation -/

theorem resize_list_length (l : List Nat) (n : Nat) : (resize_list l n).length = n := by
  simp [resize_list]
  omega

theorem list_ext_getD {α : Type} {l₁ l₂ : List α} (d : α) (hl : l₁.length = l₂.length)
    (h : ∀ j < l₁.length, l₁.getD j d = l₂.getD j d) : l₁ = l₂ := by
  refine List.ext_getElem hl ?_
  intro j h₁ h₂
  have := h j h₁
  rwa [getD_eq_getElem h₁, getD_eq_getElem h₂] at this

/-- Claim C4: for every permutation `p` of `[0,n)` and every length-`n` vector
`b`, `inverse_permute_vector p (permute_vector p b)` yields `b` again
(whatever the initial content `x0` of the output vector), and
`inverse_permutation p pinv0` produces `pinv` with `pinv[p[k]] = k` for every
`k < n`. -/
theorem claim_C4_permutation_round_trip (p : List Nat) (b x0 : List Int) (pinv0 : List Nat)
    (n : Nat) (hp : p.Perm (List.range n)) (hb : b.length = n) (hx : x0.length = n) :
    inverse_permute_vector p (permute_vector p b) x0 = b ∧
    ∀ k < n, (inverse_permutation p pinv0).getD (p.getD k 0) 0 = k := by
  have hlen : p.length = n := by simpa using hp.length_eq
  have hnd : p.Nodup := hp.nodup_iff.mpr (List.nodup_range n)
  have hmem : ∀ v, v ∈ p ↔ v < n := by
    intro v
    rw [hp.mem_iff, List.mem_range]
  have hget_lt : ∀ k, k < n → p.getD k 0 < n := by
    intro k hk
    have hk' : k < p.length := by omega
    rw [getD_eq_getElem hk']
    exact (hmem _).mp (List.getElem_mem hk')
  have hinj : ∀ k₁ ∈ List.range p.length, ∀ k₂ ∈ List.range p.length,
      p.getD k₁ 0 = p.getD k₂ 0 → k₁ = k₂ := by
    intro k₁ h₁ k₂ h₂ he
    rw [List.mem_range] at h₁ h₂
    rw [getD_eq_getElem h₁, getD_eq_getElem h₂] at he
    exact (List.Nodup.getElem_inj_iff hnd).mp he
  constructor
  · -- round trip for vectors
    have hlen1 : (inverse_permute_vector p (permute_vector p b) x0).length = n := by
      rw [inverse_permute_vector,
        scatter_length (fun k => p.getD k 0) (fun k => (permute_vector p b).getD k 0), hx]
    refine list_ext_getD 0 (by rw [hlen1, hb]) ?_
    intro j hj
    rw [hlen1] at hj
    obtain ⟨k, hk, hpk⟩ := List.getElem_of_mem ((hmem j).mpr hj)
    have hk' : k < n := by omega
    have hgd : p.getD k 0 = j := by rw [getD_eq_getElem hk, hpk]
    rw [show (inverse_permute_vector p (permute_vector p b) x0).getD j 0 =
        (inverse_permute_vector p (permute_vector p b) x0).getD (p.getD k 0) 0 by rw [hgd]]
    rw [inverse_permute_vector,
      scatter_getD (fun k => p.getD k 0) (fun k => (permute_vector p b).getD k 0)
        (List.nodup_range _) hinj (by simpa [hlen] using hk')
        (by show p.getD k 0 < x0.length; rw [hgd, hx]; exact hj)]
    rw [permute_vector, getD_range_map _ (by omega), hgd]
  · -- inverse permutation property
    intro k hk
    have hpv : (if pinv0.length = p.length then pinv0
        else resize_list pinv0 p.length).length = p.length := by
      split
      next h => exact h
      next => exact resize_list_length _ _
    rw [inverse_permutation]
    exact scatter_getD (fun k => p.getD k 0) (fun k => k) (List.nodup_range _) hinj
      (by simpa [hlen] using hk)
      (by show p.getD k 0 < _; rw [hpv, hlen]; exact hget_lt k hk)

/-- Witness for claim C4 at `p = [2,0,1]`, `b = [10,20,30]`. -/
theorem claim_C4_permutation_round_trip_witness :
    inverse_permute_vector [2, 0, 1] (permute_vector [2, 0, 1] [10, 20, 30]) [0, 0, 0] =
      [10, 20, 30] ∧
    ∀ k < 3, (inverse_permutation [2, 0, 1] []).getD ([2, 0, 1].getD k 0) 0 = k :=
  claim_C4_permutation_round_trip [2, 0, 1] [10, 20, 30] [0, 0, 0] [] 3
    (by decide) (by decide) (by decide)

/-! ### Claim C9: `init_best_first` effect and frame -/

/-- Claim C9: `init_best_first(node, original_lp)` sets `start_node` to the
given node, copies the bound vectors of `original_lp` into
`start_lower`/`start_upper`, sets the worker type to `EXPLORATION`, sets the
worker's lower bound to the node's lower bound, marks the worker active, and
changes nothing else: all remaining worker fields are untouched and the shared
node object is unmodified. -/
theorem claim_C9_init_best_first_effect (w : bnb_worker_t) (node : mip_node_t)
    (lp : lp_problem_t) :
    (init_best_first w node lp).1.start_node = some node ∧
    (init_best_first w node lp).1.start_lower = lp.lower ∧
    (init_best_first w node lp).1.start_upper = lp.upper ∧
    (init_best_first w node lp).1.worker_type = bnb_worker_type_t.EXPLORATION ∧
    (init_best_first w node lp).1.lower_bound = node.lower_bound ∧
    (init_best_first w node lp).1.is_active = true ∧
    (init_best_first w node lp).1.worker_id = w.worker_id ∧
    (init_best_first w node lp).1.leaf_problem = w.leaf_problem ∧
    (init_best_first w node lp).1.basic_list = w.basic_list ∧
    (init_best_first w node lp).1.nonbasic_list = w.nonbasic_list ∧
    (init_best_first w node lp).1.bounds_changed = w.bounds_changed ∧
    (init_best_first w node lp).1.recompute_basis = w.recompute_basis ∧
    (init_best_first w node lp).1.recompute_bounds = w.recompute_bounds ∧
    (init_best_first w node lp).1.internal_node = w.internal_node ∧
    (init_best_first w node lp).2 = node :=
  ⟨rfl, rfl, rfl, rfl, rfl, rfl, rfl, rfl, rfl, rfl, rfl, rfl, rfl, rfl, rfl⟩

/-! ### Model of `singletons.cpp`

Data model: `csc_matrix_t` and the bipartite row/column graph.  The mutable
degree/permutation arrays are collected in a state record threaded through the
loop of `order_singletons`; the read-only adjacency (`Xp`, `Xi`, `Yp`, `Yi`)
lives in `row_col_graph_t`.  Ghost fields (`Xflips`, `XelimDeg`, ...) count
flip operations and record degrees at elimination time; they are write-only
instrumentation and do not influence any modelled value. -/

/-- Modelled from the spec: the `FLIP` macro of `singletons.hpp` (a header not
in the sources).  Spec section 3: a flipped degree is the bit-complement of a
live degree ("already eliminated, original degree recoverable by
un-flipping"); the two's-complement bit-complement of `i` is `-i - 1`. -/
def FLIP (i : Int) : Int := -i - 1

/-- Modelled from the spec: the CSC sparse matrix `csc_matrix_t` (spec
section 3, "Sparse Matrix"), whose definition lives in `sparse_matrix.hpp`,
not in the sources: `n` columns, `m` rows, column start offsets, row indices,
values.  The values array `x` is never read by the embedded routines. -/
structure csc_matrix_t where
  m : Nat
  n : Nat
  col_start : List Nat
  i : List Nat
  x : List Int
deriving DecidableEq, Repr

/-- Well-formedness of a CSC matrix as assumed by `find_singletons`:
monotone column offsets starting at 0 and ending at the length of the row
index array, with all row indices in `[0, m)`. -/
def csc_wf (A : csc_matrix_t) : Prop :=
  A.col_start.length = A.n + 1 ∧
  A.col_start.getD 0 0 = 0 ∧
  A.col_start.getD A.n 0 = A.i.length ∧
  (∀ j < A.n, A.col_start.getD j 0 ≤ A.col_start.getD (j + 1) 0) ∧
  (∀ r ∈ A.i, r < A.m)

/-- The index segment `I[P[x] ..< P[x+1]]`: the entries visited by the C++
loop `for (p = P[x]; p < P[x+1]; ++p) ... I[p]`. -/
def seg (P I : List Nat) (x : Nat) : List Nat :=
  (I.drop (P.getD x 0)).take (P.getD (x + 1) 0 - P.getD x 0)

/-- The read-only adjacency part of `row_col_graph_t` (singletons.hpp): `Xp`,
`Xi` index the neighbors of X entities, `Yp`, `Yi` those of Y entities.  The
mutable iterators `Xdeg`, `Xperm`, `Ydeg`, `Yperm` of the C++ struct are the
fields of `sstate_t`. -/
structure row_col_graph_t where
  Xp : List Nat
  Xi : List Nat
  Yp : List Nat
  Yi : List Nat
deriving DecidableEq, Repr

/-- Mutable state of the `order_singletons` loop: the FIFO queue (front =
head, push = append), the output cursor `singletons_found`, the degree and
permutation arrays, plus ghost instrumentation: per-entity flip counters and
the degree each eliminated entity had at elimination time. -/
structure sstate_t where
  queue : List Nat
  singletons_found : Nat
  Xdeg : List Int
  Xperm : List Nat
  Ydeg : List Int
  Yperm : List Nat
  Xflips : List Nat
  Yflips : List Nat
  XelimDeg : List Int
  YelimDeg : List Int
  work : Nat
deriving DecidableEq, Repr

/-- Model of the neighbor-decrement loop of `order_singletons`
(singletons.cpp lines 76-87): scan the pivot partner's adjacency list left to
right; skip eliminated entries and the pivot itself; decrement the rest, and
append to the queue each entity whose degree just became 1. -/
def decrement_neighbors (xpivot : Nat) :
    List Nat → List Int → List Nat → List Int × List Nat
  | [], Xdeg, queue => (Xdeg, queue)
  | x :: rest, Xdeg, queue =>
    if Xdeg.getD x 0 < 0 then decrement_neighbors xpivot rest Xdeg queue
    else if x = xpivot then decrement_neighbors xpivot rest Xdeg queue
    else
      let d := Xdeg.getD x 0 - 1
      decrement_neighbors xpivot rest (Xdeg.set x d) (if d = 1 then queue ++ [x] else queue)

/-- Model of one iteration of the `while (!singleton_queue.empty())` loop of
`order_singletons` (singletons.cpp lines 35-97): pop the front; skip it when
its degree is not 1; otherwise find the first still-active neighbor `ypivot`,
decrement the other active neighbors of `ypivot` (enqueueing new singletons),
flip both pivot degrees and record the pair in the permutations.  The C++
reads out of bounds if no active neighbor exists (impossible for the graphs
`find_singletons` builds); the model skips in that case. -/
def order_step (G : row_col_graph_t) (s : sstate_t) : sstate_t :=
  match s.queue with
  | [] => s
  | xpivot :: rest =>
    if s.Xdeg.getD xpivot 0 ≠ 1 then { s with queue := rest }
    else
      let xs := seg G.Xp G.Xi xpivot
      let xwork := 2 * (G.Xp.getD (xpivot + 1) 0 - G.Xp.getD xpivot 0)
      match xs.find? (fun y => decide (0 ≤ s.Ydeg.getD y 0)) with
      | none => { s with queue := rest, work := s.work + xwork }
      | some ypivot =>
        let ys := seg G.Yp G.Yi ypivot
        let dq := decrement_neighbors xpivot ys s.Xdeg rest
        { queue := dq.2
          singletons_found := s.singletons_found + 1
          Xdeg := dq.1.set xpivot (FLIP 1)
          Xperm := s.Xperm.set s.singletons_found xpivot
          Ydeg := s.Ydeg.set ypivot (FLIP (s.Ydeg.getD ypivot 0))
          Yperm := s.Yperm.set s.singletons_found ypivot
          Xflips := s.Xflips.set xpivot (s.Xflips.getD xpivot 0 + 1)
          Yflips := s.Yflips.set ypivot (s.Yflips.getD ypivot 0 + 1)
          XelimDeg := s.XelimDeg.set xpivot 1
          YelimDeg := s.YelimDeg.set ypivot (s.Ydeg.getD ypivot 0)
          work := s.work + xwork +
            2 * (G.Yp.getD (ypivot + 1) 0 - G.Yp.getD ypivot 0) }

/-- Fuel-indexed unfolding of the `order_singletons` while loop. -/
def order_loop (G : row_col_graph_t) : Nat → sstate_t → sstate_t
  | 0, s => s
  | fuel + 1, s =>
    match s.queue with
    | [] => s
    | _ :: _ => order_loop G fuel (order_step G s)

/-- Number of X entities whose current degree is at least 2.  Used as part of
the loop variant of `order_singletons`. -/
def active_ge2 (Xdeg : List Int) : Nat :=
  (List.range Xdeg.length).countP (fun z => decide (2 ≤ Xdeg.getD z 0))

/-- Loop variant: queue length plus the number of entities that could still be
pushed.  `order_loop` reaches an empty queue within this much fuel
(`order_loop_complete`). -/
def order_fuel (s : sstate_t) : Nat := s.queue.length + active_ge2 s.Xdeg

/-- Model of `order_singletons` (singletons.cpp lines 28-99): run the queue
loop to completion.  The C++ returns `singletons_found`, which is the
`singletons_found` field of the resulting state. -/
def order_singletons (G : row_col_graph_t) (s : sstate_t) : sstate_t :=
  order_loop G (order_fuel s) s

/-- Modelled from the spec: `cumulative_sum` (declared in a header not in the
sources; spec section 3 requires row start offsets for the CSR view).  Given
per-row counts it produces the exclusive prefix sums (the row start offsets,
one longer than the input) and overwrites the workspace with a copy of the
offsets, which `create_row_representation` then uses as insertion cursors. -/
def cumulative_sum (counts : List Nat) : List Nat × List Nat :=
  let starts := (List.range (counts.length + 1)).map (fun k => (counts.take k).sum)
  (starts, starts.take counts.length)

/-- The column segment of a CSC matrix. -/
def col_seg (A : csc_matrix_t) (j : Nat) : List Nat := seg A.col_start A.i j

/-- The (row, column) pairs of the matrix in the order the doubly nested
column-major loops of `singletons.cpp` visit them. -/
def csc_pairs (A : csc_matrix_t) : List (Nat × Nat) :=
  (List.range A.n).flatMap (fun j => (col_seg A j).map (fun r => (r, j)))

/-- Model of `create_row_representation` (singletons.cpp lines 102-140):
count the entries of each row, build the row start offsets by prefix
summation, then scatter each column index into its row's segment using the
workspace as insertion cursors.  Returns `(row_start, col_index)`. -/
def create_row_representation (A : csc_matrix_t) : List Nat × List Nat :=
  let nz := A.col_start.getD A.n 0
  let counts := (List.range A.m).map (fun r => (A.i.take nz).count r)
  let cs := cumulative_sum counts
  let fill := (csc_pairs A).foldl
    (fun (st : List Nat × List Nat) pr =>
      (st.1.set pr.1 (st.1.getD pr.1 0 + 1), st.2.set (st.1.getD pr.1 0) pr.2))
    (cs.2, List.replicate nz 0)
  (cs.1, fill.2)

/-- The work-estimate contribution of one `create_row_representation` call:
`m` (clear) + `3 nz` (row counts) + `4 m` (cumulative sum) + `2 n + 4 nz`
(fill). -/
def create_row_work (A : csc_matrix_t) : Nat :=
  let nz := A.col_start.getD A.n 0
  A.m + 3 * nz + 4 * A.m + (2 * A.n + 4 * nz)

/-- State of the `complete_permutation` loop (singletons.cpp lines 143-167):
the empty-entity count, the next free middle slot `start`, and the degree,
permutation and ghost flip arrays. -/
structure cperm_state_t where
  num_empty : Nat
  start : Nat
  Xdeg : List Int
  Xperm : List Nat
  Xflips : List Nat
deriving DecidableEq, Repr

/-- One iteration of the `complete_permutation` loop at entity `k`: an empty
entity goes to the tail slot `n - num_empty`, a still-active entity to the
next middle slot, and a flipped (eliminated) entity has its degree restored by
a second flip. -/
def complete_permutation_step (n : Nat) (st : cperm_state_t) (k : Nat) : cperm_state_t :=
  let deg := st.Xdeg.getD k 0
  if deg = 0 then
    { st with
        num_empty := st.num_empty + 1
        Xperm := st.Xperm.set (n - (st.num_empty + 1)) k }
  else if 0 < deg then
    { st with Xperm := st.Xperm.set st.start k, start := st.start + 1 }
  else
    { st with
        Xdeg := st.Xdeg.set k (FLIP deg)
        Xflips := st.Xflips.set k (st.Xflips.getD k 0 + 1) }

/-- Model of `complete_permutation` (singletons.cpp lines 143-167).  The C++
returns `num_empty`; the model returns the whole final state, of which
`num_empty` is a field. -/
def complete_permutation (singletons : Nat) (Xdeg : List Int) (Xperm : List Nat)
    (Xflips : List Nat) : cperm_state_t :=
  (List.range Xdeg.length).foldl (complete_permutation_step Xdeg.length)
    { num_empty := 0, start := singletons, Xdeg := Xdeg, Xperm := Xperm, Xflips := Xflips }

/-! ### Model of `find_singletons` (singletons.cpp lines 169-288) -/

/-- The initial column degrees (`Cdeg[j] = col_end - col_start`). -/
def fs_initial_Cdeg (A : csc_matrix_t) : List Int :=
  (List.range A.n).map
    (fun j => (A.col_start.getD (j + 1) 0 : Int) - (A.col_start.getD j 0 : Int))

/-- The initial row degrees (`Rdeg[A.i[p]]++` over the column-major order). -/
def fs_initial_Rdeg (A : csc_matrix_t) : List Int :=
  (List.range A.m).map (fun r => (((csc_pairs A).map Prod.fst).count r : Int))

/-- The queue seeded with all degree-1 columns, pushed in descending column
order (singletons.cpp lines 203-205), so the FIFO front is column `n-1`. -/
def fs_queue1 (A : csc_matrix_t) : List Nat :=
  (List.range A.n).reverse.filter (fun j => decide ((fs_initial_Cdeg A).getD j 0 = 1))

/-- The graph of pass 1 (column singletons): X = columns, Y = rows. -/
def fs_col_graph (A : csc_matrix_t) : row_col_graph_t :=
  { Xp := A.col_start, Xi := A.i
    Yp := (create_row_representation A).1, Yi := (create_row_representation A).2 }

/-- The graph of pass 2 (row singletons): X = rows, Y = columns. -/
def fs_row_graph (A : csc_matrix_t) : row_col_graph_t :=
  { Xp := (create_row_representation A).1, Xi := (create_row_representation A).2
    Yp := A.col_start, Yi := A.i }

/-- The state of `find_singletons` just before pass 1, columns as X. -/
def fs_state1 (A : csc_matrix_t) (row_perm col_perm : List Nat) : sstate_t :=
  let nz := A.col_start.getD A.n 0
  let q1 := fs_queue1 A
  { queue := q1
    singletons_found := 0
    Xdeg := fs_initial_Cdeg A
    Xperm := col_perm
    Ydeg := fs_initial_Rdeg A
    Yperm := row_perm
    Xflips := List.replicate A.n 0
    Yflips := List.replicate A.m 0
    XelimDeg := List.replicate A.n 0
    YelimDeg := List.replicate A.m 0
    work := 3 * A.m + A.n + nz + (2 * A.n + 2 * nz) + (A.n + q1.length) }

/-- The state after the column pass (columns as X); pass 1 runs only when the
seed queue is nonempty, and then first pays the row-build cost. -/
def fs_after_pass1 (A : csc_matrix_t) (row_perm col_perm : List Nat) : sstate_t :=
  let s1 := fs_state1 A row_perm col_perm
  if s1.queue.isEmpty then s1
  else order_singletons (fs_col_graph A) { s1 with work := s1.work + create_row_work A }

/-- The queue seeded with all rows of degree 1 after the column pass, pushed
in descending row order (singletons.cpp lines 238-240). -/
def fs_queue2 (A : csc_matrix_t) (row_perm col_perm : List Nat) : List Nat :=
  (List.range A.m).reverse.filter
    (fun r => decide ((fs_after_pass1 A row_perm col_perm).Ydeg.getD r 0 = 1))

/-- Exchange the X and Y roles of a state (used between the two passes). -/
def sstate_swap (s : sstate_t) : sstate_t :=
  { queue := s.queue
    singletons_found := s.singletons_found
    Xdeg := s.Ydeg
    Xperm := s.Yperm
    Ydeg := s.Xdeg
    Yperm := s.Xperm
    Xflips := s.Yflips
    Yflips := s.Xflips
    XelimDeg := s.YelimDeg
    YelimDeg := s.XelimDeg
    work := s.work }

/-- The state after the row pass, swapped back to columns as X.  The row
representation is built here only when pass 1 did not already build it. -/
def fs_after_pass2 (A : csc_matrix_t) (row_perm col_perm : List Nat) : sstate_t :=
  let s2 := fs_after_pass1 A row_perm col_perm
  let q2 := fs_queue2 A row_perm col_perm
  let w2 := s2.work + A.m + q2.length
  if q2.isEmpty then { s2 with work := w2 }
  else
    let wb := if (fs_queue1 A).isEmpty then w2 + create_row_work A else w2
    sstate_swap
      (order_singletons (fs_row_graph A) { sstate_swap s2 with queue := q2, work := wb })

/-- Result record of `find_singletons`: the returned total (`ret`), the two
per-pass counts, the completed permutations, the final degree arrays, the
empty counts computed by the two `complete_permutation` calls, and the ghost
instrumentation (`row_builds` counts `create_row_representation` calls;
`colFlips`/`rowFlips` count flips per entity; `colElim`/`rowElim` record
degrees at elimination time). -/
structure fs_result_t where
  ret : Nat
  col_singletons : Nat
  row_singletons : Nat
  row_perm : List Nat
  col_perm : List Nat
  Cdeg : List Int
  Rdeg : List Int
  num_empty_cols : Nat
  num_empty_rows : Nat
  row_builds : Nat
  colFlips : List Nat
  rowFlips : List Nat
  colElim : List Int
  rowElim : List Int
  work : Nat
deriving DecidableEq, Repr

/-- Model of `find_singletons` (singletons.cpp lines 169-288). -/
def find_singletons (A : csc_matrix_t) (row_perm col_perm : List Nat) : fs_result_t :=
  let s1found := (fs_after_pass1 A row_perm col_perm).singletons_found
  let s2 := fs_after_pass2 A row_perm col_perm
  let cc := complete_permutation s2.singletons_found s2.Xdeg s2.Xperm s2.Xflips
  let rr := complete_permutation s2.singletons_found s2.Ydeg s2.Yperm s2.Yflips
  { ret := s2.singletons_found
    col_singletons := s1found
    row_singletons := s2.singletons_found - s1found
    row_perm := rr.Xperm
    col_perm := cc.Xperm
    Cdeg := cc.Xdeg
    Rdeg := rr.Xdeg
    num_empty_cols := cc.num_empty
    num_empty_rows := rr.num_empty
    row_builds :=
      (if (fs_queue1 A).isEmpty then 0 else 1) +
        (if (fs_queue2 A row_perm col_perm).isEmpty then 0
         else if (fs_queue1 A).isEmpty then 1 else 0)
    colFlips := cc.Xflips
    rowFlips := rr.Xflips
    colElim := s2.XelimDeg
    rowElim := s2.YelimDeg
    work := s2.work + 2 * s2.Xdeg.length + 2 * s2.Ydeg.length }

/-! ### Lemmas about `decrement_neighbors` -/

theorem countP_set_drop {p q : Nat → Bool} {l : List Nat} (hnd : l.Nodup) {y : Nat}
    (hy : y ∈ l) (hpy : p y = true) (hqy : q y = false)
    (hagree : ∀ z ∈ l, z ≠ y → p z = q z) :
    List.countP q l + 1 = List.countP p l := by
  obtain ⟨s, t, rfl⟩ := List.append_of_mem hy
  rw [List.nodup_append] at hnd
  have hys : y ∉ s := fun hmem => hnd.2.2 hmem (by simp)
  have hyt : y ∉ t := (List.nodup_cons.mp hnd.2.1).1
  have hs : List.countP q s = List.countP p s := by
    refine List.countP_congr ?_
    intro z hz
    rw [hagree z (by simp [hz]) (fun he => hys (he ▸ hz))]
  have ht : List.countP q t = List.countP p t := by
    refine List.countP_congr ?_
    intro z hz
    rw [hagree z (by simp [hz]) (fun he => hyt (he ▸ hz))]
  simp [List.countP_append, List.countP_cons, hpy, hqy, hs, ht]
  omega

theorem active_ge2_set_le {X : List Int} {y : Nat} {v : Int}
    (hv : 2 ≤ v → 2 ≤ X.getD y 0) :
    active_ge2 (X.set y v) ≤ active_ge2 X := by
  by_cases hy : y < X.length
  · unfold active_ge2
    rw [List.length_set]
    refine List.countP_mono_left ?_
    intro z hz hb
    rw [List.mem_range] at hz
    rw [decide_eq_true_eq] at hb ⊢
    by_cases hzy : z = y
    · subst hzy
      rw [getD_set_self hy] at hb
      exact hv hb
    · rwa [getD_set_ne _ (fun he => hzy he.symm)] at hb
  · rw [List.set_eq_of_length_le (le_of_not_lt hy)]

theorem active_ge2_set_drop {X : List Int} {y : Nat} {v : Int} (hy : y < X.length)
    (h2 : 2 ≤ X.getD y 0) (hv : v < 2) :
    active_ge2 (X.set y v) + 1 = active_ge2 X := by
  unfold active_ge2
  rw [List.length_set]
  refine countP_set_drop (List.nodup_range _) (List.mem_range.mpr hy) ?_ ?_ ?_
  · rw [decide_eq_true_eq]
    exact h2
  · rw [decide_eq_false_iff_not]
    rw [getD_set_self hy]
    omega
  · intro z _ hzy
    simp only [decide_eq_decide]
    rw [getD_set_ne _ (fun he => hzy he.symm)]

theorem decrement_neighbors_length (xpivot : Nat) (ys : List Nat) (X : List Int)
    (q : List Nat) :
    (decrement_neighbors xpivot ys X q).1.length = X.length := by
  induction ys generalizing X q with
  | nil => rfl
  | cons y rest ih =>
    by_cases h1 : X.getD y 0 < 0
    · simp only [decrement_neighbors, if_pos h1]
      exact ih X q
    · by_cases h2 : y = xpivot
      · simp only [decrement_neighbors, if_neg h1, if_pos h2]
        exact ih X q
      · simp only [decrement_neighbors, if_neg h1, if_neg h2]
        rw [ih, List.length_set]

theorem decrement_neighbors_variant (xpivot : Nat) (ys : List Nat) (X : List Int)
    (q : List Nat) :
    (decrement_neighbors xpivot ys X q).2.length +
      active_ge2 (decrement_neighbors xpivot ys X q).1 ≤
      q.length + active_ge2 X := by
  induction ys generalizing X q with
  | nil => simp [decrement_neighbors]
  | cons y rest ih =>
    by_cases h1 : X.getD y 0 < 0
    · simp only [decrement_neighbors, if_pos h1]
      exact ih X q
    · by_cases h2 : y = xpivot
      · simp only [decrement_neighbors, if_neg h1, if_pos h2]
        exact ih X q
      · simp only [decrement_neighbors, if_neg h1, if_neg h2]
        by_cases h3 : X.getD y 0 - 1 = 1
        · -- a new singleton is pushed; its degree leaves the ≥ 2 set
          have hXy : X.getD y 0 = 2 := by omega
          have hylen : y < X.length := by
            by_contra hy
            push_neg at hy
            rw [List.getD_eq_getElem?_getD, List.getElem?_eq_none hy] at hXy
            simp at hXy
          have hdrop := active_ge2_set_drop hylen (by omega) (v := X.getD y 0 - 1) (by omega)
          have := ih (X.set y (X.getD y 0 - 1)) (q ++ [y])
          simp only [if_pos h3]
          calc (decrement_neighbors xpivot rest (X.set y (X.getD y 0 - 1)) (q ++ [y])).2.length +
                active_ge2 (decrement_neighbors xpivot rest (X.set y (X.getD y 0 - 1)) (q ++ [y])).1
              ≤ (q ++ [y]).length + active_ge2 (X.set y (X.getD y 0 - 1)) := this
            _ ≤ q.length + active_ge2 X := by
                simp only [List.length_append, List.length_cons, List.length_nil]
                omega
        · -- no push; the ≥ 2 set does not grow
          have hle := active_ge2_set_le (X := X) (y := y) (v := X.getD y 0 - 1) (by omega)
          have := ih (X.set y (X.getD y 0 - 1)) q
          simp only [if_neg h3]
          omega

/-! ### Termination of the `order_singletons` loop -/

theorem order_fuel_step_lt (G : row_col_graph_t) (s : sstate_t) (x : Nat) (rest : List Nat)
    (hq : s.queue = x :: rest) :
    order_fuel (order_step G s) < order_fuel s := by
  obtain ⟨q, found, X, Xperm, Y, Yperm, xf, yf, xe, ye, w⟩ := s
  simp only at hq
  subst hq
  simp only [order_step]
  by_cases h1 : X.getD x 0 ≠ 1
  · simp only [if_pos h1, order_fuel]
    simp
  · simp only [if_neg h1]
    cases hf : (seg G.Xp G.Xi x).find? (fun y => decide (0 ≤ Y.getD y 0)) with
    | none =>
      simp only [order_fuel]
      simp
    | some ypivot =>
      simp only [order_fuel]
      have hv := decrement_neighbors_variant x (seg G.Yp G.Yi ypivot) X rest
      have hset := active_ge2_set_le
        (X := (decrement_neighbors x (seg G.Yp G.Yi ypivot) X rest).1)
        (y := x) (v := FLIP 1) (by intro h; exact absurd h (by norm_num [FLIP]))
      simp only [List.length_cons]
      omega

theorem order_loop_queue_nil (G : row_col_graph_t) (fuel : Nat) (s : sstate_t)
    (h : s.queue = []) : order_loop G fuel s = s := by
  cases fuel with
  | zero => rfl
  | succ f =>
    simp only [order_loop]
    rw [h]

theorem order_loop_succ_cons (G : row_col_graph_t) (fuel : Nat) (s : sstate_t)
    (x : Nat) (rest : List Nat) (hq : s.queue = x :: rest) :
    order_loop G (fuel + 1) s = order_loop G fuel (order_step G s) := by
  simp only [order_loop]
  rw [hq]

theorem order_loop_complete (G : row_col_graph_t) :
    ∀ (fuel : Nat) (s : sstate_t), order_fuel s ≤ fuel → (order_loop G fuel s).queue = [] := by
  intro fuel
  induction fuel with
  | zero =>
    intro s h
    have hq : s.queue = [] := by
      unfold order_fuel at h
      exact List.length_eq_zero.mp (by omega)
    rw [order_loop_queue_nil G 0 s hq]
    exact hq
  | succ f ih =>
    intro s h
    cases hq : s.queue with
    | nil =>
      rw [order_loop_queue_nil G _ s hq]
      exact hq
    | cons x rest =>
      have hlt := order_fuel_step_lt G s x rest hq
      rw [order_loop_succ_cons G f s x rest hq]
      exact ih _ (by omega)

theorem order_loop_stable (G : row_col_graph_t) :
    ∀ (fuel fuel₂ : Nat) (s : sstate_t), order_fuel s ≤ fuel → fuel ≤ fuel₂ →
      order_loop G fuel₂ s = order_loop G fuel s := by
  intro fuel
  induction fuel with
  | zero =>
    intro fuel₂ s h _
    have hq : s.queue = [] := by
      unfold order_fuel at h
      exact List.length_eq_zero.mp (by omega)
    rw [order_loop_queue_nil G _ s hq, order_loop_queue_nil G _ s hq]
  | succ f ih =>
    intro fuel₂ s h hle
    cases hq : s.queue with
    | nil => rw [order_loop_queue_nil G _ s hq, order_loop_queue_nil G _ s hq]
    | cons x rest =>
      obtain ⟨f₂, rfl⟩ : ∃ f₂, fuel₂ = f₂ + 1 := ⟨fuel₂ - 1, by omega⟩
      rw [order_loop_succ_cons G f s x rest hq, order_loop_succ_cons G f₂ s x rest hq]
      have hlt := order_fuel_step_lt G s x rest hq
      exact ih f₂ (order_step G s) (by omega) (by omega)

theorem order_singletons_fuel_free (G : row_col_graph_t) (s : sstate_t) (fuel : Nat)
    (h : order_fuel s ≤ fuel) : order_loop G fuel s = order_singletons G s :=
  order_loop_stable G (order_fuel s) fuel s le_rfl h

theorem order_singletons_queue_nil (G : row_col_graph_t) (s : sstate_t) :
    (order_singletons G s).queue = [] :=
  order_loop_complete G (order_fuel s) s le_rfl

theorem fs_after_pass1_eq (A : csc_matrix_t) (rp cp : List Nat) :
    fs_after_pass1 A rp cp =
      if (fs_queue1 A).isEmpty then fs_state1 A rp cp
      else
        order_singletons (fs_col_graph A)
          { fs_state1 A rp cp with work := (fs_state1 A rp cp).work + create_row_work A } :=
  rfl

theorem fs_after_pass2_eq (A : csc_matrix_t) (rp cp : List Nat) :
    fs_after_pass2 A rp cp =
      if (fs_queue2 A rp cp).isEmpty then
        { fs_after_pass1 A rp cp with
            work := (fs_after_pass1 A rp cp).work + A.m + (fs_queue2 A rp cp).length }
      else
        sstate_swap
          (order_singletons (fs_row_graph A)
            { sstate_swap (fs_after_pass1 A rp cp) with
                queue := fs_queue2 A rp cp
                work :=
                  if (fs_queue1 A).isEmpty then
                    (fs_after_pass1 A rp cp).work + A.m + (fs_queue2 A rp cp).length +
                      create_row_work A
                  else (fs_after_pass1 A rp cp).work + A.m + (fs_queue2 A rp cp).length }) :=
  rfl

theorem fs_after_pass1_queue_nil (A : csc_matrix_t) (row_perm col_perm : List Nat) :
    (fs_after_pass1 A row_perm col_perm).queue = [] := by
  rw [fs_after_pass1_eq]
  by_cases h : (fs_queue1 A).isEmpty
  · rw [if_pos h]
    exact List.isEmpty_iff.mp h
  · rw [if_neg h]
    exact order_singletons_queue_nil _ _

theorem fs_after_pass2_queue_nil (A : csc_matrix_t) (row_perm col_perm : List Nat) :
    (fs_after_pass2 A row_perm col_perm).queue = [] := by
  rw [fs_after_pass2_eq]
  by_cases h : (fs_queue2 A row_perm col_perm).isEmpty
  · rw [if_pos h]
    exact fs_after_pass1_queue_nil A row_perm col_perm
  · rw [if_neg h]
    exact order_singletons_queue_nil _ _

/-- Claim C5: the `order_singletons` while loop always terminates - within
`order_fuel s` iterations the queue is drained (adding fuel beyond that bound
does not change the result, which is the meaning of `order_loop G fuel s =
order_singletons G s`), and both passes of `find_singletons` finish with an
empty queue on every input, including matrices with no singletons at all. -/
theorem claim_C5_find_singletons_terminates :
    (∀ (G : row_col_graph_t) (s : sstate_t) (fuel : Nat), order_fuel s ≤ fuel →
        order_loop G fuel s = order_singletons G s ∧ (order_singletons G s).queue = []) ∧
    (∀ (A : csc_matrix_t) (row_perm col_perm : List Nat),
        (fs_after_pass1 A row_perm col_perm).queue = [] ∧
        (fs_after_pass2 A row_perm col_perm).queue = []) :=
  ⟨fun G s fuel h => ⟨order_singletons_fuel_free G s fuel h, order_singletons_queue_nil G s⟩,
   fun A rp cp => ⟨fs_after_pass1_queue_nil A rp cp, fs_after_pass2_queue_nil A rp cp⟩⟩

/-- Witness for claim C5: on a concrete 2-by-2 graph state with a large fuel
supply the loop result equals the fuel-free result and drains the queue. -/
theorem claim_C5_find_singletons_terminates_witness :
    (order_loop { Xp := [0, 1, 2], Xi := [0, 1], Yp := [0, 1, 2], Yi := [0, 1] } 10
        { queue := [1, 0], singletons_found := 0, Xdeg := [1, 1], Xperm := [0, 0],
          Ydeg := [1, 1], Yperm := [0, 0], Xflips := [0, 0], Yflips := [0, 0],
          XelimDeg := [0, 0], YelimDeg := [0, 0], work := 0 } =
      order_singletons { Xp := [0, 1, 2], Xi := [0, 1], Yp := [0, 1, 2], Yi := [0, 1] }
        { queue := [1, 0], singletons_found := 0, Xdeg := [1, 1], Xperm := [0, 0],
          Ydeg := [1, 1], Yperm := [0, 0], Xflips := [0, 0], Yflips := [0, 0],
          XelimDeg := [0, 0], YelimDeg := [0, 0], work := 0 }) ∧
    (order_singletons { Xp := [0, 1, 2], Xi := [0, 1], Yp := [0, 1, 2], Yi := [0, 1] }
        { queue := [1, 0], singletons_found := 0, Xdeg := [1, 1], Xperm := [0, 0],
          Ydeg := [1, 1], Yperm := [0, 0], Xflips := [0, 0], Yflips := [0, 0],
          XelimDeg := [0, 0], YelimDeg := [0, 0], work := 0 }).queue = [] :=
  claim_C5_find_singletons_terminates.1
    { Xp := [0, 1, 2], Xi := [0, 1], Yp := [0, 1, 2], Yi := [0, 1] }
    { queue := [1, 0], singletons_found := 0, Xdeg := [1, 1], Xperm := [0, 0],
      Ydeg := [1, 1], Yperm := [0, 0], Xflips := [0, 0], Yflips := [0, 0],
      XelimDeg := [0, 0], YelimDeg := [0, 0], work := 0 } 10 (by decide)

/-! ### List surgery lemmas for `complete_permutation` -/

theorem take_set_of_le {α : Type} {l : List α} {i j : Nat} (v : α) (h : j ≤ i) :
    (l.set i v).take j = l.take j := by
  rw [List.set_take]
  refine List.set_eq_of_length_le ?_
  simp only [List.length_take]
  omega

theorem take_succ_set_self {α : Type} {l : List α} {i : Nat} (v : α) (h : i < l.length) :
    (l.set i v).take (i + 1) = l.take i ++ [v] := by
  rw [List.take_succ, take_set_of_le v le_rfl, List.getElem?_set_self h]
  rfl

theorem drop_set_of_lt {α : Type} {l : List α} {i j : Nat} (v : α) (h : i < j) :
    (l.set i v).drop j = l.drop j := by
  rw [List.drop_set, if_pos h]

theorem drop_set_self {α : Type} {l : List α} {i : Nat} (v : α) (h : i < l.length) :
    (l.set i v).drop i = v :: l.drop (i + 1) := by
  have h' : i < (l.set i v).length := by simpa using h
  rw [List.drop_eq_getElem_cons h', List.getElem_set_self, drop_set_of_lt v (Nat.lt_succ_self i)]

theorem slice_set_ge {α : Type} {l : List α} {i a c : Nat} (v : α) (h : a + c ≤ i) :
    ((l.set i v).drop a).take c = (l.drop a).take c := by
  rw [List.drop_set, if_neg (by omega), List.set_take]
  refine List.set_eq_of_length_le ?_
  simp only [List.length_take]
  omega

theorem take_slice_drop {α : Type} (l : List α) (a b : Nat) :
    l.take a ++ (l.drop a).take b ++ l.drop (a + b) = l := by
  rw [← List.take_add, List.take_append_drop]

/-! ### Characterization of the `complete_permutation` fold -/

/-- The still-active (positive-degree) entities of `ks`, in order. -/
def pos_elems (Xdeg : List Int) (ks : List Nat) : List Nat :=
  ks.filter (fun k => decide (0 < Xdeg.getD k 0))

/-- The structurally empty (zero-degree) entities of `ks`, in order. -/
def zero_elems (Xdeg : List Int) (ks : List Nat) : List Nat :=
  ks.filter (fun k => decide (Xdeg.getD k 0 = 0))

/-- The eliminated (flipped, negative-degree) entities of `ks`, in order. -/
def neg_elems (Xdeg : List Int) (ks : List Nat) : List Nat :=
  ks.filter (fun k => decide (Xdeg.getD k 0 < 0))

theorem cperm_fold_spec (n : Nat) :
    ∀ (ks : List Nat) (st : cperm_state_t), ks.Nodup → (∀ k ∈ ks, k < n) →
    st.Xdeg.length = n → st.Xperm.length = n → st.Xflips.length = n →
    st.start + (pos_elems st.Xdeg ks).length + (zero_elems st.Xdeg ks).length +
      st.num_empty ≤ n →
    (ks.foldl (complete_permutation_step n) st).num_empty =
        st.num_empty + (zero_elems st.Xdeg ks).length ∧
    (ks.foldl (complete_permutation_step n) st).start =
        st.start + (pos_elems st.Xdeg ks).length ∧
    (ks.foldl (complete_permutation_step n) st).Xdeg.length = n ∧
    (ks.foldl (complete_permutation_step n) st).Xperm.length = n ∧
    (ks.foldl (complete_permutation_step n) st).Xflips.length = n ∧
    (∀ k', (ks.foldl (complete_permutation_step n) st).Xdeg.getD k' 0 =
        if k' ∈ ks ∧ st.Xdeg.getD k' 0 < 0 then FLIP (st.Xdeg.getD k' 0)
        else st.Xdeg.getD k' 0) ∧
    (∀ k', (ks.foldl (complete_permutation_step n) st).Xflips.getD k' 0 =
        if k' ∈ ks ∧ st.Xdeg.getD k' 0 < 0 then st.Xflips.getD k' 0 + 1
        else st.Xflips.getD k' 0) ∧
    (ks.foldl (complete_permutation_step n) st).Xperm =
        st.Xperm.take st.start ++ pos_elems st.Xdeg ks ++
          (st.Xperm.drop (st.start + (pos_elems st.Xdeg ks).length)).take
            (n - st.num_empty - (zero_elems st.Xdeg ks).length -
              (st.start + (pos_elems st.Xdeg ks).length)) ++
          (zero_elems st.Xdeg ks).reverse ++ st.Xperm.drop (n - st.num_empty) := by
  intro ks
  induction ks with
  | nil =>
    intro st _ _ hXd hXp hXf hfit
    simp only [pos_elems, zero_elems] at hfit
    simp only [List.filter_nil, List.length_nil] at hfit
    refine ⟨by simp [zero_elems], by simp [pos_elems], hXd, hXp, hXf,
      fun k' => by simp, fun k' => by simp, ?_⟩
    simp only [List.foldl_nil, pos_elems, zero_elems, List.filter_nil, List.length_nil,
      List.reverse_nil, Nat.add_zero, Nat.sub_zero, List.append_nil]
    have h2 : n - st.num_empty = st.start + (n - st.num_empty - st.start) := by omega
    nth_rewrite 2 [h2]
    exact (take_slice_drop st.Xperm st.start (n - st.num_empty - st.start)).symm
  | cons k rest ih =>
    intro st hnd hks hXd hXp hXf hfit
    have hkn : k < n := hks k (by simp)
    have hkrest : k ∉ rest := (List.nodup_cons.mp hnd).1
    have hnd' : rest.Nodup := (List.nodup_cons.mp hnd).2
    have hks' : ∀ k' ∈ rest, k' < n := fun k' h => hks k' (by simp [h])
    rcases lt_trichotomy (st.Xdeg.getD k 0) 0 with hneg | h0 | hpos
    · -- eliminated entity: restore the degree by a second flip
      have hstep : complete_permutation_step n st k =
          { st with
              Xdeg := st.Xdeg.set k (FLIP (st.Xdeg.getD k 0))
              Xflips := st.Xflips.set k (st.Xflips.getD k 0 + 1) } := by
        simp only [complete_permutation_step]
        rw [if_neg (by omega), if_neg (by omega)]
      simp only [List.foldl_cons, hstep]
      set st' : cperm_state_t :=
        { st with
            Xdeg := st.Xdeg.set k (FLIP (st.Xdeg.getD k 0))
            Xflips := st.Xflips.set k (st.Xflips.getD k 0 + 1) } with hst'
      have hagree : ∀ k' ∈ rest, st'.Xdeg.getD k' 0 = st.Xdeg.getD k' 0 := by
        intro k' hk'
        exact getD_set_ne _ (fun he => hkrest (he ▸ hk'))
      have hposr : pos_elems st'.Xdeg rest = pos_elems st.Xdeg rest :=
        List.filter_congr (fun k' hk' => by rw [hagree k' hk'])
      have hzeror : zero_elems st'.Xdeg rest = zero_elems st.Xdeg rest :=
        List.filter_congr (fun k' hk' => by rw [hagree k' hk'])
      have hposl : pos_elems st.Xdeg (k :: rest) = pos_elems st.Xdeg rest := by
        simp only [pos_elems, List.filter_cons]
        rw [if_neg (by simp only [decide_eq_true_eq]; omega)]
      have hzerol : zero_elems st.Xdeg (k :: rest) = zero_elems st.Xdeg rest := by
        simp only [zero_elems, List.filter_cons]
        rw [if_neg (by simp only [decide_eq_true_eq]; omega)]
      obtain ⟨c1, c2, c3, c4, c5, c6, c7, c8⟩ := ih st' hnd' hks'
        (by simp [hst', hXd]) (by simp [hst', hXp]) (by simp [hst', hXf])
        (by
          rw [hposr, hzeror]
          show st.start + (pos_elems st.Xdeg rest).length +
            (zero_elems st.Xdeg rest).length + st.num_empty ≤ n
          rw [← hposl, ← hzerol]
          exact hfit)
      simp only [hposr, hzeror] at c1 c2 c8
      refine ⟨by rw [hzerol]; exact c1, by rw [hposl]; exact c2, c3, c4, c5, ?_, ?_, ?_⟩
      · intro k'
        rw [c6 k']
        by_cases hk'k : k' = k
        · subst hk'k
          rw [if_neg (fun h => hkrest h.1), if_pos ⟨by simp, hneg⟩]
          show (st.Xdeg.set k' (FLIP (st.Xdeg.getD k' 0))).getD k' 0 = FLIP (st.Xdeg.getD k' 0)
          exact getD_set_self (by omega)
        · have he : st'.Xdeg.getD k' 0 = st.Xdeg.getD k' 0 :=
            getD_set_ne _ (fun he => hk'k he.symm)
          rw [he]
          refine if_congr ?_ rfl rfl
          simp [List.mem_cons, hk'k]
      · intro k'
        rw [c7 k']
        by_cases hk'k : k' = k
        · subst hk'k
          rw [if_neg (fun h => hkrest h.1), if_pos ⟨by simp, hneg⟩]
          show (st.Xflips.set k' (st.Xflips.getD k' 0 + 1)).getD k' 0 = st.Xflips.getD k' 0 + 1
          exact getD_set_self (by omega)
        · have he : st'.Xdeg.getD k' 0 = st.Xdeg.getD k' 0 :=
            getD_set_ne _ (fun he => hk'k he.symm)
          have he2 : st'.Xflips.getD k' 0 = st.Xflips.getD k' 0 :=
            getD_set_ne _ (fun he => hk'k he.symm)
          rw [he, he2]
          refine if_congr ?_ rfl rfl
          simp [List.mem_cons, hk'k]
      · rw [c8, hposl, hzerol]
    · -- structurally empty entity: place it at the tail
      have hstep : complete_permutation_step n st k =
          { st with
              num_empty := st.num_empty + 1
              Xperm := st.Xperm.set (n - (st.num_empty + 1)) k } := by
        simp only [complete_permutation_step]
        rw [if_pos h0]
      simp only [List.foldl_cons, hstep]
      set st' : cperm_state_t :=
        { st with
            num_empty := st.num_empty + 1
            Xperm := st.Xperm.set (n - (st.num_empty + 1)) k } with hst'
      have hSne : st'.num_empty = st.num_empty + 1 := rfl
      have hSstart : st'.start = st.start := rfl
      have hSdeg : st'.Xdeg = st.Xdeg := rfl
      have hSperm : st'.Xperm = st.Xperm.set (n - (st.num_empty + 1)) k := rfl
      have hposl : pos_elems st.Xdeg (k :: rest) = pos_elems st.Xdeg rest := by
        simp only [pos_elems, List.filter_cons]
        rw [if_neg (by simp only [decide_eq_true_eq]; omega)]
      have hzerol : zero_elems st.Xdeg (k :: rest) = k :: zero_elems st.Xdeg rest := by
        simp only [zero_elems, List.filter_cons]
        rw [if_pos (by simp only [decide_eq_true_eq]; omega)]
      have hfit' : st.start + (pos_elems st.Xdeg rest).length +
          ((zero_elems st.Xdeg rest).length + 1) + st.num_empty ≤ n := by
        rw [← hposl]
        have hzl : (zero_elems st.Xdeg (k :: rest)).length =
            (zero_elems st.Xdeg rest).length + 1 := by rw [hzerol]; simp
        omega
      obtain ⟨c1, c2, c3, c4, c5, c6, c7, c8⟩ := ih st' hnd' hks'
        (by rw [hSdeg]; exact hXd) (by rw [hSperm, List.length_set]; exact hXp)
        (by show st.Xflips.length = n; exact hXf)
        (by rw [hSstart, hSdeg, hSne]; omega)
      simp only [hSne, hSstart, hSdeg] at c1 c2 c6 c7 c8
      refine ⟨?_, by rw [hposl]; exact c2, c3, c4, c5, ?_, ?_, ?_⟩
      · rw [hzerol, c1]
        simp only [List.length_cons]
        omega
      · intro k'
        rw [c6 k']
        by_cases hk'k : k' = k
        · subst hk'k
          rw [if_neg (fun h => hkrest h.1), if_neg (by intro h; omega)]
        · refine if_congr ?_ rfl rfl
          simp [List.mem_cons, hk'k]
      · intro k'
        rw [c7 k']
        have hSflips : st'.Xflips = st.Xflips := rfl
        rw [hSflips]
        by_cases hk'k : k' = k
        · subst hk'k
          rw [if_neg (fun h => hkrest h.1), if_neg (by intro h; omega)]
        · refine if_congr ?_ rfl rfl
          simp [List.mem_cons, hk'k]
      · rw [c8, hposl, hzerol]
        have hj : n - (st.num_empty + 1) < st.Xperm.length := by omega
        have e1 : (st.Xperm.set (n - (st.num_empty + 1)) k).take st.start =
            st.Xperm.take st.start := take_set_of_le k (by omega)
        have e2 : ((st.Xperm.set (n - (st.num_empty + 1)) k).drop
              (st.start + (pos_elems st.Xdeg rest).length)).take
            (n - (st.num_empty + 1) - (zero_elems st.Xdeg rest).length -
              (st.start + (pos_elems st.Xdeg rest).length)) =
            (st.Xperm.drop (st.start + (pos_elems st.Xdeg rest).length)).take
            (n - (st.num_empty + 1) - (zero_elems st.Xdeg rest).length -
              (st.start + (pos_elems st.Xdeg rest).length)) :=
          slice_set_ge k (by omega)
        have e3 : (st.Xperm.set (n - (st.num_empty + 1)) k).drop (n - (st.num_empty + 1)) =
            k :: st.Xperm.drop (n - st.num_empty) := by
          rw [drop_set_self k hj]
          have heq : n - (st.num_empty + 1) + 1 = n - st.num_empty := by omega
          rw [heq]
        have elen : n - (st.num_empty + 1) - (zero_elems st.Xdeg rest).length -
            (st.start + (pos_elems st.Xdeg rest).length) =
            n - st.num_empty - (k :: zero_elems st.Xdeg rest).length -
            (st.start + (pos_elems st.Xdeg rest).length) := by
          simp only [List.length_cons]
          omega
        rw [e1, e2, e3, elen]
        simp [List.append_assoc, List.reverse_cons]
    · -- still-active entity: place it at the next middle slot
      have hstep : complete_permutation_step n st k =
          { st with
              Xperm := st.Xperm.set st.start k
              start := st.start + 1 } := by
        simp only [complete_permutation_step]
        rw [if_neg (by omega), if_pos hpos]
      simp only [List.foldl_cons, hstep]
      set st' : cperm_state_t :=
        { st with
            Xperm := st.Xperm.set st.start k
            start := st.start + 1 } with hst'
      have hSne : st'.num_empty = st.num_empty := rfl
      have hSstart : st'.start = st.start + 1 := rfl
      have hSdeg : st'.Xdeg = st.Xdeg := rfl
      have hSperm : st'.Xperm = st.Xperm.set st.start k := rfl
      have hposl : pos_elems st.Xdeg (k :: rest) = k :: pos_elems st.Xdeg rest := by
        simp only [pos_elems, List.filter_cons]
        rw [if_pos (by simp only [decide_eq_true_eq]; omega)]
      have hzerol : zero_elems st.Xdeg (k :: rest) = zero_elems st.Xdeg rest := by
        simp only [zero_elems, List.filter_cons]
        rw [if_neg (by simp only [decide_eq_true_eq]; omega)]
      have hfit' : (st.start + 1) + (pos_elems st.Xdeg rest).length +
          (zero_elems st.Xdeg rest).length + st.num_empty ≤ n := by
        rw [← hzerol]
        have hpl : (pos_elems st.Xdeg (k :: rest)).length =
            (pos_elems st.Xdeg rest).length + 1 := by rw [hposl]; simp
        omega
      obtain ⟨c1, c2, c3, c4, c5, c6, c7, c8⟩ := ih st' hnd' hks'
        (by rw [hSdeg]; exact hXd) (by rw [hSperm, List.length_set]; exact hXp)
        (by show st.Xflips.length = n; exact hXf)
        (by rw [hSstart, hSdeg, hSne]; omega)
      simp only [hSne, hSstart, hSdeg] at c1 c2 c6 c7 c8
      refine ⟨by rw [hzerol]; exact c1, ?_, c3, c4, c5, ?_, ?_, ?_⟩
      · rw [hposl, c2]
        simp only [List.length_cons]
        omega
      · intro k'
        rw [c6 k']
        by_cases hk'k : k' = k
        · subst hk'k
          rw [if_neg (fun h => hkrest h.1), if_neg (by intro h; omega)]
        · refine if_congr ?_ rfl rfl
          simp [List.mem_cons, hk'k]
      · intro k'
        rw [c7 k']
        have hSflips : st'.Xflips = st.Xflips := rfl
        rw [hSflips]
        by_cases hk'k : k' = k
        · subst hk'k
          rw [if_neg (fun h => hkrest h.1), if_neg (by intro h; omega)]
        · refine if_congr ?_ rfl rfl
          simp [List.mem_cons, hk'k]
      · rw [c8, hposl, hzerol]
        have hstart_lt : st.start < st.Xperm.length := by
          have hpl : (pos_elems st.Xdeg (k :: rest)).length =
              (pos_elems st.Xdeg rest).length + 1 := by rw [hposl]; simp
          omega
        have e1 : (st.Xperm.set st.start k).take (st.start + 1) =
            st.Xperm.take st.start ++ [k] := take_succ_set_self k hstart_lt
        have e2 : ((st.Xperm.set st.start k).drop
              ((st.start + 1) + (pos_elems st.Xdeg rest).length)).take
            (n - st.num_empty - (zero_elems st.Xdeg rest).length -
              ((st.start + 1) + (pos_elems st.Xdeg rest).length)) =
            (st.Xperm.drop ((st.start + 1) + (pos_elems st.Xdeg rest).length)).take
            (n - st.num_empty - (zero_elems st.Xdeg rest).length -
              ((st.start + 1) + (pos_elems st.Xdeg rest).length)) := by
          rw [drop_set_of_lt k (by omega)]
        have e3 : (st.Xperm.set st.start k).drop (n - st.num_empty) =
            st.Xperm.drop (n - st.num_empty) := by
          rw [drop_set_of_lt k (by omega)]
        have elen : (st.start + 1) + (pos_elems st.Xdeg rest).length =
            st.start + (k :: pos_elems st.Xdeg rest).length := by
          simp only [List.length_cons]
          omega
        rw [e1, e2, e3, elen]
        simp [List.append_assoc]

theorem elems_length_sum (X : List Int) (l : List Nat) :
    (pos_elems X l).length + (zero_elems X l).length + (neg_elems X l).length = l.length := by
  induction l with
  | nil => rfl
  | cons a t ih =>
    rcases lt_trichotomy (X.getD a 0) 0 with h | h | h
    · simp only [pos_elems, zero_elems, neg_elems, List.filter_cons] at *
      rw [if_neg (by simp only [decide_eq_true_eq]; omega),
        if_neg (by simp only [decide_eq_true_eq]; omega),
        if_pos (by simp only [decide_eq_true_eq]; omega)]
      simp only [List.length_cons]
      omega
    · simp only [pos_elems, zero_elems, neg_elems, List.filter_cons] at *
      rw [if_neg (by simp only [decide_eq_true_eq]; omega),
        if_pos (by simp only [decide_eq_true_eq]; omega),
        if_neg (by simp only [decide_eq_true_eq]; omega)]
      simp only [List.length_cons]
      omega
    · simp only [pos_elems, zero_elems, neg_elems, List.filter_cons] at *
      rw [if_pos (by simp only [decide_eq_true_eq]; omega),
        if_neg (by simp only [decide_eq_true_eq]; omega),
        if_neg (by simp only [decide_eq_true_eq]; omega)]
      simp only [List.length_cons]
      omega

theorem neg_pos_zero_perm (X : List Int) (l : List Nat) :
    List.Perm (neg_elems X l ++ pos_elems X l ++ zero_elems X l) l := by
  induction l with
  | nil => simp [neg_elems, pos_elems, zero_elems]
  | cons a t ih =>
    rcases lt_trichotomy (X.getD a 0) 0 with h | h | h
    · simp only [pos_elems, zero_elems, neg_elems, List.filter_cons]
      rw [if_pos (by simp only [decide_eq_true_eq]; omega),
        if_neg (by simp only [decide_eq_true_eq]; omega),
        if_neg (by simp only [decide_eq_true_eq]; omega)]
      exact List.Perm.cons a ih
    · simp only [pos_elems, zero_elems, neg_elems, List.filter_cons]
      rw [if_neg (by simp only [decide_eq_true_eq]; omega),
        if_neg (by simp only [decide_eq_true_eq]; omega),
        if_pos (by simp only [decide_eq_true_eq]; omega)]
      exact List.perm_middle.trans (List.Perm.cons a ih)
    · simp only [pos_elems, zero_elems, neg_elems, List.filter_cons]
      rw [if_neg (by simp only [decide_eq_true_eq]; omega),
        if_pos (by simp only [decide_eq_true_eq]; omega),
        if_neg (by simp only [decide_eq_true_eq]; omega)]
      rw [List.append_assoc]
      refine List.Perm.trans List.perm_middle ?_
      refine List.Perm.cons a ?_
      show List.Perm (neg_elems X t ++ (pos_elems X t ++ zero_elems X t)) t
      rw [← List.append_assoc]
      exact ih

theorem complete_permutation_spec (Xdeg : List Int) (Xperm Xflips : List Nat)
    (hXp : Xperm.length = Xdeg.length) (hXf : Xflips.length = Xdeg.length) :
    let n := Xdeg.length
    let s := (neg_elems Xdeg (List.range n)).length
    (complete_permutation s Xdeg Xperm Xflips).num_empty =
        (zero_elems Xdeg (List.range n)).length ∧
    (complete_permutation s Xdeg Xperm Xflips).Xperm =
        Xperm.take s ++ pos_elems Xdeg (List.range n) ++
          (zero_elems Xdeg (List.range n)).reverse ∧
    (complete_permutation s Xdeg Xperm Xflips).Xperm.length = n ∧
    (complete_permutation s Xdeg Xperm Xflips).Xdeg.length = n ∧
    (complete_permutation s Xdeg Xperm Xflips).Xflips.length = n ∧
    (∀ k', (complete_permutation s Xdeg Xperm Xflips).Xdeg.getD k' 0 =
        if k' < n ∧ Xdeg.getD k' 0 < 0 then FLIP (Xdeg.getD k' 0) else Xdeg.getD k' 0) ∧
    (∀ k', (complete_permutation s Xdeg Xperm Xflips).Xflips.getD k' 0 =
        if k' < n ∧ Xdeg.getD k' 0 < 0 then Xflips.getD k' 0 + 1 else Xflips.getD k' 0) := by
  intro n s
  have hsum := elems_length_sum Xdeg (List.range n)
  rw [List.length_range] at hsum
  have hmaster := cperm_fold_spec n (List.range n)
    { num_empty := 0, start := s, Xdeg := Xdeg, Xperm := Xperm, Xflips := Xflips }
    (List.nodup_range n) (fun k h => List.mem_range.mp h) rfl hXp hXf (by simp only; omega)
  obtain ⟨c1, _, c3, c4, c5, c6, c7, c8⟩ := hmaster
  refine ⟨by simpa using c1, ?_, c4, c3, c5, ?_, ?_⟩
  · rw [show (List.range n).foldl (complete_permutation_step n)
        { num_empty := 0, start := s, Xdeg := Xdeg, Xperm := Xperm, Xflips := Xflips } =
        complete_permutation s Xdeg Xperm Xflips from rfl] at c8
    rw [c8]
    have hz : n - 0 - (zero_elems Xdeg (List.range n)).length -
        (s + (pos_elems Xdeg (List.range n)).length) = 0 := by omega
    have hd : Xperm.drop (n - 0) = [] := by
      refine List.drop_eq_nil_of_le ?_
      omega
    rw [hz, hd]
    simp
  · intro k'
    rw [show (List.range n).foldl (complete_permutation_step n)
        { num_empty := 0, start := s, Xdeg := Xdeg, Xperm := Xperm, Xflips := Xflips } =
        complete_permutation s Xdeg Xperm Xflips from rfl] at c6
    rw [c6 k']
    refine if_congr ?_ rfl rfl
    rw [List.mem_range]
  · intro k'
    rw [show (List.range n).foldl (complete_permutation_step n)
        { num_empty := 0, start := s, Xdeg := Xdeg, Xperm := Xperm, Xflips := Xflips } =
        complete_permutation s Xdeg Xperm Xflips from rfl] at c7
    rw [c7 k']
    refine if_congr ?_ rfl rfl
    rw [List.mem_range]

/-! ### Claim C8: `complete_permutation` routes empties to the tail -/

/-- Claim C8: empty (degree-0) entities are not an error: when
`complete_permutation` is called with `singletons` equal to the number of
eliminated (negative-degree) entities, it returns the number of degree-0
entities as `num_empty`, appends the still-active (positive-degree) entities
in ascending original-index order right after the singleton block, and places
every degree-0 entity in the tail positions of the permutation, which stays
a full-length array. -/
theorem claim_C8_complete_permutation_routes_empties (Xdeg : List Int)
    (Xperm Xflips : List Nat) (s : Nat)
    (hXp : Xperm.length = Xdeg.length) (hXf : Xflips.length = Xdeg.length)
    (hs : s = ((List.range Xdeg.length).filter
        (fun k => decide (Xdeg.getD k 0 < 0))).length) :
    (complete_permutation s Xdeg Xperm Xflips).num_empty =
        ((List.range Xdeg.length).filter (fun k => decide (Xdeg.getD k 0 = 0))).length ∧
    (complete_permutation s Xdeg Xperm Xflips).Xperm =
        Xperm.take s ++
          (List.range Xdeg.length).filter (fun k => decide (0 < Xdeg.getD k 0)) ++
          ((List.range Xdeg.length).filter (fun k => decide (Xdeg.getD k 0 = 0))).reverse ∧
    (complete_permutation s Xdeg Xperm Xflips).Xperm.length = Xdeg.length := by
  subst hs
  have h := complete_permutation_spec Xdeg Xperm Xflips hXp hXf
  simp only [neg_elems, pos_elems, zero_elems] at h
  exact ⟨h.1, h.2.1, h.2.2.1⟩

/-- Witness for claim C8 at a degree array with eliminated, active and empty
entities mixed. -/
theorem claim_C8_complete_permutation_routes_empties_witness :
    (complete_permutation 2 [-2, 3, 0, -1, 0] [7, 8, 9, 10, 11] [1, 0, 0, 1, 0]).num_empty =
        ((List.range 5).filter
          (fun k => decide (([-2, 3, 0, -1, 0] : List Int).getD k 0 = 0))).length ∧
    (complete_permutation 2 [-2, 3, 0, -1, 0] [7, 8, 9, 10, 11] [1, 0, 0, 1, 0]).Xperm =
        [7, 8, 9, 10, 11].take 2 ++
          (List.range 5).filter (fun k => decide (0 < ([-2, 3, 0, -1, 0] : List Int).getD k 0)) ++
          ((List.range 5).filter
            (fun k => decide (([-2, 3, 0, -1, 0] : List Int).getD k 0 = 0))).reverse ∧
    (complete_permutation 2 [-2, 3, 0, -1, 0] [7, 8, 9, 10, 11] [1, 0, 0, 1, 0]).Xperm.length =
      5 :=
  claim_C8_complete_permutation_routes_empties [-2, 3, 0, -1, 0] [7, 8, 9, 10, 11]
    [1, 0, 0, 1, 0] 2 (by decide) (by decide) (by decide)

/-! ### Correctness of `create_row_representation`: it builds the transpose -/

theorem getD_take {α : Type} {l : List α} {k m : Nat} {d : α} (h : k < m) :
    (l.take m).getD k d = l.getD k d := by
  simp [List.getD_eq_getElem?_getD, List.getElem?_take, h]

/-- The monotone column pointers are monotone over any span of `[0, n]`. -/
theorem cs_mono (A : csc_matrix_t) (hwf : csc_wf A) :
    ∀ j j', j ≤ j' → j' ≤ A.n → A.col_start.getD j 0 ≤ A.col_start.getD j' 0 := by
  intro j j' hle hub
  obtain ⟨d, rfl⟩ : ∃ d, j' = j + d := ⟨j' - j, by omega⟩
  induction d with
  | zero => exact le_rfl
  | succ d ihd =>
    have h1 := ihd (by omega) (by omega)
    have h2 := hwf.2.2.2.1 (j + d) (by omega)
    rw [← Nat.add_assoc]
    omega

/-- Flattening the column segments in column order recovers the row-index
array. -/
theorem csc_flatten_aux (A : csc_matrix_t) (hwf : csc_wf A) :
    ∀ k, k ≤ A.n →
      (List.range k).flatMap (col_seg A) = A.i.take (A.col_start.getD k 0) := by
  intro k
  induction k with
  | zero =>
    intro _
    rw [hwf.2.1]
    rfl
  | succ k ihk =>
    intro hk
    have h1 := ihk (by omega)
    rw [List.range_succ, List.flatMap_append, h1]
    have hmono := hwf.2.2.2.1 k (by omega)
    have heq : A.col_start.getD (k + 1) 0 =
        A.col_start.getD k 0 + (A.col_start.getD (k + 1) 0 - A.col_start.getD k 0) := by
      omega
    rw [heq, List.take_add]
    simp [col_seg, seg]

theorem csc_pairs_map_fst (A : csc_matrix_t) (hwf : csc_wf A) :
    (csc_pairs A).map Prod.fst = A.i := by
  rw [csc_pairs, List.map_flatMap]
  have h1 : ∀ j, ((col_seg A j).map (fun r => ((r, j) : Nat × Nat))).map Prod.fst =
      col_seg A j := by
    intro j
    rw [List.map_map]
    exact List.map_id (col_seg A j)
  calc (List.range A.n).flatMap (fun j => ((col_seg A j).map fun r => (r, j)).map Prod.fst)
      = (List.range A.n).flatMap (col_seg A) := by
        refine congrArg _ ?_
        funext j
        exact h1 j
    _ = A.i.take (A.col_start.getD A.n 0) := csc_flatten_aux A hwf A.n le_rfl
    _ = A.i := by
        rw [hwf.2.2.1]
        exact List.take_length A.i

theorem csc_pairs_fst_lt (A : csc_matrix_t) (hwf : csc_wf A) :
    ∀ pr ∈ csc_pairs A, pr.1 < A.m := by
  intro pr hpr
  have : pr.1 ∈ (csc_pairs A).map Prod.fst := List.mem_map_of_mem Prod.fst hpr
  rw [csc_pairs_map_fst A hwf] at this
  exact hwf.2.2.2.2 pr.1 this

theorem csc_pairs_snd_lt (A : csc_matrix_t) :
    ∀ pr ∈ csc_pairs A, pr.2 < A.n := by
  intro pr hpr
  rw [csc_pairs, List.mem_flatMap] at hpr
  obtain ⟨j, hj, hmem⟩ := hpr
  rw [List.mem_map] at hmem
  obtain ⟨r, _, rfl⟩ := hmem
  exact List.mem_range.mp hj

/-- Counting the occurrences of the pair `(r, j)` in the column-major pair
list counts `r` in column `j`. -/
theorem countP_pair_csc_pairs (A : csc_matrix_t) (r j : Nat) (hj : j < A.n) :
    List.countP (fun pr => decide (pr.1 = r ∧ pr.2 = j)) (csc_pairs A) =
      List.count r (col_seg A j) := by
  rw [csc_pairs]
  have head_eq : ∀ j', List.countP (fun pr => decide (pr.1 = r ∧ pr.2 = j))
      ((col_seg A j').map (fun i => (i, j'))) =
      if j' = j then List.count r (col_seg A j') else 0 := by
    intro j'
    rw [List.countP_map]
    by_cases hjj : j' = j
    · subst hjj
      rw [if_pos rfl, List.count_eq_countP]
      refine List.countP_congr ?_
      intro x _
      simp
    · rw [if_neg hjj]
      rw [List.countP_eq_zero]
      intro a _
      simp only [Function.comp_apply, decide_eq_true_eq]
      intro hc
      exact hjj hc.2
  have key : ∀ (l : List Nat), l.Nodup → (j ∈ l →
        List.countP (fun pr => decide (pr.1 = r ∧ pr.2 = j))
          (l.flatMap (fun j' => (col_seg A j').map (fun i => (i, j')))) =
        List.count r (col_seg A j)) ∧
      (j ∉ l → List.countP (fun pr => decide (pr.1 = r ∧ pr.2 = j))
          (l.flatMap (fun j' => (col_seg A j').map (fun i => (i, j')))) = 0) := by
    intro l
    induction l with
    | nil => exact fun _ => ⟨fun h => absurd h (List.not_mem_nil j), fun _ => rfl⟩
    | cons a t iht =>
      intro hnd
      have ihr := iht (List.nodup_cons.mp hnd).2
      constructor
      · intro hmem
        rw [List.flatMap_cons, List.countP_append, head_eq a]
        rcases List.mem_cons.mp hmem with rfl | hmem'
        · rw [if_pos rfl, ihr.2 (List.nodup_cons.mp hnd).1]
          omega
        · have hji : a ≠ j := by
            rintro rfl
            exact (List.nodup_cons.mp hnd).1 hmem'
          rw [if_neg hji, ihr.1 hmem']
          omega
      · intro hmem
        rw [List.flatMap_cons, List.countP_append, head_eq a]
        have hja : a ≠ j := fun he => hmem (he ▸ List.mem_cons_self a t)
        rw [if_neg hja, ihr.2 (fun h => hmem (List.mem_cons_of_mem a h))]
  exact (key (List.range A.n) (List.nodup_range A.n)).1 (List.mem_range.mpr hj)


/-- The slice of `len` entries of `L` starting at position `s`, read through
`getD`. -/
def row_slice (L : List Nat) (s len : Nat) : List Nat :=
  (List.range len).map (fun t => L.getD (s + t) 0)

theorem row_slice_succ (L : List Nat) (s len : Nat) :
    row_slice L s (len + 1) = L.getD s 0 :: row_slice L (s + 1) len := by
  rw [row_slice, List.range_succ_eq_map, List.map_cons]
  refine congrArg₂ _ (by rw [Nat.add_zero]) ?_
  rw [List.map_map, row_slice]
  refine List.map_congr_left ?_
  intro t _
  simp only [Function.comp_apply]
  rw [show s + Nat.succ t = s + 1 + t from by omega]

theorem row_slice_congr {L L' : List Nat} (s len : Nat)
    (h : ∀ t, t < len → L.getD (s + t) 0 = L'.getD (s + t) 0) :
    row_slice L s len = row_slice L' s len := by
  rw [row_slice, row_slice]
  refine List.map_congr_left ?_
  intro t ht
  exact h t (List.mem_range.mp ht)

theorem seg_eq_row_slice (P I : List Nat) (x : Nat)
    (h : P.getD x 0 + (P.getD (x + 1) 0 - P.getD x 0) ≤ I.length) :
    seg P I x = row_slice I (P.getD x 0) (P.getD (x + 1) 0 - P.getD x 0) := by
  refine List.ext_getElem ?_ ?_
  · simp only [seg, row_slice, List.length_take, List.length_drop, List.length_map,
      List.length_range]
    omega
  · intro i h1 h2
    simp only [seg, List.length_take, List.length_drop] at h1
    have hi : i < P.getD (x + 1) 0 - P.getD x 0 := by omega
    have hlen : P.getD x 0 + i < I.length := by omega
    simp only [seg]
    rw [List.getElem_take, List.getElem_drop]
    simp only [row_slice]
    have h3 : i < (List.range (P.getD (x + 1) 0 - P.getD x 0)).length := by
      simp only [List.length_range]
      exact hi
    rw [List.getElem_map, List.getElem_range]
    exact (getD_eq_getElem hlen).symm

/-- The scatter loop of `create_row_representation`: processing the pair list
left to right fills each row segment, in order, with the column indices of
that row's pairs, and touches nothing outside the cursor ranges. -/
theorem fill_fold_spec (m nz : Nat) (Rp : List Nat)
    (hmono : ∀ r r', r ≤ r' → r' ≤ m → Rp.getD r 0 ≤ Rp.getD r' 0)
    (hRpm : Rp.getD m 0 ≤ nz) :
    ∀ (P : List (Nat × Nat)) (ws Rj : List Nat),
      ws.length = m → Rj.length = nz →
      (∀ pr ∈ P, pr.1 < m) →
      (∀ r, r < m → Rp.getD r 0 ≤ ws.getD r 0 ∧
          ws.getD r 0 + List.countP (fun i => decide (i = r)) (P.map Prod.fst) =
            Rp.getD (r + 1) 0) →
      (P.foldl (fun (st : List Nat × List Nat) pr =>
          (st.1.set pr.1 (st.1.getD pr.1 0 + 1), st.2.set (st.1.getD pr.1 0) pr.2))
        (ws, Rj)).2.length = nz ∧
      (∀ r, r < m →
        row_slice (P.foldl (fun (st : List Nat × List Nat) pr =>
            (st.1.set pr.1 (st.1.getD pr.1 0 + 1), st.2.set (st.1.getD pr.1 0) pr.2))
          (ws, Rj)).2 (ws.getD r 0)
          (List.countP (fun i => decide (i = r)) (P.map Prod.fst)) =
        (P.filter (fun pr => decide (pr.1 = r))).map Prod.snd) ∧
      (∀ pos, (∀ r, r < m → ¬ (ws.getD r 0 ≤ pos ∧ pos < Rp.getD (r + 1) 0)) →
        (P.foldl (fun (st : List Nat × List Nat) pr =>
            (st.1.set pr.1 (st.1.getD pr.1 0 + 1), st.2.set (st.1.getD pr.1 0) pr.2))
          (ws, Rj)).2.getD pos 0 = Rj.getD pos 0) := by
  intro P
  induction P with
  | nil =>
    intro ws Rj hwsl hRjl _ _
    refine ⟨hRjl, ?_, fun pos _ => rfl⟩
    intro r _
    simp [row_slice]
  | cons pr P' ih =>
    intro ws Rj hwsl hRjl hfst hinv
    obtain ⟨r₀, j₀⟩ := pr
    have hr₀m : r₀ < m := hfst (r₀, j₀) (by simp)
    have hq := hinv r₀ hr₀m
    have hcnt_cons : List.countP (fun i => decide (i = r₀))
        (((r₀, j₀) :: P').map Prod.fst) =
        List.countP (fun i => decide (i = r₀)) (P'.map Prod.fst) + 1 := by
      simp [List.countP_cons]
    have hq_lt : ws.getD r₀ 0 < Rp.getD (r₀ + 1) 0 := by
      rw [hcnt_cons] at hq
      omega
    have hq_nz : ws.getD r₀ 0 < nz := by
      have := hmono (r₀ + 1) m (by omega) le_rfl
      omega
    have hfold : ((r₀, j₀) :: P').foldl (fun (st : List Nat × List Nat) pr =>
        (st.1.set pr.1 (st.1.getD pr.1 0 + 1), st.2.set (st.1.getD pr.1 0) pr.2))
        (ws, Rj) =
        P'.foldl (fun (st : List Nat × List Nat) pr =>
          (st.1.set pr.1 (st.1.getD pr.1 0 + 1), st.2.set (st.1.getD pr.1 0) pr.2))
        (ws.set r₀ (ws.getD r₀ 0 + 1), Rj.set (ws.getD r₀ 0) j₀) := rfl
    have hdisj : ∀ r, r < m → r ≠ r₀ →
        ¬ ((ws.set r₀ (ws.getD r₀ 0 + 1)).getD r 0 ≤ ws.getD r₀ 0 ∧
          ws.getD r₀ 0 < Rp.getD (r + 1) 0) := by
      intro r hrm hrr₀ ⟨hle, hlt⟩
      rw [getD_set_ne _ (fun he => hrr₀ he.symm)] at hle
      have h1 := (hinv r hrm).1
      rcases Nat.lt_or_ge r r₀ with hlt' | hge
      · have := hmono (r + 1) r₀ (by omega) (by omega)
        omega
      · have := hmono (r₀ + 1) r (by omega) (by omega)
        omega
    have hinv' : ∀ r, r < m → Rp.getD r 0 ≤ (ws.set r₀ (ws.getD r₀ 0 + 1)).getD r 0 ∧
        (ws.set r₀ (ws.getD r₀ 0 + 1)).getD r 0 +
          List.countP (fun i => decide (i = r)) (P'.map Prod.fst) =
        Rp.getD (r + 1) 0 := by
      intro r hrm
      by_cases hrr : r = r₀
      · subst hrr
        rw [getD_set_self (by omega)]
        rw [hcnt_cons] at hq
        exact ⟨by omega, by omega⟩
      · rw [getD_set_ne _ (fun he => hrr he.symm)]
        have h1 := hinv r hrm
        have h2 : List.countP (fun i => decide (i = r)) (((r₀, j₀) :: P').map Prod.fst) =
            List.countP (fun i => decide (i = r)) (P'.map Prod.fst) := by
          simp only [List.map_cons, List.countP_cons]
          rw [if_neg (by simp only [decide_eq_true_eq]; exact fun he => hrr he.symm)]
          omega
        rw [h2] at h1
        exact h1
    set ws' : List Nat := ws.set r₀ (ws.getD r₀ 0 + 1) with hws'
    set Rj' : List Nat := Rj.set (ws.getD r₀ 0) j₀ with hRj'
    have hws'r₀ : ws'.getD r₀ 0 = ws.getD r₀ 0 + 1 := getD_set_self (by omega)
    have hws'ne : ∀ r, r ≠ r₀ → ws'.getD r 0 = ws.getD r 0 :=
      fun r hr => getD_set_ne _ (fun he => hr he.symm)
    obtain ⟨ihl, ihs, ihu⟩ := ih ws' Rj'
      (by rw [hws', List.length_set]; exact hwsl) (by rw [hRj', List.length_set]; exact hRjl)
      (fun pr h => hfst pr (by simp [h]))
      (by
        intro r hrm
        by_cases hrr : r = r₀
        · subst hrr
          rw [hws'r₀]
          have := hinv' r hrm
          rwa [getD_set_self (by omega)] at this
        · rw [hws'ne r hrr]
          have := hinv' r hrm
          rwa [getD_set_ne _ (fun he => hrr he.symm)] at this)
    have hout' : ∀ pos, (∀ r, r < m → ¬ (ws.getD r 0 ≤ pos ∧ pos < Rp.getD (r + 1) 0)) →
        ∀ r, r < m → ¬ (ws'.getD r 0 ≤ pos ∧ pos < Rp.getD (r + 1) 0) := by
      intro pos hout r hrm ⟨hle, hlt⟩
      by_cases hrr : r = r₀
      · subst hrr
        rw [hws'r₀] at hle
        exact hout r hrm ⟨by omega, hlt⟩
      · rw [hws'ne r hrr] at hle
        exact hout r hrm ⟨hle, hlt⟩
    have hslot : (P'.foldl (fun (st : List Nat × List Nat) pr =>
        (st.1.set pr.1 (st.1.getD pr.1 0 + 1), st.2.set (st.1.getD pr.1 0) pr.2))
        (ws', Rj')).2.getD (ws.getD r₀ 0) 0 = j₀ := by
      rw [ihu (ws.getD r₀ 0) ?_]
      · rw [hRj']
        exact getD_set_self (by omega)
      · intro r hrm ⟨hle, hlt⟩
        by_cases hrr : r = r₀
        · subst hrr
          rw [hws'r₀] at hle
          omega
        · exact hdisj r hrm hrr ⟨by rwa [hws'] at hle, hlt⟩
    rw [hfold]
    refine ⟨ihl, ?_, ?_⟩
    · intro r hrm
      by_cases hrr : r = r₀
      · subst hrr
        rw [hcnt_cons, row_slice_succ, hslot]
        have htail := ihs r hrm
        rw [hws'r₀] at htail
        rw [htail]
        rw [List.filter_cons, if_pos (by simp), List.map_cons]
      · have h2 : List.countP (fun i => decide (i = r)) (((r₀, j₀) :: P').map Prod.fst) =
            List.countP (fun i => decide (i = r)) (P'.map Prod.fst) := by
          simp only [List.map_cons, List.countP_cons]
          rw [if_neg (by simp only [decide_eq_true_eq]; exact fun he => hrr he.symm)]
          omega
        rw [h2]
        have htail := ihs r hrm
        rw [hws'ne r hrr] at htail
        rw [htail]
        rw [List.filter_cons,
          if_neg (by simp only [decide_eq_true_eq]; exact fun he => hrr (he.symm ▸ rfl))]
    · intro pos hout
      rw [ihu pos (hout' pos hout)]
      have hposq : pos ≠ ws.getD r₀ 0 := by
        intro he
        exact hout r₀ hr₀m ⟨by omega, by omega⟩
      rw [hRj']
      exact getD_set_ne _ (fun he => hposq he.symm)

theorem sum_indicator_range (m x : Nat) :
    ((List.range m).map (fun r => if x = r then (1 : Nat) else 0)).sum =
      if x < m then 1 else 0 := by
  induction m with
  | zero => simp
  | succ m ih =>
    rw [List.range_succ, List.map_append, List.sum_append, ih]
    by_cases h : x = m
    · subst h
      simp
    · by_cases h2 : x < m
      · simp [h, h2, Nat.lt_succ_of_lt h2]
      · have h3 : ¬ x < m + 1 := by omega
        simp [h, h2, h3]

theorem sum_map_counts (m : Nat) (l : List Nat) (h : ∀ x ∈ l, x < m) :
    ((List.range m).map (fun r => l.count r)).sum = l.length := by
  induction l with
  | nil => simp
  | cons x t ih =>
    have hx : x < m := h x (by simp)
    have hstep : ((List.range m).map (fun r => (x :: t).count r)).sum =
        ((List.range m).map (fun r => t.count r)).sum +
        ((List.range m).map (fun r => if x = r then (1 : Nat) else 0)).sum := by
      rw [← List.sum_map_add]
      refine congrArg _ (List.map_congr_left ?_)
      intro r _
      rw [List.count_cons]
      refine congrArg _ ?_
      by_cases he : x = r
      · subst he
        simp
      · simp [he, (by simpa using he : ¬ (x == r) = true)]
    rw [hstep, ih (fun y hy => h y (by simp [hy])), sum_indicator_range, if_pos hx]
    simp

theorem sum_take_mono (c : List Nat) (r r' : Nat) (h : r ≤ r') :
    (c.take r).sum ≤ (c.take r').sum := by
  obtain ⟨d, rfl⟩ : ∃ d, r' = r + d := ⟨r' - r, by omega⟩
  rw [List.take_add, List.sum_append]
  omega

/-- Correctness of `create_row_representation`: for a well-formed CSC matrix
it produces the compressed-row (transpose) view, the segment of each row being
exactly the column indices of that row's entries in column-major order. -/
theorem create_row_representation_spec (A : csc_matrix_t) (hwf : csc_wf A) :
    (create_row_representation A).1.length = A.m + 1 ∧
    (create_row_representation A).2.length = A.i.length ∧
    (∀ r r', r ≤ r' → r' ≤ A.m →
      (create_row_representation A).1.getD r 0 ≤ (create_row_representation A).1.getD r' 0) ∧
    (create_row_representation A).1.getD A.m 0 = A.i.length ∧
    (∀ r, r < A.m →
      seg (create_row_representation A).1 (create_row_representation A).2 r =
        ((csc_pairs A).filter (fun pr => decide (pr.1 = r))).map Prod.snd) := by
  have hnz : A.col_start.getD A.n 0 = A.i.length := hwf.2.2.1
  have hRp : (create_row_representation A).1 =
      (List.range (A.m + 1)).map
        (fun k => (((List.range A.m).map
          (fun r => (A.i.take (A.col_start.getD A.n 0)).count r)).take k).sum) := by
    rw [create_row_representation, cumulative_sum]
    simp only [List.length_map, List.length_range]
  have htake : A.i.take (A.col_start.getD A.n 0) = A.i := by
    rw [hnz]
    exact List.take_length A.i
  set counts : List Nat := (List.range A.m).map (fun r => A.i.count r) with hcounts
  have hRp' : (create_row_representation A).1 =
      (List.range (A.m + 1)).map (fun k => (counts.take k).sum) := by
    rw [hRp, htake]
  have hcounts_len : counts.length = A.m := by
    rw [hcounts, List.length_map, List.length_range]
  have hRp_getD : ∀ r, r ≤ A.m →
      (create_row_representation A).1.getD r 0 = (counts.take r).sum := by
    intro r hr
    rw [hRp']
    exact getD_range_map _ (by omega)
  have hmono : ∀ r r', r ≤ r' → r' ≤ A.m →
      (create_row_representation A).1.getD r 0 ≤
        (create_row_representation A).1.getD r' 0 := by
    intro r r' h1 h2
    rw [hRp_getD r (by omega), hRp_getD r' h2]
    exact sum_take_mono counts r r' h1
  have hRpm : (create_row_representation A).1.getD A.m 0 = A.i.length := by
    rw [hRp_getD A.m le_rfl]
    rw [show counts.take A.m = counts from by rw [← hcounts_len]; exact List.take_length counts]
    rw [hcounts]
    exact sum_map_counts A.m A.i hwf.2.2.2.2
  have hRp_succ : ∀ r, r < A.m →
      (create_row_representation A).1.getD r 0 + A.i.count r =
        (create_row_representation A).1.getD (r + 1) 0 := by
    intro r hr
    rw [hRp_getD r (by omega), hRp_getD (r + 1) (by omega)]
    rw [List.sum_take_succ counts r (by omega)]
    refine congrArg _ ?_
    have h1 : counts.getD r 0 = List.count r A.i := by
      rw [hcounts]
      exact getD_range_map _ hr
    have h2 : counts.getD r 0 = counts.get ⟨r, by omega⟩ := getD_eq_getElem (by omega)
    exact (h2.symm.trans h1).symm
  have hmap_fst : (csc_pairs A).map Prod.fst = A.i := csc_pairs_map_fst A hwf
  have hcountP_eq : ∀ r, List.countP (fun i => decide (i = r))
      ((csc_pairs A).map Prod.fst) = A.i.count r := by
    intro r
    rw [hmap_fst, List.count_eq_countP]
    refine List.countP_congr ?_
    intro x _
    simp
  have hws_getD : ∀ r, r < A.m →
      (((create_row_representation A).1).take A.m).getD r 0 =
        (create_row_representation A).1.getD r 0 :=
    fun r hr => getD_take hr
  have hfill := fill_fold_spec A.m A.i.length (create_row_representation A).1 hmono
    (le_of_eq hRpm) (csc_pairs A) ((create_row_representation A).1.take A.m)
    (List.replicate A.i.length 0)
    (by
      rw [List.length_take, hRp']
      simp only [List.length_map, List.length_range]
      omega)
    (List.length_replicate _ _)
    (csc_pairs_fst_lt A hwf)
    (by
      intro r hr
      rw [hws_getD r hr, hcountP_eq r]
      exact ⟨le_rfl, hRp_succ r hr⟩)
  obtain ⟨hlen2, hslices, _⟩ := hfill
  have hws_eq : (cumulative_sum ((List.range A.m).map
        (fun r => (A.i.take (A.col_start.getD A.n 0)).count r))).2 =
      (create_row_representation A).1.take A.m := by
    show (cumulative_sum ((List.range A.m).map
        (fun r => (A.i.take (A.col_start.getD A.n 0)).count r))).1.take
        (((List.range A.m).map
          (fun r => (A.i.take (A.col_start.getD A.n 0)).count r)).length) = _
    rw [List.length_map, List.length_range]
    exact rfl
  have hfold_eq : (create_row_representation A).2 =
      ((csc_pairs A).foldl (fun (st : List Nat × List Nat) pr =>
          (st.1.set pr.1 (st.1.getD pr.1 0 + 1), st.2.set (st.1.getD pr.1 0) pr.2))
        ((create_row_representation A).1.take A.m,
          List.replicate A.i.length 0)).2 := by
    rw [← hws_eq, ← hnz]
    exact rfl
  refine ⟨by rw [hRp']; simp, by rw [hfold_eq]; exact hlen2, hmono, hRpm, ?_⟩
  intro r hr
  have hs := hslices r hr
  rw [hws_getD r hr, hcountP_eq r] at hs
  rw [hfold_eq]
  have hlen_eq : A.i.count r =
      (create_row_representation A).1.getD (r + 1) 0 -
        (create_row_representation A).1.getD r 0 := by
    have := hRp_succ r hr
    omega
  rw [seg_eq_row_slice _ _ r ?_]
  · rw [← hlen_eq]
    exact hs
  · rw [hlen2]
    have h1 := hRp_succ r hr
    have h2 := hmono (r + 1) A.m (by omega) le_rfl
    omega

/-! ### Counting helpers for the degree bookkeeping -/

theorem count_le_countP {p : Nat → Bool} {a : Nat} (l : List Nat) (hpa : p a = true) :
    List.count a l ≤ List.countP p l := by
  rw [List.count_eq_countP]
  refine List.countP_mono_left ?_
  intro x _ hx
  have : x = a := by simpa using hx
  rw [this]
  exact hpa

theorem countP_plus_count {p q : Nat → Bool} {a : Nat} (hpa : p a = true) (hqa : q a = false)
    (hag : ∀ z, z ≠ a → q z = p z) :
    ∀ l : List Nat, List.countP q l + List.count a l = List.countP p l := by
  intro l
  induction l with
  | nil => rfl
  | cons h t ih =>
    rw [List.countP_cons, List.countP_cons, List.count_cons]
    by_cases hha : h = a
    · subst hha
      rw [hpa, hqa]
      simp only [beq_self_eq_true, if_true]
      simp only [Bool.false_eq_true, if_false]
      omega
    · rw [hag h hha]
      have hne : ¬ ((h == a) = true) := by simpa using hha
      simp [hne]
      omega

theorem two_count_le_countP {p : Nat → Bool} {a b : Nat} (l : List Nat) (hab : a ≠ b)
    (hpa : p a = true) (hpb : p b = true) :
    List.count a l + List.count b l ≤ List.countP p l := by
  induction l with
  | nil => simp
  | cons h t ih =>
    rw [List.count_cons, List.count_cons, List.countP_cons]
    by_cases hha : h = a
    · subst hha
      have hnb : ¬ ((h == b) = true) := by simpa using hab
      simp [hnb, hpa]
      omega
    · by_cases hhb : h = b
      · subst hhb
        have hna : ¬ ((h == a) = true) := by simpa using (fun he => hab he.symm : h ≠ a)
        simp [hna, hpb]
        omega
      · have hna : ¬ ((h == a) = true) := by simpa using hha
        have hnb : ¬ ((h == b) = true) := by simpa using hhb
        simp [hna, hnb]
        rcases hp : p h <;> simp [hp] <;> omega

/-- Pointwise effect of the decrement scan when every active scanned entity
has degree at least its multiplicity in the scan list: each active entity
other than the pivot is decremented once per occurrence, everything else is
untouched, and no degree is driven negative. -/
theorem decrement_neighbors_getD (xpivot : Nat) (ys : List Nat) (X : List Int)
    (q : List Nat) (hb : ∀ z ∈ ys, z < X.length)
    (hge : ∀ z ∈ ys, z ≠ xpivot → 0 ≤ X.getD z 0 →
      (List.count z ys : Int) ≤ X.getD z 0) :
    ∀ z, (decrement_neighbors xpivot ys X q).1.getD z 0 =
      if 0 ≤ X.getD z 0 ∧ z ≠ xpivot then X.getD z 0 - List.count z ys
      else X.getD z 0 := by
  induction ys generalizing X q with
  | nil =>
    intro z
    simp only [decrement_neighbors, List.count_nil]
    split
    · omega
    · rfl
  | cons y rest ih =>
    intro z
    by_cases h1 : X.getD y 0 < 0
    · simp only [decrement_neighbors, if_pos h1]
      rw [ih X q (fun z' h => hb z' (by simp [h]))
        (fun z' h hne hnn => le_trans
          (by
            have : List.count z' rest ≤ List.count z' (y :: rest) := by
              rw [List.count_cons]
              omega
            exact_mod_cast this)
          (hge z' (by simp [h]) hne hnn)) z]
      by_cases hzy : z = y
      · subst hzy
        rw [if_neg (by omega), if_neg (by omega)]
      · rw [List.count_cons]
        have : ¬ ((y == z) = true) := by simpa using (fun he => hzy he.symm : y ≠ z)
        simp only [this, if_false]
        rfl
    · by_cases h2 : y = xpivot
      · simp only [decrement_neighbors, if_neg h1, if_pos h2]
        subst h2
        rw [ih X q (fun z' h => hb z' (by simp [h]))
          (fun z' h hne hnn => le_trans
            (by
              have : List.count z' rest ≤ List.count z' (y :: rest) := by
                rw [List.count_cons]
                omega
              exact_mod_cast this)
            (hge z' (by simp [h]) hne hnn)) z]
        by_cases hzy : z = y
        · subst hzy
          rw [if_neg (by tauto), if_neg (by tauto)]
        · rw [List.count_cons]
          have : ¬ ((y == z) = true) := by simpa using (fun he => hzy he.symm : y ≠ z)
          simp only [this, if_false]
          rfl
      · -- decrement branch
        simp only [decrement_neighbors, if_neg h1, if_neg h2]
        have hylen : y < X.length := hb y (by simp)
        have hcy : (1 : Int) ≤ List.count y (y :: rest) := by
          have : 1 ≤ List.count y (y :: rest) := by
            rw [List.count_cons]
            simp
          exact_mod_cast this
        have hXy1 : (List.count y (y :: rest) : Int) ≤ X.getD y 0 :=
          hge y (by simp) h2 (by omega)
        have hset : (X.set y (X.getD y 0 - 1)).getD y 0 = X.getD y 0 - 1 :=
          getD_set_self hylen
        rw [ih (X.set y (X.getD y 0 - 1)) _ ?_ ?_ z]
        · by_cases hzy : z = y
          · subst hzy
            rw [hset]
            rw [if_pos ⟨by omega, h2⟩, if_pos ⟨by omega, h2⟩]
            rw [List.count_cons]
            simp only [beq_self_eq_true, if_true]
            push_cast
            omega
          · rw [getD_set_ne _ (fun he => hzy he.symm)]
            rw [List.count_cons]
            have : ¬ ((y == z) = true) := by simpa using (fun he => hzy he.symm : y ≠ z)
            simp only [this, if_false]
            rfl
        · intro z' h
          rw [List.length_set]
          exact hb z' (by simp [h])
        · intro z' h hne hnn
          by_cases hz'y : z' = y
          · subst hz'y
            rw [hset] at *
            have : List.count z' (z' :: rest) = List.count z' rest + 1 := by
              rw [List.count_cons]
              simp
            have h3 := hge z' (by simp) hne (by omega)
            rw [this] at h3
            push_cast at h3 ⊢
            omega
          · rw [getD_set_ne _ (fun he => hz'y he.symm)] at *
            have h4 : List.count z' rest ≤ List.count z' (y :: rest) := by
              rw [List.count_cons]
              omega
            have h5 := hge z' (by simp [h]) hne hnn
            have h6 : (List.count z' rest : Int) ≤ List.count z' (y :: rest) := by
              exact_mod_cast h4
            omega

/-! ### The loop invariant of `order_singletons` -/

/-- Well-formedness of the read-only bipartite graph: adjacency entries in
range and multiplicity-symmetric adjacency (the Y list of `y` holds `x` as
often as the X list of `x` holds `y`). -/
structure graph_wf (G : row_col_graph_t) (nX nY : Nat) : Prop where
  xi_lt : ∀ x, x < nX → ∀ y ∈ seg G.Xp G.Xi x, y < nY
  yi_lt : ∀ y, y < nY → ∀ x ∈ seg G.Yp G.Yi y, x < nX
  sym : ∀ x, x < nX → ∀ y, y < nY →
    List.count y (seg G.Xp G.Xi x) = List.count x (seg G.Yp G.Yi y)

/-- The list of entities recorded in the first `found` slots of a permutation
array. -/
def recorded_pfx (perm : List Nat) (found : Nat) : List Nat :=
  (List.range found).map (fun i => perm.getD i 0)

/-- The invariant maintained by every iteration of the `order_singletons`
loop: array lengths are stable; the prefix of each permutation array lists
exactly the flipped (eliminated) entities, without repetition; every active
entity's degree counts its active neighbors; and the ghost flip counters
record exactly one flip per eliminated entity, whose stored degree un-flips
to the recorded degree at elimination time. -/
structure state_inv (G : row_col_graph_t) (nX nY : Nat) (s : sstate_t) : Prop where
  xdeg_len : s.Xdeg.length = nX
  ydeg_len : s.Ydeg.length = nY
  xperm_len : s.Xperm.length = nX
  yperm_len : s.Yperm.length = nY
  xflips_len : s.Xflips.length = nX
  yflips_len : s.Yflips.length = nY
  xelim_len : s.XelimDeg.length = nX
  yelim_len : s.YelimDeg.length = nY
  xpfx_nodup : (recorded_pfx s.Xperm s.singletons_found).Nodup
  ypfx_nodup : (recorded_pfx s.Yperm s.singletons_found).Nodup
  xpfx_mem : ∀ x, x ∈ recorded_pfx s.Xperm s.singletons_found ↔
      (x < nX ∧ s.Xdeg.getD x 0 < 0)
  ypfx_mem : ∀ y, y ∈ recorded_pfx s.Yperm s.singletons_found ↔
      (y < nY ∧ s.Ydeg.getD y 0 < 0)
  xdeg_correct : ∀ x, x < nX → 0 ≤ s.Xdeg.getD x 0 →
      s.Xdeg.getD x 0 =
        List.countP (fun y => decide (0 ≤ s.Ydeg.getD y 0)) (seg G.Xp G.Xi x)
  ydeg_correct : ∀ y, y < nY → 0 ≤ s.Ydeg.getD y 0 →
      s.Ydeg.getD y 0 =
        List.countP (fun x => decide (0 ≤ s.Xdeg.getD x 0)) (seg G.Yp G.Yi y)
  xflips_flipped : ∀ x, x < nX → s.Xdeg.getD x 0 < 0 →
      s.Xflips.getD x 0 = 1 ∧ s.Xdeg.getD x 0 = FLIP (s.XelimDeg.getD x 0)
  xflips_active : ∀ x, x < nX → 0 ≤ s.Xdeg.getD x 0 → s.Xflips.getD x 0 = 0
  yflips_flipped : ∀ y, y < nY → s.Ydeg.getD y 0 < 0 →
      s.Yflips.getD y 0 = 1 ∧ s.Ydeg.getD y 0 = FLIP (s.YelimDeg.getD y 0)
  yflips_active : ∀ y, y < nY → 0 ≤ s.Ydeg.getD y 0 → s.Yflips.getD y 0 = 0

theorem state_inv_queue_work (G : row_col_graph_t) (nX nY : Nat) (s : sstate_t)
    (q : List Nat) (w : Nat) (hs : state_inv G nX nY s) :
    state_inv G nX nY { s with queue := q, work := w } :=
  ⟨hs.xdeg_len, hs.ydeg_len, hs.xperm_len, hs.yperm_len, hs.xflips_len, hs.yflips_len,
   hs.xelim_len, hs.yelim_len, hs.xpfx_nodup, hs.ypfx_nodup, hs.xpfx_mem, hs.ypfx_mem,
   hs.xdeg_correct, hs.ydeg_correct, hs.xflips_flipped, hs.xflips_active,
   hs.yflips_flipped, hs.yflips_active⟩

theorem recorded_pfx_snoc (perm : List Nat) (found x : Nat) (h : found < perm.length) :
    recorded_pfx (perm.set found x) (found + 1) = recorded_pfx perm found ++ [x] := by
  rw [recorded_pfx, List.range_succ, List.map_append]
  refine congrArg₂ _ ?_ ?_
  · rw [recorded_pfx]
    refine List.map_congr_left ?_
    intro i hi
    refine getD_set_ne _ (fun he => ?_)
    rw [List.mem_range] at hi
    omega
  · simp only [List.map_cons, List.map_nil]
    rw [getD_set_self h]

theorem nodup_lt_length_lt (l : List Nat) (n : Nat) (hnd : l.Nodup)
    (hlt : ∀ z ∈ l, z < n) (x : Nat) (hx : x < n) (hxl : x ∉ l) : l.length < n := by
  have hnd' : (x :: l).Nodup := List.nodup_cons.mpr ⟨hxl, hnd⟩
  have hsub : (x :: l) ⊆ List.range n := by
    intro z hz
    rw [List.mem_range]
    rcases List.mem_cons.mp hz with rfl | hz'
    · exact hx
    · exact hlt z hz'
  have := (List.subperm_of_subset hnd' hsub).length_le
  simp only [List.length_cons, List.length_range] at this
  omega

theorem order_step_eq_nil (G : row_col_graph_t) (s : sstate_t) (hq : s.queue = []) :
    order_step G s = s := by
  simp only [order_step, hq]

theorem order_step_eq_skip (G : row_col_graph_t) (s : sstate_t) (x : Nat)
    (rest : List Nat) (hq : s.queue = x :: rest) (hdeg : s.Xdeg.getD x 0 ≠ 1) :
    order_step G s = { s with queue := rest } := by
  simp only [order_step, hq]
  rw [if_pos hdeg]

theorem order_step_eq_none (G : row_col_graph_t) (s : sstate_t) (x : Nat)
    (rest : List Nat) (hq : s.queue = x :: rest) (hdeg : s.Xdeg.getD x 0 = 1)
    (hf : (seg G.Xp G.Xi x).find? (fun y => decide (0 ≤ s.Ydeg.getD y 0)) = none) :
    order_step G s = { s with
      queue := rest
      work := s.work + 2 * (G.Xp.getD (x + 1) 0 - G.Xp.getD x 0) } := by
  simp only [order_step, hq]
  rw [if_neg (by omega), hf]

theorem order_step_eq_elim (G : row_col_graph_t) (s : sstate_t) (x : Nat)
    (rest : List Nat) (ypivot : Nat) (hq : s.queue = x :: rest)
    (hdeg : s.Xdeg.getD x 0 = 1)
    (hf : (seg G.Xp G.Xi x).find? (fun y => decide (0 ≤ s.Ydeg.getD y 0)) = some ypivot) :
    order_step G s =
      { queue := (decrement_neighbors x (seg G.Yp G.Yi ypivot) s.Xdeg rest).2
        singletons_found := s.singletons_found + 1
        Xdeg := (decrement_neighbors x (seg G.Yp G.Yi ypivot) s.Xdeg rest).1.set x (FLIP 1)
        Xperm := s.Xperm.set s.singletons_found x
        Ydeg := s.Ydeg.set ypivot (FLIP (s.Ydeg.getD ypivot 0))
        Yperm := s.Yperm.set s.singletons_found ypivot
        Xflips := s.Xflips.set x (s.Xflips.getD x 0 + 1)
        Yflips := s.Yflips.set ypivot (s.Yflips.getD ypivot 0 + 1)
        XelimDeg := s.XelimDeg.set x 1
        YelimDeg := s.YelimDeg.set ypivot (s.Ydeg.getD ypivot 0)
        work := s.work + 2 * (G.Xp.getD (x + 1) 0 - G.Xp.getD x 0) +
          2 * (G.Yp.getD (ypivot + 1) 0 - G.Yp.getD ypivot 0) } := by
  simp only [order_step, hq]
  rw [if_neg (by omega), hf]

theorem FLIP_lt_zero (d : Int) (h : 0 ≤ d) : FLIP d < 0 := by
  unfold FLIP
  omega

theorem FLIP_FLIP (d : Int) : FLIP (FLIP d) = d := by
  unfold FLIP
  omega

/-- One step of the `order_singletons` loop preserves the loop invariant. -/
theorem order_step_preserves_inv (G : row_col_graph_t) (nX nY : Nat)
    (hG : graph_wf G nX nY) (s : sstate_t) (hs : state_inv G nX nY s) :
    state_inv G nX nY (order_step G s) := by
  cases hq : s.queue with
  | nil =>
    rw [order_step_eq_nil G s hq]
    exact hs
  | cons x rest =>
    by_cases hdeg : s.Xdeg.getD x 0 = 1
    · cases hf : (seg G.Xp G.Xi x).find? (fun y => decide (0 ≤ s.Ydeg.getD y 0)) with
      | none =>
        rw [order_step_eq_none G s x rest hq hdeg hf]
        exact state_inv_queue_work G nX nY s rest _ hs
      | some ypivot =>
        rw [order_step_eq_elim G s x rest ypivot hq hdeg hf]
        have hxlt : x < nX := by
          by_contra hx
          push_neg at hx
          rw [List.getD_eq_getElem?_getD,
            List.getElem?_eq_none (by rw [hs.xdeg_len]; omega)] at hdeg
          simp at hdeg
        have hymem : ypivot ∈ seg G.Xp G.Xi x := List.mem_of_find?_eq_some hf
        have hyact : 0 ≤ s.Ydeg.getD ypivot 0 := by
          have := List.find?_some hf
          simpa using this
        have hylt : ypivot < nY := hG.xi_lt x hxlt ypivot hymem
        have hb : ∀ z ∈ seg G.Yp G.Yi ypivot, z < s.Xdeg.length := by
          intro z hz
          rw [hs.xdeg_len]
          exact hG.yi_lt ypivot hylt z hz
        have hsymz : ∀ z, z < nX →
            List.count ypivot (seg G.Xp G.Xi z) = List.count z (seg G.Yp G.Yi ypivot) :=
          fun z hz => hG.sym z hz ypivot hylt
        have hge : ∀ z ∈ seg G.Yp G.Yi ypivot, z ≠ x → 0 ≤ s.Xdeg.getD z 0 →
            (List.count z (seg G.Yp G.Yi ypivot) : Int) ≤ s.Xdeg.getD z 0 := by
          intro z hz hzx hza
          have hzlt : z < nX := hG.yi_lt ypivot hylt z hz
          have hdc := hs.xdeg_correct z hzlt hza
          have hcle : List.count ypivot (seg G.Xp G.Xi z) ≤
              List.countP (fun y => decide (0 ≤ s.Ydeg.getD y 0)) (seg G.Xp G.Xi z) :=
            count_le_countP _ (by simpa using hyact)
          rw [← hsymz z hzlt, hdc]
          exact_mod_cast hcle
        have hDN := decrement_neighbors_getD x (seg G.Yp G.Yi ypivot) s.Xdeg rest hb hge
        have hDNlen := decrement_neighbors_length x (seg G.Yp G.Yi ypivot) s.Xdeg rest
        set X₂ : List Int :=
          (decrement_neighbors x (seg G.Yp G.Yi ypivot) s.Xdeg rest).1.set x (FLIP 1)
          with hX₂def
        have hX₂len : X₂.length = nX := by
          rw [hX₂def, List.length_set, hDNlen, hs.xdeg_len]
        have hX₂x : X₂.getD x 0 = FLIP 1 := by
          rw [hX₂def]
          exact getD_set_self (by rw [hDNlen, hs.xdeg_len]; exact hxlt)
        have hX₂ne : ∀ z, z ≠ x → X₂.getD z 0 =
            (if 0 ≤ s.Xdeg.getD z 0 then
              s.Xdeg.getD z 0 - List.count z (seg G.Yp G.Yi ypivot)
            else s.Xdeg.getD z 0) := by
          intro z hzx
          rw [hX₂def, getD_set_ne _ (fun he => hzx he.symm), hDN z]
          by_cases hza : 0 ≤ s.Xdeg.getD z 0
          · rw [if_pos ⟨hza, hzx⟩, if_pos hza]
          · rw [if_neg (by tauto), if_neg hza]
        have hX₂neg : ∀ z, X₂.getD z 0 < 0 ↔ (s.Xdeg.getD z 0 < 0 ∨ z = x) := by
          intro z
          by_cases hzx : z = x
          · subst hzx
            rw [hX₂x]
            exact ⟨fun _ => Or.inr rfl, fun _ => FLIP_lt_zero 1 (by omega)⟩
          · rw [hX₂ne z hzx]
            by_cases hza : 0 ≤ s.Xdeg.getD z 0
            · rw [if_pos hza]
              constructor
              · intro hlt
                exfalso
                by_cases hmem : z ∈ seg G.Yp G.Yi ypivot
                · have := hge z hmem hzx hza
                  omega
                · rw [List.count_eq_zero.mpr hmem] at hlt
                  push_cast at hlt
                  omega
              · intro h
                rcases h with h | h
                · omega
                · exact absurd h hzx
            · rw [if_neg hza]
              exact ⟨fun h => Or.inl h, fun _ => by omega⟩
        have hdcx := hs.xdeg_correct x hxlt (by omega)
        have hcntP1 : List.countP (fun y => decide (0 ≤ s.Ydeg.getD y 0))
            (seg G.Xp G.Xi x) = 1 := by
          rw [hdeg] at hdcx
          exact_mod_cast hdcx.symm
        have hyp_ct1 : List.count ypivot (seg G.Xp G.Xi x) = 1 := by
          have hle := count_le_countP (p := fun y => decide (0 ≤ s.Ydeg.getD y 0))
            (a := ypivot) (seg G.Xp G.Xi x) (by simpa using hyact)
          have hge1 : 0 < List.count ypivot (seg G.Xp G.Xi x) :=
            List.count_pos_iff.mpr hymem
          omega
        have hothery : ∀ y, y ≠ ypivot → 0 ≤ s.Ydeg.getD y 0 →
            List.count y (seg G.Xp G.Xi x) = 0 := by
          intro y hy hyact'
          have h2 := two_count_le_countP (p := fun t => decide (0 ≤ s.Ydeg.getD t 0))
            (a := y) (b := ypivot) (seg G.Xp G.Xi x) hy
            (by simpa using hyact') (by simpa using hyact)
          omega
        set Y₂ : List Int := s.Ydeg.set ypivot (FLIP (s.Ydeg.getD ypivot 0)) with hY₂def
        have hY₂len : Y₂.length = nY := by rw [hY₂def, List.length_set, hs.ydeg_len]
        have hY₂y : Y₂.getD ypivot 0 = FLIP (s.Ydeg.getD ypivot 0) := by
          rw [hY₂def]
          exact getD_set_self (by rw [hs.ydeg_len]; exact hylt)
        have hY₂ne : ∀ y, y ≠ ypivot → Y₂.getD y 0 = s.Ydeg.getD y 0 := by
          intro y hy
          rw [hY₂def]
          exact getD_set_ne _ (fun he => hy he.symm)
        have hY₂neg : ∀ y, Y₂.getD y 0 < 0 ↔ (s.Ydeg.getD y 0 < 0 ∨ y = ypivot) := by
          intro y
          by_cases hy : y = ypivot
          · subst hy
            rw [hY₂y]
            exact ⟨fun _ => Or.inr rfl, fun _ => FLIP_lt_zero _ hyact⟩
          · rw [hY₂ne y hy]
            constructor
            · exact fun h => Or.inl h
            · intro h
              rcases h with h | h
              · exact h
              · exact absurd h hy
        have hxnotpfx : x ∉ recorded_pfx s.Xperm s.singletons_found := by
          intro hmem
          have := ((hs.xpfx_mem x).mp hmem).2
          omega
        have hynotpfx : ypivot ∉ recorded_pfx s.Yperm s.singletons_found := by
          intro hmem
          have := ((hs.ypfx_mem ypivot).mp hmem).2
          omega
        have hpfxlenX : (recorded_pfx s.Xperm s.singletons_found).length =
            s.singletons_found := by
          rw [recorded_pfx, List.length_map, List.length_range]
        have hpfxlenY : (recorded_pfx s.Yperm s.singletons_found).length =
            s.singletons_found := by
          rw [recorded_pfx, List.length_map, List.length_range]
        have hfoundX : s.singletons_found < nX := by
          have := nodup_lt_length_lt _ nX hs.xpfx_nodup
            (fun z hz => ((hs.xpfx_mem z).mp hz).1) x hxlt hxnotpfx
          omega
        have hfoundY : s.singletons_found < nY := by
          have := nodup_lt_length_lt _ nY hs.ypfx_nodup
            (fun z hz => ((hs.ypfx_mem z).mp hz).1) ypivot hylt hynotpfx
          omega
        have hXpfx : recorded_pfx (s.Xperm.set s.singletons_found x)
            (s.singletons_found + 1) = recorded_pfx s.Xperm s.singletons_found ++ [x] :=
          recorded_pfx_snoc _ _ _ (by rw [hs.xperm_len]; exact hfoundX)
        have hYpfx : recorded_pfx (s.Yperm.set s.singletons_found ypivot)
            (s.singletons_found + 1) =
            recorded_pfx s.Yperm s.singletons_found ++ [ypivot] :=
          recorded_pfx_snoc _ _ _ (by rw [hs.yperm_len]; exact hfoundY)
        have hXdc : ∀ z, z < nX → 0 ≤ X₂.getD z 0 →
            X₂.getD z 0 =
              List.countP (fun y => decide (0 ≤ Y₂.getD y 0)) (seg G.Xp G.Xi z) := by
          intro z hz hza2
          have hzx : z ≠ x := by
            intro he
            subst he
            rw [hX₂x] at hza2
            have := FLIP_lt_zero 1 (by omega)
            omega
          have hza : 0 ≤ s.Xdeg.getD z 0 := by
            by_contra hc
            push_neg at hc
            have := (hX₂neg z).mpr (Or.inl hc)
            omega
          have hplus := countP_plus_count (p := fun y => decide (0 ≤ s.Ydeg.getD y 0))
            (q := fun y => decide (0 ≤ Y₂.getD y 0)) (a := ypivot)
            (by simpa using hyact)
            (by
              simp only [decide_eq_false_iff_not]
              rw [hY₂y]
              have := FLIP_lt_zero _ hyact
              omega)
            (fun t ht => by
              show decide (0 ≤ Y₂.getD t 0) = decide (0 ≤ s.Ydeg.getD t 0)
              rw [hY₂ne t ht])
            (seg G.Xp G.Xi z)
          have hdc := hs.xdeg_correct z hz hza
          rw [hX₂ne z hzx, if_pos hza, ← hsymz z hz, hdc]
          omega
        have hYdc : ∀ y, y < nY → 0 ≤ Y₂.getD y 0 →
            Y₂.getD y 0 =
              List.countP (fun z => decide (0 ≤ X₂.getD z 0)) (seg G.Yp G.Yi y) := by
          intro y hy hya2
          have hyy : y ≠ ypivot := by
            intro he
            subst he
            rw [hY₂y] at hya2
            have := FLIP_lt_zero _ hyact
            omega
          have hya : 0 ≤ s.Ydeg.getD y 0 := by
            rw [← hY₂ne y hyy]
            exact hya2
          have hplus := countP_plus_count (p := fun z => decide (0 ≤ s.Xdeg.getD z 0))
            (q := fun z => decide (0 ≤ X₂.getD z 0)) (a := x)
            (by simp only [decide_eq_true_eq]; omega)
            (by
              simp only [decide_eq_false_iff_not]
              rw [hX₂x]
              have := FLIP_lt_zero 1 (by omega)
              omega)
            (fun t ht => by
              show decide (0 ≤ X₂.getD t 0) = decide (0 ≤ s.Xdeg.getD t 0)
              have hiff := hX₂neg t
              simp only [ht, or_false] at hiff
              rw [decide_eq_decide]
              omega)
            (seg G.Yp G.Yi y)
          have hdc := hs.ydeg_correct y hy hya
          have hcx0 : List.count x (seg G.Yp G.Yi y) = 0 := by
            rw [← hG.sym x hxlt y hy]
            exact hothery y hyy hya
          rw [hY₂ne y hyy, hdc]
          rw [hcx0] at hplus
          omega
        have hflX0 : s.Xflips.getD x 0 = 0 := hs.xflips_active x hxlt (by omega)
        have hflY0 : s.Yflips.getD ypivot 0 = 0 := hs.yflips_active ypivot hylt hyact
        refine ⟨hX₂len, hY₂len, by rw [List.length_set]; exact hs.xperm_len,
          by rw [List.length_set]; exact hs.yperm_len,
          by rw [List.length_set]; exact hs.xflips_len,
          by rw [List.length_set]; exact hs.yflips_len,
          by rw [List.length_set]; exact hs.xelim_len,
          by rw [List.length_set]; exact hs.yelim_len, ?_, ?_, ?_, ?_, hXdc, hYdc,
          ?_, ?_, ?_, ?_⟩
        · show (recorded_pfx (s.Xperm.set s.singletons_found x)
            (s.singletons_found + 1)).Nodup
          rw [hXpfx, List.nodup_append]
          exact ⟨hs.xpfx_nodup, List.nodup_singleton x,
            fun a ha hax => hxnotpfx (by simpa using (by
              have : a = x := by simpa using hax
              rw [← this]; exact ha))⟩
        · show (recorded_pfx (s.Yperm.set s.singletons_found ypivot)
            (s.singletons_found + 1)).Nodup
          rw [hYpfx, List.nodup_append]
          exact ⟨hs.ypfx_nodup, List.nodup_singleton ypivot,
            fun a ha hax => hynotpfx (by
              have : a = ypivot := by simpa using hax
              rw [← this]; exact ha)⟩
        · intro z
          show z ∈ recorded_pfx (s.Xperm.set s.singletons_found x)
            (s.singletons_found + 1) ↔ (z < nX ∧ X₂.getD z 0 < 0)
          rw [hXpfx, List.mem_append]
          rw [hs.xpfx_mem z, hX₂neg z]
          simp only [List.mem_singleton]
          constructor
          · rintro (⟨h1, h2⟩ | rfl)
            · exact ⟨h1, Or.inl h2⟩
            · exact ⟨hxlt, Or.inr rfl⟩
          · rintro ⟨h1, h2 | rfl⟩
            · exact Or.inl ⟨h1, h2⟩
            · exact Or.inr rfl
        · intro z
          show z ∈ recorded_pfx (s.Yperm.set s.singletons_found ypivot)
            (s.singletons_found + 1) ↔ (z < nY ∧ Y₂.getD z 0 < 0)
          rw [hYpfx, List.mem_append]
          rw [hs.ypfx_mem z, hY₂neg z]
          simp only [List.mem_singleton]
          constructor
          · rintro (⟨h1, h2⟩ | rfl)
            · exact ⟨h1, Or.inl h2⟩
            · exact ⟨hylt, Or.inr rfl⟩
          · rintro ⟨h1, h2 | rfl⟩
            · exact Or.inl ⟨h1, h2⟩
            · exact Or.inr rfl
        · intro z hz hzneg
          have hzneg' : X₂.getD z 0 < 0 := hzneg
          show (s.Xflips.set x (s.Xflips.getD x 0 + 1)).getD z 0 = 1 ∧
            X₂.getD z 0 = FLIP ((s.XelimDeg.set x 1).getD z 0)
          by_cases hzx : z = x
          · subst hzx
            constructor
            · rw [getD_set_self (by rw [hs.xflips_len]; exact hz), hflX0]
            · rw [hX₂x, getD_set_self (by rw [hs.xelim_len]; exact hz)]
          · have hold : s.Xdeg.getD z 0 < 0 := by
              have := (hX₂neg z).mp hzneg'
              tauto
            have hspec := hs.xflips_flipped z hz hold
            constructor
            · rw [getD_set_ne _ (fun he => hzx he.symm)]
              exact hspec.1
            · rw [getD_set_ne (l := s.XelimDeg) _ (fun he => hzx he.symm)]
              rw [hX₂ne z hzx, if_neg (by omega)]
              exact hspec.2
        · intro z hz hzpos
          have hzpos' : 0 ≤ X₂.getD z 0 := hzpos
          show (s.Xflips.set x (s.Xflips.getD x 0 + 1)).getD z 0 = 0
          have hzx : z ≠ x := by
            intro he
            subst he
            rw [hX₂x] at hzpos'
            have := FLIP_lt_zero 1 (by omega)
            omega
          have hold : 0 ≤ s.Xdeg.getD z 0 := by
            by_contra hc
            push_neg at hc
            have := (hX₂neg z).mpr (Or.inl hc)
            omega
          rw [getD_set_ne _ (fun he => hzx he.symm)]
          exact hs.xflips_active z hz hold
        · intro z hz hzneg
          have hzneg' : Y₂.getD z 0 < 0 := hzneg
          show (s.Yflips.set ypivot (s.Yflips.getD ypivot 0 + 1)).getD z 0 = 1 ∧
            Y₂.getD z 0 = FLIP ((s.YelimDeg.set ypivot (s.Ydeg.getD ypivot 0)).getD z 0)
          by_cases hzy : z = ypivot
          · subst hzy
            constructor
            · rw [getD_set_self (by rw [hs.yflips_len]; exact hz), hflY0]
            · rw [hY₂y, getD_set_self (by rw [hs.yelim_len]; exact hz)]
          · have hold : s.Ydeg.getD z 0 < 0 := by
              have := (hY₂neg z).mp hzneg'
              tauto
            have hspec := hs.yflips_flipped z hz hold
            constructor
            · rw [getD_set_ne _ (fun he => hzy he.symm)]
              exact hspec.1
            · rw [getD_set_ne (l := s.YelimDeg) _ (fun he => hzy he.symm)]
              rw [hY₂ne z hzy]
              exact hspec.2
        · intro z hz hzpos
          have hzpos' : 0 ≤ Y₂.getD z 0 := hzpos
          show (s.Yflips.set ypivot (s.Yflips.getD ypivot 0 + 1)).getD z 0 = 0
          have hzy : z ≠ ypivot := by
            intro he
            subst he
            rw [hY₂y] at hzpos'
            have := FLIP_lt_zero _ hyact
            omega
          have hold : 0 ≤ s.Ydeg.getD z 0 := by
            rw [← hY₂ne z hzy]
            exact hzpos'
          rw [getD_set_ne _ (fun he => hzy he.symm)]
          exact hs.yflips_active z hz hold
    · rw [order_step_eq_skip G s x rest hq hdeg]
      exact state_inv_queue_work G nX nY s rest s.work hs

theorem order_loop_preserves_inv (G : row_col_graph_t) (nX nY : Nat)
    (hG : graph_wf G nX nY) :
    ∀ (fuel : Nat) (s : sstate_t), state_inv G nX nY s →
      state_inv G nX nY (order_loop G fuel s) := by
  intro fuel
  induction fuel with
  | zero => exact fun s hs => hs
  | succ f ih =>
    intro s hs
    cases hq : s.queue with
    | nil =>
      rw [order_loop_queue_nil G _ s hq]
      exact hs
    | cons x rest =>
      rw [order_loop_succ_cons G f s x rest hq]
      exact ih _ (order_step_preserves_inv G nX nY hG s hs)

theorem order_singletons_preserves_inv (G : row_col_graph_t) (nX nY : Nat)
    (hG : graph_wf G nX nY) (s : sstate_t) (hs : state_inv G nX nY s) :
    state_inv G nX nY (order_singletons G s) :=
  order_loop_preserves_inv G nX nY hG (order_fuel s) s hs

/-- Exchange the X and Y roles of a graph. -/
def graph_swap (G : row_col_graph_t) : row_col_graph_t :=
  { Xp := G.Yp, Xi := G.Yi, Yp := G.Xp, Yi := G.Xi }

theorem graph_wf_swap (G : row_col_graph_t) (nX nY : Nat) (hG : graph_wf G nX nY) :
    graph_wf (graph_swap G) nY nX :=
  ⟨hG.yi_lt, hG.xi_lt, fun y hy x hx => (hG.sym x hx y hy).symm⟩

theorem state_inv_swap (G : row_col_graph_t) (nX nY : Nat) (s : sstate_t)
    (hs : state_inv G nX nY s) :
    state_inv (graph_swap G) nY nX (sstate_swap s) :=
  ⟨hs.ydeg_len, hs.xdeg_len, hs.yperm_len, hs.xperm_len, hs.yflips_len, hs.xflips_len,
   hs.yelim_len, hs.xelim_len, hs.ypfx_nodup, hs.xpfx_nodup, hs.ypfx_mem, hs.xpfx_mem,
   hs.ydeg_correct, hs.xdeg_correct, hs.yflips_flipped, hs.yflips_active,
   hs.xflips_flipped, hs.xflips_active⟩

theorem count_snd_filter_fst (P : List (Nat × Nat)) (r j : Nat) :
    List.count j ((P.filter (fun pr => decide (pr.1 = r))).map Prod.snd) =
      List.countP (fun pr => decide (pr.1 = r ∧ pr.2 = j)) P := by
  rw [List.count_eq_countP, List.countP_map, List.countP_filter]
  refine List.countP_congr ?_
  intro pr _
  simp only [Function.comp_apply, Bool.and_eq_true, decide_eq_true_eq, beq_iff_eq]
  constructor
  · rintro ⟨h1, h2⟩
    exact ⟨h2, h1⟩
  · rintro ⟨h1, h2⟩
    exact ⟨h2, h1⟩

theorem col_seg_len (A : csc_matrix_t) (hwf : csc_wf A) (j : Nat) (hj : j < A.n) :
    (col_seg A j).length = A.col_start.getD (j + 1) 0 - A.col_start.getD j 0 := by
  have h1 : A.col_start.getD (j + 1) 0 ≤ A.i.length := by
    rw [← hwf.2.2.1]
    exact cs_mono A hwf (j + 1) A.n (by omega) le_rfl
  simp only [col_seg, seg, List.length_take, List.length_drop]
  omega

theorem col_seg_mem_lt (A : csc_matrix_t) (hwf : csc_wf A) (j : Nat) :
    ∀ r ∈ col_seg A j, r < A.m := by
  intro r hr
  exact hwf.2.2.2.2 r (List.mem_of_mem_drop (List.mem_of_mem_take hr))

theorem row_seg_eq (A : csc_matrix_t) (hwf : csc_wf A) (r : Nat) (hr : r < A.m) :
    seg (create_row_representation A).1 (create_row_representation A).2 r =
      ((csc_pairs A).filter (fun pr => decide (pr.1 = r))).map Prod.snd :=
  (create_row_representation_spec A hwf).2.2.2.2 r hr

theorem row_seg_mem_lt (A : csc_matrix_t) (hwf : csc_wf A) (r : Nat) (hr : r < A.m) :
    ∀ j ∈ seg (create_row_representation A).1 (create_row_representation A).2 r,
      j < A.n := by
  intro j hj
  rw [row_seg_eq A hwf r hr] at hj
  rw [List.mem_map] at hj
  obtain ⟨pr, hpr, rfl⟩ := hj
  exact csc_pairs_snd_lt A pr (List.mem_of_mem_filter hpr)

theorem row_seg_len (A : csc_matrix_t) (hwf : csc_wf A) (r : Nat) (hr : r < A.m) :
    (seg (create_row_representation A).1 (create_row_representation A).2 r).length =
      A.i.count r := by
  rw [row_seg_eq A hwf r hr, List.length_map, ← List.countP_eq_length_filter]
  have h1 : List.countP (fun pr => decide (pr.1 = r)) (csc_pairs A) =
      List.countP (fun i => decide (i = r)) ((csc_pairs A).map Prod.fst) := by
    rw [List.countP_map]
    rfl
  rw [h1, csc_pairs_map_fst A hwf, List.count_eq_countP]
  refine List.countP_congr ?_
  intro i _
  simp

theorem fs_graph_wf (A : csc_matrix_t) (hwf : csc_wf A) :
    graph_wf (fs_col_graph A) A.n A.m := by
  refine ⟨?_, ?_, ?_⟩
  · intro j hj r hr
    exact col_seg_mem_lt A hwf j r hr
  · intro r hr j hj
    exact row_seg_mem_lt A hwf r hr j hj
  · intro j hj r hr
    show List.count r (col_seg A j) =
      List.count j (seg (create_row_representation A).1 (create_row_representation A).2 r)
    rw [row_seg_eq A hwf r hr, count_snd_filter_fst, countP_pair_csc_pairs A r j hj]

theorem getD_replicate_zero {n k : Nat} (h : k < n) :
    (List.replicate n (0 : Nat)).getD k 0 = 0 := by
  simp [List.getD_eq_getElem?_getD, List.getElem?_replicate, h]

theorem getD_replicate_zero_int {n k : Nat} (h : k < n) :
    (List.replicate n (0 : Int)).getD k 0 = 0 := by
  simp [List.getD_eq_getElem?_getD, List.getElem?_replicate, h]

theorem fs_Cdeg_getD (A : csc_matrix_t) (hwf : csc_wf A) (j : Nat) (hj : j < A.n) :
    (fs_initial_Cdeg A).getD j 0 = ((col_seg A j).length : Int) := by
  rw [fs_initial_Cdeg, getD_range_map _ hj, col_seg_len A hwf j hj]
  have := hwf.2.2.2.1 j hj
  omega

theorem fs_Rdeg_getD (A : csc_matrix_t) (hwf : csc_wf A) (r : Nat) (hr : r < A.m) :
    (fs_initial_Rdeg A).getD r 0 = (A.i.count r : Int) := by
  rw [fs_initial_Rdeg, getD_range_map _ hr, csc_pairs_map_fst A hwf]

/-- The invariant holds for the state `find_singletons` builds before the
column pass. -/
theorem fs_state1_inv (A : csc_matrix_t) (hwf : csc_wf A) (rp cp : List Nat)
    (hrp : rp.length = A.m) (hcp : cp.length = A.n) :
    state_inv (fs_col_graph A) A.n A.m (fs_state1 A rp cp) := by
  have hClen : (fs_initial_Cdeg A).length = A.n := by
    rw [fs_initial_Cdeg, List.length_map, List.length_range]
  have hRlen : (fs_initial_Rdeg A).length = A.m := by
    rw [fs_initial_Rdeg, List.length_map, List.length_range]
  have hCpos : ∀ j, j < A.n → 0 ≤ (fs_initial_Cdeg A).getD j 0 := by
    intro j hj
    rw [fs_Cdeg_getD A hwf j hj]
    positivity
  have hRpos : ∀ r, r < A.m → 0 ≤ (fs_initial_Rdeg A).getD r 0 := by
    intro r hr
    rw [fs_Rdeg_getD A hwf r hr]
    positivity
  refine ⟨hClen, hRlen, hcp, hrp,
    by show (List.replicate A.n (0 : Nat)).length = A.n; rw [List.length_replicate],
    by show (List.replicate A.m (0 : Nat)).length = A.m; rw [List.length_replicate],
    by show (List.replicate A.n (0 : Int)).length = A.n; rw [List.length_replicate],
    by show (List.replicate A.m (0 : Int)).length = A.m; rw [List.length_replicate],
    by show (recorded_pfx cp 0).Nodup; simp [recorded_pfx],
    by show (recorded_pfx rp 0).Nodup; simp [recorded_pfx], ?_, ?_, ?_, ?_, ?_, ?_, ?_, ?_⟩
  · intro x
    show x ∈ recorded_pfx cp 0 ↔ (x < A.n ∧ (fs_initial_Cdeg A).getD x 0 < 0)
    simp only [recorded_pfx, List.range_zero, List.map_nil, List.not_mem_nil, false_iff]
    rintro ⟨h1, h2⟩
    have := hCpos x h1
    omega
  · intro y
    show y ∈ recorded_pfx rp 0 ↔ (y < A.m ∧ (fs_initial_Rdeg A).getD y 0 < 0)
    simp only [recorded_pfx, List.range_zero, List.map_nil, List.not_mem_nil, false_iff]
    rintro ⟨h1, h2⟩
    have := hRpos y h1
    omega
  · intro j hj _
    show (fs_initial_Cdeg A).getD j 0 =
      List.countP (fun r => decide (0 ≤ (fs_initial_Rdeg A).getD r 0)) (col_seg A j)
    rw [fs_Cdeg_getD A hwf j hj]
    have hall : List.countP (fun r => decide (0 ≤ (fs_initial_Rdeg A).getD r 0))
        (col_seg A j) = (col_seg A j).length := by
      rw [List.countP_eq_length]
      intro r hrmem
      simp only [decide_eq_true_eq]
      exact hRpos r (col_seg_mem_lt A hwf j r hrmem)
    rw [hall]
  · intro r hr _
    show (fs_initial_Rdeg A).getD r 0 =
      List.countP (fun j => decide (0 ≤ (fs_initial_Cdeg A).getD j 0))
        (seg (create_row_representation A).1 (create_row_representation A).2 r)
    rw [fs_Rdeg_getD A hwf r hr]
    have hall : List.countP (fun j => decide (0 ≤ (fs_initial_Cdeg A).getD j 0))
        (seg (create_row_representation A).1 (create_row_representation A).2 r) =
        (seg (create_row_representation A).1 (create_row_representation A).2 r).length := by
      rw [List.countP_eq_length]
      intro j hjmem
      simp only [decide_eq_true_eq]
      exact hCpos j (row_seg_mem_lt A hwf r hr j hjmem)
    rw [hall, row_seg_len A hwf r hr]
  · intro x hx hneg
    have hneg' : (fs_initial_Cdeg A).getD x 0 < 0 := hneg
    have := hCpos x hx
    omega
  · intro x hx _
    show (List.replicate A.n 0).getD x 0 = 0
    exact getD_replicate_zero (by omega)
  · intro y hy hneg
    have hneg' : (fs_initial_Rdeg A).getD y 0 < 0 := hneg
    have := hRpos y hy
    omega
  · intro y hy _
    show (List.replicate A.m 0).getD y 0 = 0
    exact getD_replicate_zero (by omega)

/-- The invariant holds after both passes of `find_singletons`, with columns
as the X side. -/
theorem fs_after_pass2_inv (A : csc_matrix_t) (hwf : csc_wf A) (rp cp : List Nat)
    (hrp : rp.length = A.m) (hcp : cp.length = A.n) :
    state_inv (fs_col_graph A) A.n A.m (fs_after_pass2 A rp cp) := by
  have hG := fs_graph_wf A hwf
  have h1 : state_inv (fs_col_graph A) A.n A.m (fs_after_pass1 A rp cp) := by
    rw [fs_after_pass1_eq]
    by_cases hemp : (fs_queue1 A).isEmpty
    · rw [if_pos hemp]
      exact fs_state1_inv A hwf rp cp hrp hcp
    · rw [if_neg hemp]
      refine order_singletons_preserves_inv _ _ _ hG _ ?_
      exact state_inv_queue_work _ _ _ _ _ _ (fs_state1_inv A hwf rp cp hrp hcp)
  rw [fs_after_pass2_eq]
  by_cases hemp : (fs_queue2 A rp cp).isEmpty
  · rw [if_pos hemp]
    exact state_inv_queue_work _ _ _ _ _ _ h1
  · rw [if_neg hemp]
    have h2 : state_inv (graph_swap (fs_col_graph A)) A.m A.n
        (sstate_swap (fs_after_pass1 A rp cp)) :=
      state_inv_swap _ _ _ _ h1
    have h3 : state_inv (graph_swap (fs_col_graph A)) A.m A.n
        (order_singletons (fs_row_graph A)
          { sstate_swap (fs_after_pass1 A rp cp) with
              queue := fs_queue2 A rp cp
              work :=
                if (fs_queue1 A).isEmpty then
                  (fs_after_pass1 A rp cp).work + A.m + (fs_queue2 A rp cp).length +
                    create_row_work A
                else (fs_after_pass1 A rp cp).work + A.m + (fs_queue2 A rp cp).length }) := by
      have hrow : fs_row_graph A = graph_swap (fs_col_graph A) := rfl
      rw [hrow]
      refine order_singletons_preserves_inv _ _ _ (graph_wf_swap _ _ _ hG) _ ?_
      exact state_inv_queue_work _ _ _ _ _ _ h2
    have h4 := state_inv_swap _ _ _ _ h3
    exact h4

/-! ### Claim C1: the completed permutations are bijections -/

theorem take_eq_recorded_pfx (l : List Nat) (k : Nat) (hk : k ≤ l.length) :
    l.take k = recorded_pfx l k := by
  refine List.ext_getElem ?_ ?_
  · simp only [List.length_take, recorded_pfx, List.length_map, List.length_range]
    omega
  · intro i h1 h2
    simp only [List.length_take] at h1
    rw [List.getElem_take]
    simp only [recorded_pfx]
    rw [List.getElem_map, List.getElem_range]
    exact (getD_eq_getElem (by omega)).symm

theorem prefix_perm_neg (perm : List Nat) (deg : List Int) (found nX : Nat)
    (hnd : (recorded_pfx perm found).Nodup)
    (hmem : ∀ x, x ∈ recorded_pfx perm found ↔ (x < nX ∧ deg.getD x 0 < 0)) :
    (recorded_pfx perm found).Perm (neg_elems deg (List.range nX)) := by
  rw [neg_elems, List.perm_ext_iff_of_nodup hnd (List.Nodup.filter _ (List.nodup_range nX))]
  intro a
  rw [hmem a]
  simp only [List.mem_filter, List.mem_range, decide_eq_true_eq]

/-- After the elimination passes, completing one side of the permutation
yields a bijection on that side's index range. -/
theorem complete_side_perm (deg : List Int) (perm flips : List Nat) (found : Nat)
    (hplen : perm.length = deg.length) (hflen : flips.length = deg.length)
    (hnd : (recorded_pfx perm found).Nodup)
    (hmem : ∀ x, x ∈ recorded_pfx perm found ↔ (x < deg.length ∧ deg.getD x 0 < 0)) :
    (complete_permutation found deg perm flips).Xperm.Perm (List.range deg.length) := by
  have hpfx := prefix_perm_neg perm deg found deg.length hnd hmem
  have hfound : found = (neg_elems deg (List.range deg.length)).length := by
    have := hpfx.length_eq
    rw [recorded_pfx, List.length_map, List.length_range] at this
    exact this
  have hspec := complete_permutation_spec deg perm flips hplen hflen
  rw [hfound]
  rw [hspec.2.1]
  have hneg_le : (neg_elems deg (List.range deg.length)).length ≤ perm.length := by
    have h1 : (neg_elems deg (List.range deg.length)).length ≤
        (List.range deg.length).length := by
      rw [neg_elems]
      exact List.length_filter_le _ _
    rw [List.length_range] at h1
    omega
  rw [take_eq_recorded_pfx perm _ hneg_le, ← hfound]
  refine List.Perm.trans ?_ (neg_pos_zero_perm deg (List.range deg.length))
  rw [hfound]
  refine List.Perm.append (List.Perm.append ?_ (List.Perm.refl _)) ?_
  · rw [← hfound]
    exact hpfx
  · exact List.reverse_perm _

/-- Claim C1: for every well-formed CSC matrix (monotone column offsets
starting at 0 and ending at the row-index count, row indices in `[0, m)`),
after `find_singletons` the output `col_perm` is a bijection on `[0, n)` and
`row_perm` is a bijection on `[0, m)`: each is a permutation of the full
index range, so every index appears exactly once in each. -/
theorem claim_C1_find_singletons_perms_bijective (A : csc_matrix_t)
    (rp cp : List Nat) (hwf : csc_wf A)
    (hrp : rp.length = A.m) (hcp : cp.length = A.n) :
    (find_singletons A rp cp).col_perm.Perm (List.range A.n) ∧
    (find_singletons A rp cp).row_perm.Perm (List.range A.m) := by
  have hinv := fs_after_pass2_inv A hwf rp cp hrp hcp
  constructor
  · have hcol : (find_singletons A rp cp).col_perm =
        (complete_permutation (fs_after_pass2 A rp cp).singletons_found
          (fs_after_pass2 A rp cp).Xdeg (fs_after_pass2 A rp cp).Xperm
          (fs_after_pass2 A rp cp).Xflips).Xperm := rfl
    rw [hcol]
    have h := complete_side_perm (fs_after_pass2 A rp cp).Xdeg
      (fs_after_pass2 A rp cp).Xperm (fs_after_pass2 A rp cp).Xflips
      (fs_after_pass2 A rp cp).singletons_found
      (by rw [hinv.xperm_len, hinv.xdeg_len])
      (by rw [hinv.xflips_len, hinv.xdeg_len])
      hinv.xpfx_nodup
      (by rw [hinv.xdeg_len]; exact hinv.xpfx_mem)
    rwa [hinv.xdeg_len] at h
  · have hrow : (find_singletons A rp cp).row_perm =
        (complete_permutation (fs_after_pass2 A rp cp).singletons_found
          (fs_after_pass2 A rp cp).Ydeg (fs_after_pass2 A rp cp).Yperm
          (fs_after_pass2 A rp cp).Yflips).Xperm := rfl
    rw [hrow]
    have h := complete_side_perm (fs_after_pass2 A rp cp).Ydeg
      (fs_after_pass2 A rp cp).Yperm (fs_after_pass2 A rp cp).Yflips
      (fs_after_pass2 A rp cp).singletons_found
      (by rw [hinv.yperm_len, hinv.ydeg_len])
      (by rw [hinv.yflips_len, hinv.ydeg_len])
      hinv.ypfx_nodup
      (by rw [hinv.ydeg_len]; exact hinv.ypfx_mem)
    rwa [hinv.ydeg_len] at h

/-- Witness for claim C1 on a concrete 2-by-3 matrix with an empty column. -/
theorem claim_C1_find_singletons_perms_bijective_witness :
    (find_singletons { m := 2, n := 3, col_start := [0, 1, 1, 3], i := [0, 0, 1], x := [] }
        [9, 9] [9, 9, 9]).col_perm.Perm (List.range 3) ∧
    (find_singletons { m := 2, n := 3, col_start := [0, 1, 1, 3], i := [0, 0, 1], x := [] }
        [9, 9] [9, 9, 9]).row_perm.Perm (List.range 2) :=
  claim_C1_find_singletons_perms_bijective
    { m := 2, n := 3, col_start := [0, 1, 1, 3], i := [0, 0, 1], x := [] } [9, 9] [9, 9, 9]
    (by refine ⟨by decide, by decide, by decide, by decide, by decide⟩)
    (by decide) (by decide)

/-! ### Claim C3: flip accounting for eliminated entities -/

/-- The number of recorded singletons equals the number of flipped
(negative-degree) entities, read off from the permutation prefix. -/
theorem found_eq_neg_count (deg : List Int) (perm : List Nat) (found : Nat)
    (hnd : (recorded_pfx perm found).Nodup)
    (hmem : ∀ x, x ∈ recorded_pfx perm found ↔ (x < deg.length ∧ deg.getD x 0 < 0)) :
    found = (neg_elems deg (List.range deg.length)).length := by
  have h := (prefix_perm_neg perm deg found deg.length hnd hmem).length_eq
  rw [recorded_pfx, List.length_map, List.length_range] at h
  exact h

/-- Counterexample to claim C3 as stated: on the 1-by-1 matrix with a single
entry, column 0 is eliminated during the passes (its degree after the passes
is negative), yet over the whole run of `find_singletons` its degree field is
flipped twice, not once: once at elimination in `order_singletons` and a
second, restoring time in `complete_permutation`. -/
theorem claim_C3_single_flip_counterexample :
    (fs_after_pass2 { m := 1, n := 1, col_start := [0, 1], i := [0], x := [] }
        [7] [7]).Xdeg.getD 0 0 < 0 ∧
    (find_singletons { m := 1, n := 1, col_start := [0, 1], i := [0], x := [] }
        [7] [7]).colFlips.getD 0 0 = 2 := by
  decide

/-- Claim C3, amended: for every entity eliminated during the passes (its
degree is negative after both passes), exactly one flip was applied during
the passes, and `complete_permutation` applies exactly one more, restoring
flip, for a total of two over the whole run of `find_singletons`; un-flipping
the degree stored after the passes — equivalently, reading the final restored
degree — recovers the entity's degree at the time of its elimination
(`colElim`/`rowElim`). -/
theorem claim_C3_flip_accounting (A : csc_matrix_t) (rp cp : List Nat)
    (hwf : csc_wf A) (hrp : rp.length = A.m) (hcp : cp.length = A.n) :
    (∀ j, j < A.n → (fs_after_pass2 A rp cp).Xdeg.getD j 0 < 0 →
      (fs_after_pass2 A rp cp).Xflips.getD j 0 = 1 ∧
      (fs_after_pass2 A rp cp).Xdeg.getD j 0 =
        FLIP ((find_singletons A rp cp).colElim.getD j 0) ∧
      (find_singletons A rp cp).colFlips.getD j 0 = 2 ∧
      (find_singletons A rp cp).Cdeg.getD j 0 =
        (find_singletons A rp cp).colElim.getD j 0) ∧
    (∀ r, r < A.m → (fs_after_pass2 A rp cp).Ydeg.getD r 0 < 0 →
      (fs_after_pass2 A rp cp).Yflips.getD r 0 = 1 ∧
      (fs_after_pass2 A rp cp).Ydeg.getD r 0 =
        FLIP ((find_singletons A rp cp).rowElim.getD r 0) ∧
      (find_singletons A rp cp).rowFlips.getD r 0 = 2 ∧
      (find_singletons A rp cp).Rdeg.getD r 0 =
        (find_singletons A rp cp).rowElim.getD r 0) := by
  have hinv := fs_after_pass2_inv A hwf rp cp hrp hcp
  constructor
  · intro j hj hneg
    have hflip := hinv.xflips_flipped j hj hneg
    have hfound : (fs_after_pass2 A rp cp).singletons_found =
        (neg_elems (fs_after_pass2 A rp cp).Xdeg
          (List.range (fs_after_pass2 A rp cp).Xdeg.length)).length :=
      found_eq_neg_count _ _ _ hinv.xpfx_nodup
        (by rw [hinv.xdeg_len]; exact hinv.xpfx_mem)
    have hspec := complete_permutation_spec (fs_after_pass2 A rp cp).Xdeg
      (fs_after_pass2 A rp cp).Xperm (fs_after_pass2 A rp cp).Xflips
      (by rw [hinv.xperm_len, hinv.xdeg_len]) (by rw [hinv.xflips_len, hinv.xdeg_len])
    have hj' : j < (fs_after_pass2 A rp cp).Xdeg.length := by
      rw [hinv.xdeg_len]; exact hj
    have hCF : (find_singletons A rp cp).colFlips =
        (complete_permutation (fs_after_pass2 A rp cp).singletons_found
          (fs_after_pass2 A rp cp).Xdeg (fs_after_pass2 A rp cp).Xperm
          (fs_after_pass2 A rp cp).Xflips).Xflips := rfl
    have hCD : (find_singletons A rp cp).Cdeg =
        (complete_permutation (fs_after_pass2 A rp cp).singletons_found
          (fs_after_pass2 A rp cp).Xdeg (fs_after_pass2 A rp cp).Xperm
          (fs_after_pass2 A rp cp).Xflips).Xdeg := rfl
    have hCE : (find_singletons A rp cp).colElim =
        (fs_after_pass2 A rp cp).XelimDeg := rfl
    refine ⟨hflip.1, ?_, ?_, ?_⟩
    · rw [hCE]; exact hflip.2
    · rw [hCF, hfound, hspec.2.2.2.2.2.2 j, if_pos ⟨hj', hneg⟩, hflip.1]
    · rw [hCD, hCE, hfound, hspec.2.2.2.2.2.1 j, if_pos ⟨hj', hneg⟩, hflip.2, FLIP_FLIP]
  · intro r hr hneg
    have hflip := hinv.yflips_flipped r hr hneg
    have hfound : (fs_after_pass2 A rp cp).singletons_found =
        (neg_elems (fs_after_pass2 A rp cp).Ydeg
          (List.range (fs_after_pass2 A rp cp).Ydeg.length)).length :=
      found_eq_neg_count _ _ _ hinv.ypfx_nodup
        (by rw [hinv.ydeg_len]; exact hinv.ypfx_mem)
    have hspec := complete_permutation_spec (fs_after_pass2 A rp cp).Ydeg
      (fs_after_pass2 A rp cp).Yperm (fs_after_pass2 A rp cp).Yflips
      (by rw [hinv.yperm_len, hinv.ydeg_len]) (by rw [hinv.yflips_len, hinv.ydeg_len])
    have hr' : r < (fs_after_pass2 A rp cp).Ydeg.length := by
      rw [hinv.ydeg_len]; exact hr
    have hRF : (find_singletons A rp cp).rowFlips =
        (complete_permutation (fs_after_pass2 A rp cp).singletons_found
          (fs_after_pass2 A rp cp).Ydeg (fs_after_pass2 A rp cp).Yperm
          (fs_after_pass2 A rp cp).Yflips).Xflips := rfl
    have hRD : (find_singletons A rp cp).Rdeg =
        (complete_permutation (fs_after_pass2 A rp cp).singletons_found
          (fs_after_pass2 A rp cp).Ydeg (fs_after_pass2 A rp cp).Yperm
          (fs_after_pass2 A rp cp).Yflips).Xdeg := rfl
    have hRE : (find_singletons A rp cp).rowElim =
        (fs_after_pass2 A rp cp).YelimDeg := rfl
    refine ⟨hflip.1, ?_, ?_, ?_⟩
    · rw [hRE]; exact hflip.2
    · rw [hRF, hfound, hspec.2.2.2.2.2.2 r, if_pos ⟨hr', hneg⟩, hflip.1]
    · rw [hRD, hRE, hfound, hspec.2.2.2.2.2.1 r, if_pos ⟨hr', hneg⟩, hflip.2, FLIP_FLIP]

/-- Witness for the amended claim C3 on the 1-by-1 matrix with one entry. -/
theorem claim_C3_flip_accounting_witness :
    (∀ j, j < 1 →
      (fs_after_pass2 { m := 1, n := 1, col_start := [0, 1], i := [0], x := [] }
          [7] [7]).Xdeg.getD j 0 < 0 →
      (fs_after_pass2 { m := 1, n := 1, col_start := [0, 1], i := [0], x := [] }
          [7] [7]).Xflips.getD j 0 = 1 ∧
      (fs_after_pass2 { m := 1, n := 1, col_start := [0, 1], i := [0], x := [] }
          [7] [7]).Xdeg.getD j 0 =
        FLIP ((find_singletons { m := 1, n := 1, col_start := [0, 1], i := [0], x := [] }
          [7] [7]).colElim.getD j 0) ∧
      (find_singletons { m := 1, n := 1, col_start := [0, 1], i := [0], x := [] }
          [7] [7]).colFlips.getD j 0 = 2 ∧
      (find_singletons { m := 1, n := 1, col_start := [0, 1], i := [0], x := [] }
          [7] [7]).Cdeg.getD j 0 =
        (find_singletons { m := 1, n := 1, col_start := [0, 1], i := [0], x := [] }
          [7] [7]).colElim.getD j 0) ∧
    (∀ r, r < 1 →
      (fs_after_pass2 { m := 1, n := 1, col_start := [0, 1], i := [0], x := [] }
          [7] [7]).Ydeg.getD r 0 < 0 →
      (fs_after_pass2 { m := 1, n := 1, col_start := [0, 1], i := [0], x := [] }
          [7] [7]).Yflips.getD r 0 = 1 ∧
      (fs_after_pass2 { m := 1, n := 1, col_start := [0, 1], i := [0], x := [] }
          [7] [7]).Ydeg.getD r 0 =
        FLIP ((find_singletons { m := 1, n := 1, col_start := [0, 1], i := [0], x := [] }
          [7] [7]).rowElim.getD r 0) ∧
      (find_singletons { m := 1, n := 1, col_start := [0, 1], i := [0], x := [] }
          [7] [7]).rowFlips.getD r 0 = 2 ∧
      (find_singletons { m := 1, n := 1, col_start := [0, 1], i := [0], x := [] }
          [7] [7]).Rdeg.getD r 0 =
        (find_singletons { m := 1, n := 1, col_start := [0, 1], i := [0], x := [] }
          [7] [7]).rowElim.getD r 0) :=
  claim_C3_flip_accounting { m := 1, n := 1, col_start := [0, 1], i := [0], x := [] }
    [7] [7]
    (by refine ⟨by decide, by decide, by decide, by decide, by decide⟩)
    (by decide) (by decide)

/-! ### Claim C6: the row representation is built lazily, at most once -/

theorem fs_queue1_empty_iff (A : csc_matrix_t) :
    (fs_queue1 A).isEmpty = true ↔
      ¬ ∃ j, j < A.n ∧ (fs_initial_Cdeg A).getD j 0 = 1 := by
  rw [List.isEmpty_iff, fs_queue1, List.filter_eq_nil_iff]
  push_neg
  simp only [ne_eq, List.mem_reverse, List.mem_range, decide_eq_true_eq]

theorem fs_queue2_empty_iff (A : csc_matrix_t) (rp cp : List Nat) :
    (fs_queue2 A rp cp).isEmpty = true ↔
      ¬ ∃ r, r < A.m ∧ (fs_after_pass1 A rp cp).Ydeg.getD r 0 = 1 := by
  rw [List.isEmpty_iff, fs_queue2, List.filter_eq_nil_iff]
  push_neg
  simp only [ne_eq, List.mem_reverse, List.mem_range, decide_eq_true_eq]

/-- Claim C6: `find_singletons` builds the row-major representation at most
once, and builds it exactly when either some column of the input has degree 1
(which seeds the first pass) or, failing that, some row has degree 1 after
the column pass (which seeds the second pass); with no degree-1 columns and
no degree-1 rows the row-build cost is never paid (`row_builds = 0`). -/
theorem claim_C6_lazy_row_build (A : csc_matrix_t) (rp cp : List Nat) :
    (find_singletons A rp cp).row_builds ≤ 1 ∧
    ((find_singletons A rp cp).row_builds = 1 ↔
      ((∃ j, j < A.n ∧ (fs_initial_Cdeg A).getD j 0 = 1) ∨
       (∃ r, r < A.m ∧ (fs_after_pass1 A rp cp).Ydeg.getD r 0 = 1))) := by
  have hrb : (find_singletons A rp cp).row_builds =
      (if (fs_queue1 A).isEmpty then 0 else 1) +
        (if (fs_queue2 A rp cp).isEmpty then 0
         else if (fs_queue1 A).isEmpty then 1 else 0) := rfl
  rw [hrb]
  by_cases h1 : (fs_queue1 A).isEmpty
  · by_cases h2 : (fs_queue2 A rp cp).isEmpty
    · rw [if_pos h1, if_pos h2]
      refine ⟨by omega, ?_⟩
      constructor
      · intro h
        omega
      · rintro (h | h)
        · exact absurd h ((fs_queue1_empty_iff A).mp h1)
        · exact absurd h ((fs_queue2_empty_iff A rp cp).mp h2)
    · rw [if_pos h1, if_neg h2, if_pos h1]
      refine ⟨by omega, ?_⟩
      constructor
      · intro _
        refine Or.inr ?_
        by_contra hno
        exact h2 ((fs_queue2_empty_iff A rp cp).mpr hno)
      · intro _
        rfl
  · rw [if_neg h1]
    refine ⟨?_, ?_⟩
    · by_cases h2 : (fs_queue2 A rp cp).isEmpty
      · rw [if_pos h2]
      · rw [if_neg h2, if_neg h1]
    · constructor
      · intro _
        refine Or.inl ?_
        by_contra hno
        exact h1 ((fs_queue1_empty_iff A).mpr hno)
      · intro _
        by_cases h2 : (fs_queue2 A rp cp).isEmpty
        · rw [if_pos h2]
        · rw [if_neg h2, if_neg h1]

/-! ### Claim C7: singleton counts -/

theorem order_step_found_mono (G : row_col_graph_t) (s : sstate_t) :
    s.singletons_found ≤ (order_step G s).singletons_found := by
  cases hq : s.queue with
  | nil =>
    rw [order_step_eq_nil G s hq]
  | cons x rest =>
    by_cases hdeg : s.Xdeg.getD x 0 ≠ 1
    · rw [order_step_eq_skip G s x rest hq hdeg]
    · push_neg at hdeg
      cases hf : (seg G.Xp G.Xi x).find? (fun y => decide (0 ≤ s.Ydeg.getD y 0)) with
      | none =>
        rw [order_step_eq_none G s x rest hq hdeg hf]
      | some y =>
        rw [order_step_eq_elim G s x rest y hq hdeg hf]
        exact Nat.le_succ _

theorem order_loop_found_mono (G : row_col_graph_t) :
    ∀ (fuel : Nat) (s : sstate_t),
      s.singletons_found ≤ (order_loop G fuel s).singletons_found := by
  intro fuel
  induction fuel with
  | zero =>
    intro s
    exact le_rfl
  | succ f ih =>
    intro s
    cases hq : s.queue with
    | nil =>
      rw [order_loop_queue_nil G _ s hq]
    | cons x rest =>
      rw [order_loop_succ_cons G f s x rest hq]
      exact le_trans (order_step_found_mono G s) (ih _)

theorem order_singletons_found_mono (G : row_col_graph_t) (s : sstate_t) :
    s.singletons_found ≤ (order_singletons G s).singletons_found :=
  order_loop_found_mono G _ s

theorem fs_found_mono (A : csc_matrix_t) (rp cp : List Nat) :
    (fs_after_pass1 A rp cp).singletons_found ≤
      (fs_after_pass2 A rp cp).singletons_found := by
  rw [fs_after_pass2_eq]
  by_cases h2 : (fs_queue2 A rp cp).isEmpty
  · rw [if_pos h2]
  · rw [if_neg h2]
    have h := order_singletons_found_mono (fs_row_graph A)
      { sstate_swap (fs_after_pass1 A rp cp) with
          queue := fs_queue2 A rp cp
          work :=
            if (fs_queue1 A).isEmpty then
              (fs_after_pass1 A rp cp).work + A.m + (fs_queue2 A rp cp).length +
                create_row_work A
            else (fs_after_pass1 A rp cp).work + A.m + (fs_queue2 A rp cp).length }
    exact h

/-- If an entity's degree ends at 1 after the neighbor-decrement scan, it is
in the resulting queue, provided every entity whose degree was already 1 on
entry was in the incoming queue. -/
theorem dn_deg1_mem (xp : Nat) :
    ∀ (ys : List Nat) (X : List Int) (q : List Nat) (z : Nat),
      (X.getD z 0 = 1 → z ∈ q) →
      (decrement_neighbors xp ys X q).1.getD z 0 = 1 →
      z ∈ (decrement_neighbors xp ys X q).2 := by
  intro ys
  induction ys with
  | nil =>
    intro X q z hq h1
    exact hq h1
  | cons y rest ih =>
    intro X q z hq h1
    by_cases hy0 : X.getD y 0 < 0
    · simp only [decrement_neighbors, if_pos hy0] at h1 ⊢
      exact ih X q z hq h1
    · by_cases hyx : y = xp
      · simp only [decrement_neighbors, if_neg hy0, if_pos hyx] at h1 ⊢
        exact ih X q z hq h1
      · simp only [decrement_neighbors, if_neg hy0, if_neg hyx] at h1 ⊢
        refine ih _ _ z ?_ h1
        intro hz1
        by_cases hzy : z = y
        · subst hzy
          by_cases hlen : z < X.length
          · rw [getD_set_self hlen] at hz1
            rw [if_pos hz1]
            exact List.mem_append_right _ (List.mem_singleton.mpr rfl)
          · push_neg at hlen
            rw [List.set_eq_of_length_le hlen] at hz1
            have h0 : X.getD z 0 = 0 := by
              rw [List.getD_eq_getElem?_getD, List.getElem?_eq_none hlen]
              rfl
            omega
        · rw [getD_set_ne _ (fun h => hzy h.symm)] at hz1
          have hmem := hq hz1
          by_cases hd : X.getD y 0 - 1 = 1
          · rw [if_pos hd]
            exact List.mem_append_left _ hmem
          · rw [if_neg hd]
            exact hmem

/-- Every recorded singleton pair is an edge of the graph: the partner stored
at slot `i` of `Yperm` is a neighbor of the entity stored at slot `i` of
`Xperm`. -/
def pair_adj (G : row_col_graph_t) (s : sstate_t) : Prop :=
  ∀ i, i < s.singletons_found →
    s.Yperm.getD i 0 ∈ seg G.Xp G.Xi (s.Xperm.getD i 0)

/-- Every still-active entity of degree exactly 1 is waiting in the queue. -/
def queue_complete (nX : Nat) (s : sstate_t) : Prop :=
  ∀ z, z < nX → s.Xdeg.getD z 0 = 1 → z ∈ s.queue

theorem xdeg_pos_lt (nX nY : Nat) (G : row_col_graph_t) (s : sstate_t)
    (hs : state_inv G nX nY s) (x : Nat) (hx : s.Xdeg.getD x 0 ≠ 0) : x < nX := by
  by_contra hge
  push_neg at hge
  have h0 : s.Xdeg.getD x 0 = 0 := by
    rw [List.getD_eq_getElem?_getD, List.getElem?_eq_none (by rw [hs.xdeg_len]; omega)]
    rfl
  exact hx h0

theorem found_lt_of_active (G : row_col_graph_t) (nX nY : Nat) (s : sstate_t)
    (hs : state_inv G nX nY s) (x : Nat) (hx : x < nX)
    (hact : 0 ≤ s.Xdeg.getD x 0) : s.singletons_found < nX := by
  have hnot : x ∉ recorded_pfx s.Xperm s.singletons_found := by
    intro hmem
    have := ((hs.xpfx_mem x).mp hmem).2
    omega
  have hlt := nodup_lt_length_lt (recorded_pfx s.Xperm s.singletons_found) nX
    hs.xpfx_nodup (fun z hz => ((hs.xpfx_mem z).mp hz).1) x hx hnot
  rwa [recorded_pfx, List.length_map, List.length_range] at hlt

theorem found_lt_of_active_y (G : row_col_graph_t) (nX nY : Nat) (s : sstate_t)
    (hs : state_inv G nX nY s) (y : Nat) (hy : y < nY)
    (hact : 0 ≤ s.Ydeg.getD y 0) : s.singletons_found < nY := by
  have hnot : y ∉ recorded_pfx s.Yperm s.singletons_found := by
    intro hmem
    have := ((hs.ypfx_mem y).mp hmem).2
    omega
  have hlt := nodup_lt_length_lt (recorded_pfx s.Yperm s.singletons_found) nY
    hs.ypfx_nodup (fun z hz => ((hs.ypfx_mem z).mp hz).1) y hy hnot
  rwa [recorded_pfx, List.length_map, List.length_range] at hlt

theorem order_step_preserves_pair_adj (G : row_col_graph_t) (nX nY : Nat)
    (hG : graph_wf G nX nY) (s : sstate_t) (hs : state_inv G nX nY s)
    (hp : pair_adj G s) : pair_adj G (order_step G s) := by
  cases hq : s.queue with
  | nil =>
    rw [order_step_eq_nil G s hq]
    exact hp
  | cons x rest =>
    by_cases hdeg : s.Xdeg.getD x 0 ≠ 1
    · rw [order_step_eq_skip G s x rest hq hdeg]
      exact hp
    · push_neg at hdeg
      cases hf : (seg G.Xp G.Xi x).find? (fun y => decide (0 ≤ s.Ydeg.getD y 0)) with
      | none =>
        rw [order_step_eq_none G s x rest hq hdeg hf]
        exact hp
      | some y =>
        have hxlt : x < nX := xdeg_pos_lt nX nY G s hs x (by omega)
        have hymem : y ∈ seg G.Xp G.Xi x := List.mem_of_find?_eq_some hf
        have hylt : y < nY := hG.xi_lt x hxlt y hymem
        have hfX : s.singletons_found < s.Xperm.length := by
          rw [hs.xperm_len]
          exact found_lt_of_active G nX nY s hs x hxlt (by omega)
        have hyact : 0 ≤ s.Ydeg.getD y 0 := by
          have := List.find?_some hf
          simpa using this
        have hfY : s.singletons_found < s.Yperm.length := by
          rw [hs.yperm_len]
          exact found_lt_of_active_y G nX nY s hs y hylt hyact
        rw [order_step_eq_elim G s x rest y hq hdeg hf]
        intro i hi
        show (s.Yperm.set s.singletons_found y).getD i 0 ∈
          seg G.Xp G.Xi ((s.Xperm.set s.singletons_found x).getD i 0)
        have hi' : i < s.singletons_found + 1 := hi
        by_cases hieq : i = s.singletons_found
        · subst hieq
          rw [getD_set_self hfX, getD_set_self hfY]
          exact hymem
        · rw [getD_set_ne _ (fun h => hieq h.symm), getD_set_ne _ (fun h => hieq h.symm)]
          exact hp i (by omega)

theorem order_step_preserves_queue_complete (G : row_col_graph_t) (nX nY : Nat)
    (s : sstate_t) (hs : state_inv G nX nY s)
    (hQ : queue_complete nX s) : queue_complete nX (order_step G s) := by
  cases hq : s.queue with
  | nil =>
    rw [order_step_eq_nil G s hq]
    exact hQ
  | cons x rest =>
    by_cases hdeg : s.Xdeg.getD x 0 ≠ 1
    · rw [order_step_eq_skip G s x rest hq hdeg]
      intro z hz hz1
      have hmem := hQ z hz hz1
      rw [hq] at hmem
      rcases List.mem_cons.mp hmem with rfl | h
      · exact absurd hz1 hdeg
      · exact h
    · push_neg at hdeg
      have hxlt : x < nX := xdeg_pos_lt nX nY G s hs x (by omega)
      cases hf : (seg G.Xp G.Xi x).find? (fun y => decide (0 ≤ s.Ydeg.getD y 0)) with
      | none =>
        exfalso
        have hdc := hs.xdeg_correct x hxlt (by omega)
        rw [hdeg] at hdc
        have hpos : 0 < List.countP (fun y => decide (0 ≤ s.Ydeg.getD y 0))
            (seg G.Xp G.Xi x) := by omega
        obtain ⟨y, hymem, hy⟩ := List.countP_pos_iff.mp hpos
        have := List.find?_eq_none.mp hf y hymem
        exact this hy
      | some y =>
        rw [order_step_eq_elim G s x rest y hq hdeg hf]
        intro z hz hz1
        show z ∈ (decrement_neighbors x (seg G.Yp G.Yi y) s.Xdeg rest).2
        have hz1' : ((decrement_neighbors x (seg G.Yp G.Yi y) s.Xdeg rest).1.set x
            (FLIP 1)).getD z 0 = 1 := hz1
        have hxlen : x < (decrement_neighbors x (seg G.Yp G.Yi y) s.Xdeg rest).1.length := by
          rw [decrement_neighbors_length, hs.xdeg_len]
          exact hxlt
        by_cases hzx : z = x
        · subst hzx
          rw [getD_set_self hxlen] at hz1'
          norm_num [FLIP] at hz1'
        · rw [getD_set_ne _ (fun h => hzx h.symm)] at hz1'
          refine dn_deg1_mem x (seg G.Yp G.Yi y) s.Xdeg rest z ?_ hz1'
          intro h1
          have hmem := hQ z hz h1
          rw [hq] at hmem
          rcases List.mem_cons.mp hmem with rfl | h
          · exact absurd rfl hzx
          · exact h

theorem order_loop_preserves_aux (G : row_col_graph_t) (nX nY : Nat)
    (hG : graph_wf G nX nY) :
    ∀ (fuel : Nat) (s : sstate_t), state_inv G nX nY s → pair_adj G s →
      queue_complete nX s →
      pair_adj G (order_loop G fuel s) ∧ queue_complete nX (order_loop G fuel s) := by
  intro fuel
  induction fuel with
  | zero =>
    intro s _ hp hQ
    exact ⟨hp, hQ⟩
  | succ f ih =>
    intro s hs hp hQ
    cases hq : s.queue with
    | nil =>
      rw [order_loop_queue_nil G _ s hq]
      exact ⟨hp, hQ⟩
    | cons x rest =>
      rw [order_loop_succ_cons G f s x rest hq]
      exact ih _ (order_step_preserves_inv G nX nY hG s hs)
        (order_step_preserves_pair_adj G nX nY hG s hs hp)
        (order_step_preserves_queue_complete G nX nY s hs hQ)

theorem fs_after_pass1_inv (A : csc_matrix_t) (hwf : csc_wf A) (rp cp : List Nat)
    (hrp : rp.length = A.m) (hcp : cp.length = A.n) :
    state_inv (fs_col_graph A) A.n A.m (fs_after_pass1 A rp cp) := by
  rw [fs_after_pass1_eq]
  by_cases hemp : (fs_queue1 A).isEmpty
  · rw [if_pos hemp]
    exact fs_state1_inv A hwf rp cp hrp hcp
  · rw [if_neg hemp]
    refine order_singletons_preserves_inv _ _ _ (fs_graph_wf A hwf) _ ?_
    exact state_inv_queue_work _ _ _ _ _ _ (fs_state1_inv A hwf rp cp hrp hcp)

/-- The recorded pairs are edges and the queue still holds every active
degree-1 column after the column pass. -/
theorem fs_after_pass1_aux (A : csc_matrix_t) (hwf : csc_wf A) (rp cp : List Nat)
    (hrp : rp.length = A.m) (hcp : cp.length = A.n) :
    pair_adj (fs_col_graph A) (fs_after_pass1 A rp cp) ∧
    queue_complete A.n (fs_after_pass1 A rp cp) := by
  rw [fs_after_pass1_eq]
  by_cases hemp : (fs_queue1 A).isEmpty
  · rw [if_pos hemp]
    constructor
    · intro i hi
      exact absurd hi (Nat.not_lt_zero i)
    · intro z hz hz1
      show z ∈ fs_queue1 A
      rw [fs_queue1, List.mem_filter]
      refine ⟨?_, ?_⟩
      · rw [List.mem_reverse, List.mem_range]
        exact hz
      · simp only [decide_eq_true_eq]
        exact hz1
  · rw [if_neg hemp]
    refine order_loop_preserves_aux (fs_col_graph A) A.n A.m (fs_graph_wf A hwf)
      (order_fuel { fs_state1 A rp cp with
        work := (fs_state1 A rp cp).work + create_row_work A })
      { fs_state1 A rp cp with
        work := (fs_state1 A rp cp).work + create_row_work A }
      (state_inv_queue_work _ _ _ _ _ _ (fs_state1_inv A hwf rp cp hrp hcp)) ?_ ?_
    · intro i hi
      exact absurd hi (Nat.not_lt_zero i)
    · intro z hz hz1
      show z ∈ fs_queue1 A
      rw [fs_queue1, List.mem_filter]
      refine ⟨?_, ?_⟩
      · rw [List.mem_reverse, List.mem_range]
        exact hz
      · simp only [decide_eq_true_eq]
        exact hz1

theorem countP_disjoint_le {α : Type} (p q f : α → Bool) :
    ∀ l : List α,
      (∀ a ∈ l, ¬(p a = true ∧ q a = true)) →
      (∀ a ∈ l, p a = true → f a = true) →
      (∀ a ∈ l, q a = true → f a = true) →
      l.countP p + l.countP q ≤ l.countP f := by
  intro l
  induction l with
  | nil =>
    intro _ _ _
    simp
  | cons a t ih =>
    intro hpq hpf hqf
    have iht := ih (fun b hb => hpq b (List.mem_cons_of_mem a hb))
      (fun b hb => hpf b (List.mem_cons_of_mem a hb))
      (fun b hb => hqf b (List.mem_cons_of_mem a hb))
    have hmem := List.mem_cons_self a t
    rw [List.countP_cons, List.countP_cons, List.countP_cons]
    have h0 : (if false = true then (1 : Nat) else 0) = 0 := rfl
    have h1 : (if true = true then (1 : Nat) else 0) = 1 := rfl
    by_cases hp : p a = true
    · have hf := hpf a hmem hp
      have hq2 : q a = false := by
        cases hq3 : q a with
        | false => rfl
        | true => exact absurd ⟨hp, hq3⟩ (hpq a hmem)
      rw [hp, hq2, hf, h0, h1]
      omega
    · have hp' : p a = false := by
        cases hp3 : p a with
        | false => rfl
        | true => exact absurd hp3 hp
      by_cases hq2 : q a = true
      · have hf := hqf a hmem hq2
        rw [hp', hq2, hf, h0, h1]
        omega
      · have hq2' : q a = false := by
          cases hq3 : q a with
          | false => rfl
          | true => exact absurd hq3 hq2
        rw [hp', hq2', h0]
        cases hfa : f a
        · rw [h0]
          omega
        · rw [h1]
          omega

/-- In a matrix whose rows each carry exactly one entry, a row index can
appear in at most one column segment. -/
theorem col_unique (A : csc_matrix_t) (hwf : csc_wf A)
    (hrow1 : ∀ r, r < A.m → A.i.count r = 1) (r j j' : Nat)
    (hj : j < A.n) (hj' : j' < A.n) (hr : r < A.m)
    (h1 : r ∈ col_seg A j) (h2 : r ∈ col_seg A j') : j = j' := by
  by_contra hne
  have hcount : List.countP (fun pr => decide (pr.1 = r ∧ pr.2 = j)) (csc_pairs A) +
      List.countP (fun pr => decide (pr.1 = r ∧ pr.2 = j')) (csc_pairs A) ≤
      List.countP (fun pr => decide (pr.1 = r)) (csc_pairs A) := by
    refine countP_disjoint_le _ _ _ (csc_pairs A) ?_ ?_ ?_
    · rintro a _ ⟨ha1, ha2⟩
      rw [decide_eq_true_eq] at ha1 ha2
      exact hne (ha1.2.symm.trans ha2.2)
    · intro a _ ha
      rw [decide_eq_true_eq] at ha
      rw [decide_eq_true_eq]
      exact ha.1
    · intro a _ ha
      rw [decide_eq_true_eq] at ha
      rw [decide_eq_true_eq]
      exact ha.1
  rw [countP_pair_csc_pairs A r j hj, countP_pair_csc_pairs A r j' hj'] at hcount
  have hfst : List.countP (fun pr => decide (pr.1 = r)) (csc_pairs A) = A.i.count r := by
    have hmap : List.countP (fun pr => decide (pr.1 = r)) (csc_pairs A) =
        List.countP (fun i => decide (i = r)) ((csc_pairs A).map Prod.fst) := by
      rw [List.countP_map]
      rfl
    rw [hmap, csc_pairs_map_fst A hwf, List.count_eq_countP]
    refine List.countP_congr ?_
    intro i _
    simp
  rw [hfst, hrow1 r hr] at hcount
  have hc1 : 0 < List.count r (col_seg A j) := List.count_pos_iff.mpr h1
  have hc2 : 0 < List.count r (col_seg A j') := List.count_pos_iff.mpr h2
  omega

/-- On a permuted identity matrix the column pass eliminates every column. -/
theorem fs_pass1_all_flipped (A : csc_matrix_t) (hwf : csc_wf A) (rp cp : List Nat)
    (hrp : rp.length = A.m) (hcp : cp.length = A.n)
    (hcol1 : ∀ j, j < A.n → (col_seg A j).length = 1)
    (hrow1 : ∀ r, r < A.m → A.i.count r = 1) :
    ∀ j, j < A.n → (fs_after_pass1 A rp cp).Xdeg.getD j 0 < 0 := by
  intro j hj
  by_contra hpos
  push_neg at hpos
  have hinv := fs_after_pass1_inv A hwf rp cp hrp hcp
  have haux := fs_after_pass1_aux A hwf rp cp hrp hcp
  have hqnil := fs_after_pass1_queue_nil A rp cp
  have hno1 : (fs_after_pass1 A rp cp).Xdeg.getD j 0 ≠ 1 := by
    intro h1
    have hmem := haux.2 j hj h1
    rw [hqnil] at hmem
    exact absurd hmem (List.not_mem_nil j)
  have hdc : (fs_after_pass1 A rp cp).Xdeg.getD j 0 =
      (List.countP (fun y => decide (0 ≤ (fs_after_pass1 A rp cp).Ydeg.getD y 0))
        (col_seg A j) : Int) := hinv.xdeg_correct j hj hpos
  obtain ⟨r, hcol⟩ := List.length_eq_one.mp (hcol1 j hj)
  rw [hcol] at hdc
  have hrm : r < A.m :=
    col_seg_mem_lt A hwf j r (by rw [hcol]; exact List.mem_singleton.mpr rfl)
  by_cases hract : 0 ≤ (fs_after_pass1 A rp cp).Ydeg.getD r 0
  · have hone : List.countP
        (fun y => decide (0 ≤ (fs_after_pass1 A rp cp).Ydeg.getD y 0)) [r] = 1 := by
      rw [List.countP_cons, List.countP_nil, decide_eq_true hract]
      rfl
    rw [hone] at hdc
    exact hno1 (by omega)
  · push_neg at hract
    have hrmem : r ∈ recorded_pfx (fs_after_pass1 A rp cp).Yperm
        (fs_after_pass1 A rp cp).singletons_found :=
      (hinv.ypfx_mem r).mpr ⟨hrm, hract⟩
    rw [recorded_pfx, List.mem_map] at hrmem
    obtain ⟨i, hi, hri⟩ := hrmem
    rw [List.mem_range] at hi
    have hadj : r ∈ col_seg A ((fs_after_pass1 A rp cp).Xperm.getD i 0) := by
      have h := haux.1 i hi
      rw [hri] at h
      exact h
    have hjmem : (fs_after_pass1 A rp cp).Xperm.getD i 0 ∈
        recorded_pfx (fs_after_pass1 A rp cp).Xperm
          (fs_after_pass1 A rp cp).singletons_found := by
      rw [recorded_pfx, List.mem_map]
      exact ⟨i, List.mem_range.mpr hi, rfl⟩
    have hj' := (hinv.xpfx_mem _).mp hjmem
    have hjj : j = (fs_after_pass1 A rp cp).Xperm.getD i 0 :=
      col_unique A hwf hrow1 r j _ hj hj'.1 hrm
        (by rw [hcol]; exact List.mem_singleton.mpr rfl) hadj
    rw [← hjj] at hj'
    omega

theorem fs_pass1_found (A : csc_matrix_t) (hwf : csc_wf A) (rp cp : List Nat)
    (hrp : rp.length = A.m) (hcp : cp.length = A.n)
    (hcol1 : ∀ j, j < A.n → (col_seg A j).length = 1)
    (hrow1 : ∀ r, r < A.m → A.i.count r = 1) :
    (fs_after_pass1 A rp cp).singletons_found = A.n := by
  have hinv := fs_after_pass1_inv A hwf rp cp hrp hcp
  have hall := fs_pass1_all_flipped A hwf rp cp hrp hcp hcol1 hrow1
  have hfound := found_eq_neg_count _ _ _ hinv.xpfx_nodup
    (by rw [hinv.xdeg_len]; exact hinv.xpfx_mem)
  have hfil : (List.range A.n).filter
      (fun k => decide ((fs_after_pass1 A rp cp).Xdeg.getD k 0 < 0)) = List.range A.n := by
    rw [List.filter_eq_self]
    intro a ha
    rw [List.mem_range] at ha
    exact decide_eq_true (hall a ha)
  rw [hfound, hinv.xdeg_len, neg_elems, hfil, List.length_range]

theorem fs_pass1_rows_flipped (A : csc_matrix_t) (hwf : csc_wf A) (rp cp : List Nat)
    (hrp : rp.length = A.m) (hcp : cp.length = A.n) (hmn : A.m = A.n)
    (hcol1 : ∀ j, j < A.n → (col_seg A j).length = 1)
    (hrow1 : ∀ r, r < A.m → A.i.count r = 1) :
    ∀ r, r < A.m → (fs_after_pass1 A rp cp).Ydeg.getD r 0 < 0 := by
  intro r hr
  by_contra hpos
  push_neg at hpos
  have hinv := fs_after_pass1_inv A hwf rp cp hrp hcp
  have hnot : r ∉ recorded_pfx (fs_after_pass1 A rp cp).Yperm
      (fs_after_pass1 A rp cp).singletons_found := by
    intro hm
    have := ((hinv.ypfx_mem r).mp hm).2
    omega
  have hlt := nodup_lt_length_lt _ A.m hinv.ypfx_nodup
    (fun z hz => ((hinv.ypfx_mem z).mp hz).1) r hr hnot
  rw [recorded_pfx, List.length_map, List.length_range] at hlt
  rw [fs_pass1_found A hwf rp cp hrp hcp hcol1 hrow1] at hlt
  omega

theorem fs_queue2_nil (A : csc_matrix_t) (hwf : csc_wf A) (rp cp : List Nat)
    (hrp : rp.length = A.m) (hcp : cp.length = A.n) (hmn : A.m = A.n)
    (hcol1 : ∀ j, j < A.n → (col_seg A j).length = 1)
    (hrow1 : ∀ r, r < A.m → A.i.count r = 1) :
    fs_queue2 A rp cp = [] := by
  rw [fs_queue2, List.filter_eq_nil_iff]
  intro r hrmem
  rw [List.mem_reverse, List.mem_range] at hrmem
  have hneg := fs_pass1_rows_flipped A hwf rp cp hrp hcp hmn hcol1 hrow1 r hrmem
  simp only [decide_eq_true_eq]
  omega

/-- Claim C7: the value `find_singletons` returns always equals
`col_singletons + row_singletons`; and on an `n`-by-`n` permuted identity
matrix (every column and every row carries exactly one entry) the two counts
sum to `n` with no empty columns and no empty rows. -/
theorem claim_C7_singleton_counts (A : csc_matrix_t) (rp cp : List Nat) :
    (find_singletons A rp cp).ret =
      (find_singletons A rp cp).col_singletons +
        (find_singletons A rp cp).row_singletons ∧
    (csc_wf A → rp.length = A.m → cp.length = A.n → A.m = A.n →
      (∀ j, j < A.n → (col_seg A j).length = 1) →
      (∀ r, r < A.m → A.i.count r = 1) →
      (find_singletons A rp cp).col_singletons +
          (find_singletons A rp cp).row_singletons = A.n ∧
      (find_singletons A rp cp).num_empty_cols = 0 ∧
      (find_singletons A rp cp).num_empty_rows = 0) := by
  have hret : (find_singletons A rp cp).ret =
      (fs_after_pass2 A rp cp).singletons_found := rfl
  have hcs : (find_singletons A rp cp).col_singletons =
      (fs_after_pass1 A rp cp).singletons_found := rfl
  have hrs : (find_singletons A rp cp).row_singletons =
      (fs_after_pass2 A rp cp).singletons_found -
        (fs_after_pass1 A rp cp).singletons_found := rfl
  have hmono := fs_found_mono A rp cp
  constructor
  · rw [hret, hcs, hrs]
    omega
  · intro hwf hrp hcp hmn hcol1 hrow1
    have hq2 : fs_queue2 A rp cp = [] :=
      fs_queue2_nil A hwf rp cp hrp hcp hmn hcol1 hrow1
    have hq2e : (fs_queue2 A rp cp).isEmpty = true := by
      rw [hq2]
      rfl
    have hs2eq : fs_after_pass2 A rp cp =
        { fs_after_pass1 A rp cp with
            work := (fs_after_pass1 A rp cp).work + A.m + (fs_queue2 A rp cp).length } := by
      rw [fs_after_pass2_eq, if_pos hq2e]
    have hfound1 : (fs_after_pass1 A rp cp).singletons_found = A.n :=
      fs_pass1_found A hwf rp cp hrp hcp hcol1 hrow1
    have hfound2 : (fs_after_pass2 A rp cp).singletons_found = A.n := by
      rw [hs2eq]
      exact hfound1
    have hinv := fs_after_pass2_inv A hwf rp cp hrp hcp
    refine ⟨?_, ?_, ?_⟩
    · rw [hcs, hrs, hfound1, hfound2]
      omega
    · have hfc := found_eq_neg_count _ _ _ hinv.xpfx_nodup
        (by rw [hinv.xdeg_len]; exact hinv.xpfx_mem)
      have hspec := complete_permutation_spec (fs_after_pass2 A rp cp).Xdeg
        (fs_after_pass2 A rp cp).Xperm (fs_after_pass2 A rp cp).Xflips
        (by rw [hinv.xperm_len, hinv.xdeg_len]) (by rw [hinv.xflips_len, hinv.xdeg_len])
      have hne : (find_singletons A rp cp).num_empty_cols =
          (complete_permutation (fs_after_pass2 A rp cp).singletons_found
            (fs_after_pass2 A rp cp).Xdeg (fs_after_pass2 A rp cp).Xperm
            (fs_after_pass2 A rp cp).Xflips).num_empty := rfl
      rw [hne, hfc, hspec.1, zero_elems, List.length_eq_zero, List.filter_eq_nil_iff]
      intro k hk
      rw [hinv.xdeg_len, List.mem_range] at hk
      have hneg : (fs_after_pass2 A rp cp).Xdeg.getD k 0 < 0 := by
        rw [hs2eq]
        exact fs_pass1_all_flipped A hwf rp cp hrp hcp hcol1 hrow1 k hk
      simp only [decide_eq_true_eq]
      omega
    · have hfr := found_eq_neg_count _ _ _ hinv.ypfx_nodup
        (by rw [hinv.ydeg_len]; exact hinv.ypfx_mem)
      have hspec := complete_permutation_spec (fs_after_pass2 A rp cp).Ydeg
        (fs_after_pass2 A rp cp).Yperm (fs_after_pass2 A rp cp).Yflips
        (by rw [hinv.yperm_len, hinv.ydeg_len]) (by rw [hinv.yflips_len, hinv.ydeg_len])
      have hne : (find_singletons A rp cp).num_empty_rows =
          (complete_permutation (fs_after_pass2 A rp cp).singletons_found
            (fs_after_pass2 A rp cp).Ydeg (fs_after_pass2 A rp cp).Yperm
            (fs_after_pass2 A rp cp).Yflips).num_empty := rfl
      rw [hne, hfr, hspec.1, zero_elems, List.length_eq_zero, List.filter_eq_nil_iff]
      intro k hk
      rw [hinv.ydeg_len, List.mem_range] at hk
      have hneg : (fs_after_pass2 A rp cp).Ydeg.getD k 0 < 0 := by
        rw [hs2eq]
        exact fs_pass1_rows_flipped A hwf rp cp hrp hcp hmn hcol1 hrow1 k hk
      simp only [decide_eq_true_eq]
      omega

/-- Witness for claim C7 on the 2-by-2 permuted identity matrix exchanging
the two coordinates. -/
theorem claim_C7_singleton_counts_witness :
    ((find_singletons { m := 2, n := 2, col_start := [0, 1, 2], i := [1, 0], x := [] }
        [9, 9] [9, 9]).ret =
      (find_singletons { m := 2, n := 2, col_start := [0, 1, 2], i := [1, 0], x := [] }
          [9, 9] [9, 9]).col_singletons +
        (find_singletons { m := 2, n := 2, col_start := [0, 1, 2], i := [1, 0], x := [] }
            [9, 9] [9, 9]).row_singletons) ∧
    ((find_singletons { m := 2, n := 2, col_start := [0, 1, 2], i := [1, 0], x := [] }
        [9, 9] [9, 9]).col_singletons +
      (find_singletons { m := 2, n := 2, col_start := [0, 1, 2], i := [1, 0], x := [] }
          [9, 9] [9, 9]).row_singletons = 2 ∧
     (find_singletons { m := 2, n := 2, col_start := [0, 1, 2], i := [1, 0], x := [] }
        [9, 9] [9, 9]).num_empty_cols = 0 ∧
     (find_singletons { m := 2, n := 2, col_start := [0, 1, 2], i := [1, 0], x := [] }
        [9, 9] [9, 9]).num_empty_rows = 0) :=
  ⟨(claim_C7_singleton_counts
      { m := 2, n := 2, col_start := [0, 1, 2], i := [1, 0], x := [] } [9, 9] [9, 9]).1,
   (claim_C7_singleton_counts
      { m := 2, n := 2, col_start := [0, 1, 2], i := [1, 0], x := [] } [9, 9] [9, 9]).2
     (by refine ⟨by decide, by decide, by decide, by decide, by decide⟩)
     (by decide) (by decide) (by decide)
     (by decide) (by decide)⟩

/-! ### Claim C2: one iteration of the queue loop -/

/-- When the partner's adjacency list has no repeated entries, the queue
after the decrement scan is the old queue followed by exactly those scanned
entities that were active, distinct from the pivot, and of degree 2 (the
ones whose degree newly becomes 1). -/
theorem decrement_neighbors_queue (xp : Nat) :
    ∀ (ys : List Nat) (X : List Int) (q : List Nat), ys.Nodup →
      (decrement_neighbors xp ys X q).2 =
        q ++ ys.filter (fun z =>
          decide (0 ≤ X.getD z 0) && decide (z ≠ xp) && decide (X.getD z 0 = 2)) := by
  intro ys
  induction ys with
  | nil =>
    intro X q _
    simp [decrement_neighbors]
  | cons y rest ih =>
    intro X q hnd
    rw [List.nodup_cons] at hnd
    obtain ⟨hyr, hnd'⟩ := hnd
    by_cases h1 : X.getD y 0 < 0
    · simp only [decrement_neighbors, if_pos h1]
      rw [ih X q hnd']
      have hcond : (decide (0 ≤ X.getD y 0) && decide (y ≠ xp) &&
          decide (X.getD y 0 = 2)) = false := by
        have h0 : decide (0 ≤ X.getD y 0) = false := decide_eq_false (by omega)
        rw [h0, Bool.false_and, Bool.false_and]
      have hstep : List.filter (fun z =>
          decide (0 ≤ X.getD z 0) && decide (z ≠ xp) && decide (X.getD z 0 = 2))
            (y :: rest) =
          List.filter (fun z =>
            decide (0 ≤ X.getD z 0) && decide (z ≠ xp) && decide (X.getD z 0 = 2)) rest := by
        simp only [List.filter_cons]
        rw [hcond]
        simp
      rw [hstep]
    · by_cases h2 : y = xp
      · simp only [decrement_neighbors, if_neg h1, if_pos h2]
        rw [ih X q hnd']
        have hcond : (decide (0 ≤ X.getD y 0) && decide (y ≠ xp) &&
            decide (X.getD y 0 = 2)) = false := by
          have hb : decide (y ≠ xp) = false := decide_eq_false (not_not_intro h2)
          rw [hb, Bool.and_false, Bool.false_and]
        have hstep : List.filter (fun z =>
            decide (0 ≤ X.getD z 0) && decide (z ≠ xp) && decide (X.getD z 0 = 2))
              (y :: rest) =
            List.filter (fun z =>
              decide (0 ≤ X.getD z 0) && decide (z ≠ xp) && decide (X.getD z 0 = 2))
              rest := by
          simp only [List.filter_cons]
          rw [hcond]
          simp
        rw [hstep]
      · simp only [decrement_neighbors, if_neg h1, if_neg h2]
        rw [ih (X.set y (X.getD y 0 - 1)) _ hnd']
        have hfil : List.filter (fun z =>
            decide (0 ≤ (X.set y (X.getD y 0 - 1)).getD z 0) && decide (z ≠ xp) &&
              decide ((X.set y (X.getD y 0 - 1)).getD z 0 = 2)) rest =
            List.filter (fun z =>
              decide (0 ≤ X.getD z 0) && decide (z ≠ xp) && decide (X.getD z 0 = 2))
              rest := by
          refine List.filter_congr ?_
          intro z hz
          have hzy : y ≠ z := fun he => hyr (he ▸ hz)
          rw [getD_set_ne _ hzy]
        rw [hfil]
        by_cases hd : X.getD y 0 - 1 = 1
        · rw [if_pos hd]
          have hcond : (decide (0 ≤ X.getD y 0) && decide (y ≠ xp) &&
              decide (X.getD y 0 = 2)) = true := by
            rw [decide_eq_true (by omega : 0 ≤ X.getD y 0), decide_eq_true h2,
              decide_eq_true (by omega : X.getD y 0 = 2)]
            rfl
          have hstep : List.filter (fun z =>
              decide (0 ≤ X.getD z 0) && decide (z ≠ xp) && decide (X.getD z 0 = 2))
                (y :: rest) =
              y :: List.filter (fun z =>
                decide (0 ≤ X.getD z 0) && decide (z ≠ xp) && decide (X.getD z 0 = 2))
                rest := by
            simp only [List.filter_cons]
            rw [hcond]
            simp
          rw [hstep, List.append_assoc]
          rfl
        · rw [if_neg hd]
          have hcond : (decide (0 ≤ X.getD y 0) && decide (y ≠ xp) &&
              decide (X.getD y 0 = 2)) = false := by
            have hb : decide (X.getD y 0 = 2) = false := decide_eq_false (by omega)
            rw [hb, Bool.and_false]
          have hstep : List.filter (fun z =>
              decide (0 ≤ X.getD z 0) && decide (z ≠ xp) && decide (X.getD z 0 = 2))
                (y :: rest) =
              List.filter (fun z =>
                decide (0 ≤ X.getD z 0) && decide (z ≠ xp) && decide (X.getD z 0 = 2))
                rest := by
            simp only [List.filter_cons]
            rw [hcond]
            simp
          rw [hstep]

/-- Claim C2: one iteration of the `order_singletons` loop, under the loop
invariant, on a graph whose partner adjacency lists have no repeated entries.
If the popped entity's degree is not 1 it is skipped and only the queue pop
happens; otherwise its active neighbor exists and is unique, the pair is
recorded at slot `singletons_found` of `Xperm`/`Yperm` and the counter is
incremented, every other still-active neighbor of the partner has its degree
decremented by exactly one (all others keep their degree), and the entities
appended to the queue are exactly the scanned neighbors whose degree was 2,
i.e. newly becomes 1. -/
theorem claim_C2_order_step (G : row_col_graph_t) (nX nY : Nat)
    (hG : graph_wf G nX nY) (s : sstate_t) (hs : state_inv G nX nY s)
    (hsimple : ∀ y, y < nY → (seg G.Yp G.Yi y).Nodup)
    (x : Nat) (rest : List Nat) (hq : s.queue = x :: rest) :
    (s.Xdeg.getD x 0 ≠ 1 → order_step G s = { s with queue := rest }) ∧
    (s.Xdeg.getD x 0 = 1 →
      ∃ y, y ∈ seg G.Xp G.Xi x ∧ 0 ≤ s.Ydeg.getD y 0 ∧
        (∀ y', y' ∈ seg G.Xp G.Xi x → 0 ≤ s.Ydeg.getD y' 0 → y' = y) ∧
        (order_step G s).Xperm = s.Xperm.set s.singletons_found x ∧
        (order_step G s).Yperm = s.Yperm.set s.singletons_found y ∧
        (order_step G s).singletons_found = s.singletons_found + 1 ∧
        (∀ z, z ≠ x → 0 ≤ s.Xdeg.getD z 0 → z ∈ seg G.Yp G.Yi y →
          (order_step G s).Xdeg.getD z 0 = s.Xdeg.getD z 0 - 1) ∧
        (∀ z, z ≠ x → 0 ≤ s.Xdeg.getD z 0 → z ∉ seg G.Yp G.Yi y →
          (order_step G s).Xdeg.getD z 0 = s.Xdeg.getD z 0) ∧
        (order_step G s).queue = rest ++ (seg G.Yp G.Yi y).filter
          (fun z => decide (0 ≤ s.Xdeg.getD z 0) && decide (z ≠ x) &&
            decide (s.Xdeg.getD z 0 = 2))) := by
  constructor
  · intro hdeg
    exact order_step_eq_skip G s x rest hq hdeg
  · intro hdeg
    have hxlt : x < nX := xdeg_pos_lt nX nY G s hs x (by omega)
    have hdc := hs.xdeg_correct x hxlt (by omega)
    cases hf : (seg G.Xp G.Xi x).find? (fun y => decide (0 ≤ s.Ydeg.getD y 0)) with
    | none =>
      exfalso
      rw [hdeg] at hdc
      have hpos : 0 < List.countP (fun y => decide (0 ≤ s.Ydeg.getD y 0))
          (seg G.Xp G.Xi x) := by omega
      obtain ⟨y, hymem, hy⟩ := List.countP_pos_iff.mp hpos
      exact (List.find?_eq_none.mp hf y hymem) hy
    | some y =>
      have hymem : y ∈ seg G.Xp G.Xi x := List.mem_of_find?_eq_some hf
      have hyact : 0 ≤ s.Ydeg.getD y 0 := by
        simpa using List.find?_some hf
      have hylt : y < nY := hG.xi_lt x hxlt y hymem
      have hb : ∀ w ∈ seg G.Yp G.Yi y, w < s.Xdeg.length := by
        intro w hw
        rw [hs.xdeg_len]
        exact hG.yi_lt y hylt w hw
      have hge : ∀ w ∈ seg G.Yp G.Yi y, w ≠ x → 0 ≤ s.Xdeg.getD w 0 →
          (List.count w (seg G.Yp G.Yi y) : Int) ≤ s.Xdeg.getD w 0 := by
        intro w hw _ hwact
        have hwlt : w < nX := hG.yi_lt y hylt w hw
        have hwdc := hs.xdeg_correct w hwlt hwact
        have hsym := hG.sym w hwlt y hylt
        have hcle : List.count y (seg G.Xp G.Xi w) ≤
            List.countP (fun t => decide (0 ≤ s.Ydeg.getD t 0)) (seg G.Xp G.Xi w) :=
          count_le_countP _ (decide_eq_true hyact)
        rw [hwdc, ← hsym]
        exact_mod_cast hcle
      refine ⟨y, hymem, hyact, ?_, ?_, ?_, ?_, ?_, ?_, ?_⟩
      · intro y' hy'mem hy'act
        by_contra hne
        have hpy' : (fun t => decide (0 ≤ s.Ydeg.getD t 0)) y' = true := by
          show decide (0 ≤ s.Ydeg.getD y' 0) = true
          exact decide_eq_true hy'act
        have hpy : (fun t => decide (0 ≤ s.Ydeg.getD t 0)) y = true := by
          show decide (0 ≤ s.Ydeg.getD y 0) = true
          exact decide_eq_true hyact
        have h2c := @two_count_le_countP (fun t => decide (0 ≤ s.Ydeg.getD t 0)) y' y
          (seg G.Xp G.Xi x) hne hpy' hpy
        have hc1 : 0 < List.count y' (seg G.Xp G.Xi x) := List.count_pos_iff.mpr hy'mem
        have hc2 : 0 < List.count y (seg G.Xp G.Xi x) := List.count_pos_iff.mpr hymem
        rw [hdeg] at hdc
        omega
      · rw [order_step_eq_elim G s x rest y hq hdeg hf]
      · rw [order_step_eq_elim G s x rest y hq hdeg hf]
      · rw [order_step_eq_elim G s x rest y hq hdeg hf]
      · intro z hzx hzact hzmem
        rw [order_step_eq_elim G s x rest y hq hdeg hf]
        show ((decrement_neighbors x (seg G.Yp G.Yi y) s.Xdeg rest).1.set x
          (FLIP 1)).getD z 0 = s.Xdeg.getD z 0 - 1
        rw [getD_set_ne _ (fun h => hzx h.symm)]
        rw [decrement_neighbors_getD x _ _ rest hb hge z, if_pos ⟨hzact, hzx⟩,
          List.count_eq_one_of_mem (hsimple y hylt) hzmem]
        simp
      · intro z hzx hzact hznmem
        rw [order_step_eq_elim G s x rest y hq hdeg hf]
        show ((decrement_neighbors x (seg G.Yp G.Yi y) s.Xdeg rest).1.set x
          (FLIP 1)).getD z 0 = s.Xdeg.getD z 0
        rw [getD_set_ne _ (fun h => hzx h.symm)]
        rw [decrement_neighbors_getD x _ _ rest hb hge z, if_pos ⟨hzact, hzx⟩,
          List.count_eq_zero.mpr hznmem]
        simp
      · rw [order_step_eq_elim G s x rest y hq hdeg hf]
        show (decrement_neighbors x (seg G.Yp G.Yi y) s.Xdeg rest).2 =
          rest ++ (seg G.Yp G.Yi y).filter
            (fun z => decide (0 ≤ s.Xdeg.getD z 0) && decide (z ≠ x) &&
              decide (s.Xdeg.getD z 0 = 2))
        exact decrement_neighbors_queue x (seg G.Yp G.Yi y) s.Xdeg rest (hsimple y hylt)

/-- Witness for claim C2 on the 1-by-1 matrix: the popped column 0 has
degree 1 and is eliminated with its unique partner row. -/
theorem claim_C2_order_step_witness :
    ((fs_state1 { m := 1, n := 1, col_start := [0, 1], i := [0], x := [] } [7] [7]).Xdeg.getD 0 0 ≠ 1 →
      order_step (fs_col_graph { m := 1, n := 1, col_start := [0, 1], i := [0], x := [] }) (fs_state1 { m := 1, n := 1, col_start := [0, 1], i := [0], x := [] } [7] [7]) =
        { fs_state1 { m := 1, n := 1, col_start := [0, 1], i := [0], x := [] } [7] [7] with queue := [] }) ∧
    ((fs_state1 { m := 1, n := 1, col_start := [0, 1], i := [0], x := [] } [7] [7]).Xdeg.getD 0 0 = 1 →
      ∃ y, y ∈ seg (fs_col_graph { m := 1, n := 1, col_start := [0, 1], i := [0], x := [] }).Xp (fs_col_graph { m := 1, n := 1, col_start := [0, 1], i := [0], x := [] }).Xi 0 ∧
        0 ≤ (fs_state1 { m := 1, n := 1, col_start := [0, 1], i := [0], x := [] } [7] [7]).Ydeg.getD y 0 ∧
        (∀ y', y' ∈ seg (fs_col_graph { m := 1, n := 1, col_start := [0, 1], i := [0], x := [] }).Xp (fs_col_graph { m := 1, n := 1, col_start := [0, 1], i := [0], x := [] }).Xi 0 →
          0 ≤ (fs_state1 { m := 1, n := 1, col_start := [0, 1], i := [0], x := [] } [7] [7]).Ydeg.getD y' 0 → y' = y) ∧
        (order_step (fs_col_graph { m := 1, n := 1, col_start := [0, 1], i := [0], x := [] }) (fs_state1 { m := 1, n := 1, col_start := [0, 1], i := [0], x := [] } [7] [7])).Xperm =
          (fs_state1 { m := 1, n := 1, col_start := [0, 1], i := [0], x := [] } [7] [7]).Xperm.set
            (fs_state1 { m := 1, n := 1, col_start := [0, 1], i := [0], x := [] } [7] [7]).singletons_found 0 ∧
        (order_step (fs_col_graph { m := 1, n := 1, col_start := [0, 1], i := [0], x := [] }) (fs_state1 { m := 1, n := 1, col_start := [0, 1], i := [0], x := [] } [7] [7])).Yperm =
          (fs_state1 { m := 1, n := 1, col_start := [0, 1], i := [0], x := [] } [7] [7]).Yperm.set
            (fs_state1 { m := 1, n := 1, col_start := [0, 1], i := [0], x := [] } [7] [7]).singletons_found y ∧
        (order_step (fs_col_graph { m := 1, n := 1, col_start := [0, 1], i := [0], x := [] }) (fs_state1 { m := 1, n := 1, col_start := [0, 1], i := [0], x := [] } [7] [7])).singletons_found =
          (fs_state1 { m := 1, n := 1, col_start := [0, 1], i := [0], x := [] } [7] [7]).singletons_found + 1 ∧
        (∀ z, z ≠ 0 → 0 ≤ (fs_state1 { m := 1, n := 1, col_start := [0, 1], i := [0], x := [] } [7] [7]).Xdeg.getD z 0 →
          z ∈ seg (fs_col_graph { m := 1, n := 1, col_start := [0, 1], i := [0], x := [] }).Yp (fs_col_graph { m := 1, n := 1, col_start := [0, 1], i := [0], x := [] }).Yi y →
          (order_step (fs_col_graph { m := 1, n := 1, col_start := [0, 1], i := [0], x := [] }) (fs_state1 { m := 1, n := 1, col_start := [0, 1], i := [0], x := [] } [7] [7])).Xdeg.getD z 0 =
            (fs_state1 { m := 1, n := 1, col_start := [0, 1], i := [0], x := [] } [7] [7]).Xdeg.getD z 0 - 1) ∧
        (∀ z, z ≠ 0 → 0 ≤ (fs_state1 { m := 1, n := 1, col_start := [0, 1], i := [0], x := [] } [7] [7]).Xdeg.getD z 0 →
          z ∉ seg (fs_col_graph { m := 1, n := 1, col_start := [0, 1], i := [0], x := [] }).Yp (fs_col_graph { m := 1, n := 1, col_start := [0, 1], i := [0], x := [] }).Yi y →
          (order_step (fs_col_graph { m := 1, n := 1, col_start := [0, 1], i := [0], x := [] }) (fs_state1 { m := 1, n := 1, col_start := [0, 1], i := [0], x := [] } [7] [7])).Xdeg.getD z 0 =
            (fs_state1 { m := 1, n := 1, col_start := [0, 1], i := [0], x := [] } [7] [7]).Xdeg.getD z 0) ∧
        (order_step (fs_col_graph { m := 1, n := 1, col_start := [0, 1], i := [0], x := [] }) (fs_state1 { m := 1, n := 1, col_start := [0, 1], i := [0], x := [] } [7] [7])).queue =
          [] ++ (seg (fs_col_graph { m := 1, n := 1, col_start := [0, 1], i := [0], x := [] }).Yp (fs_col_graph { m := 1, n := 1, col_start := [0, 1], i := [0], x := [] }).Yi y).filter
            (fun z => decide (0 ≤ (fs_state1 { m := 1, n := 1, col_start := [0, 1], i := [0], x := [] } [7] [7]).Xdeg.getD z 0) &&
              decide (z ≠ 0) &&
              decide ((fs_state1 { m := 1, n := 1, col_start := [0, 1], i := [0], x := [] } [7] [7]).Xdeg.getD z 0 = 2))) :=
  claim_C2_order_step (fs_col_graph { m := 1, n := 1, col_start := [0, 1], i := [0], x := [] }) 1 1
    (fs_graph_wf { m := 1, n := 1, col_start := [0, 1], i := [0], x := [] }
      (by refine ⟨by decide, by decide, by decide, by decide, by decide⟩))
    (fs_state1 { m := 1, n := 1, col_start := [0, 1], i := [0], x := [] } [7] [7])
    (fs_state1_inv { m := 1, n := 1, col_start := [0, 1], i := [0], x := [] }
      (by refine ⟨by decide, by decide, by decide, by decide, by decide⟩)
      [7] [7] (by decide) (by decide))
    (by decide) 0 [] (by decide)

/-! ### Claim C10: the partner-scan assertions hold -/

/-- Boolean mirror of the partner scan of `order_singletons` (singletons.cpp
lines 76-87) together with its assertions: skip eliminated entries; require
`Xdeg[x] > 0` (the first assert); skip the pivot; decrement and require the
new degree to be nonnegative (the second assert).  Returns `false` exactly
when an assert would fire. -/
def dec_checks (xpivot : Nat) : List Nat → List Int → Bool
  | [], _ => true
  | x :: rest, Xdeg =>
    if Xdeg.getD x 0 < 0 then dec_checks xpivot rest Xdeg
    else if 0 < Xdeg.getD x 0 then
      (if x = xpivot then dec_checks xpivot rest Xdeg
       else
         if 0 ≤ Xdeg.getD x 0 - 1 then
           dec_checks xpivot rest (Xdeg.set x (Xdeg.getD x 0 - 1))
         else false)
    else false

/-- The scan checks pass whenever every active scanned entity's degree is at
least its multiplicity in the scan list. -/
theorem dec_checks_sound (xp : Nat) :
    ∀ (ys : List Nat) (X : List Int),
      (∀ z ∈ ys, 0 ≤ X.getD z 0 → (List.count z ys : Int) ≤ X.getD z 0) →
      dec_checks xp ys X = true := by
  intro ys
  induction ys with
  | nil =>
    intro X _
    rfl
  | cons y rest ih =>
    intro X hH
    by_cases h1 : X.getD y 0 < 0
    · simp only [dec_checks, if_pos h1]
      refine ih X ?_
      intro z hz hzact
      have hle := hH z (List.mem_cons_of_mem y hz) hzact
      have hcle : List.count z rest ≤ List.count z (y :: rest) := by
        rw [List.count_cons]
        omega
      omega
    · have hy := hH y (List.mem_cons_self y rest) (by omega)
      have hcy : 0 < List.count y (y :: rest) :=
        List.count_pos_iff.mpr (List.mem_cons_self y rest)
      have h2 : 0 < X.getD y 0 := by omega
      simp only [dec_checks, if_neg h1, if_pos h2]
      by_cases h3 : y = xp
      · rw [if_pos h3]
        refine ih X ?_
        intro z hz hzact
        have hle := hH z (List.mem_cons_of_mem y hz) hzact
        have hcle : List.count z rest ≤ List.count z (y :: rest) := by
          rw [List.count_cons]
          omega
        omega
      · rw [if_neg h3]
        have hcc : List.count y (y :: rest) = List.count y rest + 1 := by
          rw [List.count_cons]
          simp
        have hd : 0 ≤ X.getD y 0 - 1 := by omega
        rw [if_pos hd]
        refine ih (X.set y (X.getD y 0 - 1)) ?_
        intro z hz hzact
        by_cases hzy : z = y
        · subst hzy
          have hylen : z < X.length := by
            by_contra hge
            push_neg at hge
            have h0 : X.getD z 0 = 0 := by
              rw [List.getD_eq_getElem?_getD, List.getElem?_eq_none hge]
              rfl
            omega
          rw [getD_set_self hylen]
          omega
        · rw [getD_set_ne _ (fun h => hzy h.symm)] at hzact ⊢
          have hle := hH z (List.mem_cons_of_mem y hz) hzact
          have hcle : List.count z rest ≤ List.count z (y :: rest) := by
            rw [List.count_cons]
            omega
          omega

/-- Claim C10: on the elimination path of `order_singletons` (the popped
entity has degree 1 and an active partner is found), every still-active
neighbor scanned in the partner's adjacency list has strictly positive
degree, so both assertions of the scan hold (`dec_checks` returns `true`) and
the decrements never drive an active degree below 0: any entity whose degree
is negative after the scan was already eliminated (negative) before it, so no
new value collides with the flipped encoding. -/
theorem claim_C10_partner_scan_asserts (G : row_col_graph_t) (nX nY : Nat)
    (hG : graph_wf G nX nY) (s : sstate_t) (hs : state_inv G nX nY s)
    (x : Nat) (rest : List Nat) (ypivot : Nat) (hq : s.queue = x :: rest)
    (hdeg : s.Xdeg.getD x 0 = 1)
    (hf : (seg G.Xp G.Xi x).find?
      (fun y => decide (0 ≤ s.Ydeg.getD y 0)) = some ypivot) :
    dec_checks x (seg G.Yp G.Yi ypivot) s.Xdeg = true ∧
    (∀ z, (decrement_neighbors x (seg G.Yp G.Yi ypivot) s.Xdeg rest).1.getD z 0 < 0 →
      s.Xdeg.getD z 0 < 0) := by
  have hxlt : x < nX := xdeg_pos_lt nX nY G s hs x (by omega)
  have hymem : ypivot ∈ seg G.Xp G.Xi x := List.mem_of_find?_eq_some hf
  have hyact : 0 ≤ s.Ydeg.getD ypivot 0 := by
    simpa using List.find?_some hf
  have hylt : ypivot < nY := hG.xi_lt x hxlt ypivot hymem
  have hb : ∀ w ∈ seg G.Yp G.Yi ypivot, w < s.Xdeg.length := by
    intro w hw
    rw [hs.xdeg_len]
    exact hG.yi_lt ypivot hylt w hw
  have hge : ∀ w ∈ seg G.Yp G.Yi ypivot, w ≠ x → 0 ≤ s.Xdeg.getD w 0 →
      (List.count w (seg G.Yp G.Yi ypivot) : Int) ≤ s.Xdeg.getD w 0 := by
    intro w hw _ hwact
    have hwlt : w < nX := hG.yi_lt ypivot hylt w hw
    have hwdc := hs.xdeg_correct w hwlt hwact
    have hsym := hG.sym w hwlt ypivot hylt
    have hcle : List.count ypivot (seg G.Xp G.Xi w) ≤
        List.countP (fun t => decide (0 ≤ s.Ydeg.getD t 0)) (seg G.Xp G.Xi w) :=
      count_le_countP _ (decide_eq_true hyact)
    rw [hwdc, ← hsym]
    exact_mod_cast hcle
  have hH : ∀ z ∈ seg G.Yp G.Yi ypivot, 0 ≤ s.Xdeg.getD z 0 →
      (List.count z (seg G.Yp G.Yi ypivot) : Int) ≤ s.Xdeg.getD z 0 := by
    intro z hz hzact
    by_cases hzx : z = x
    · subst hzx
      have hsym := hG.sym z hxlt ypivot hylt
      have hcle : List.count ypivot (seg G.Xp G.Xi z) ≤
          List.countP (fun t => decide (0 ≤ s.Ydeg.getD t 0)) (seg G.Xp G.Xi z) :=
        count_le_countP _ (decide_eq_true hyact)
      have hdc := hs.xdeg_correct z hxlt hzact
      rw [hdc, ← hsym]
      exact_mod_cast hcle
    · exact hge z hz hzx hzact
  refine ⟨dec_checks_sound x (seg G.Yp G.Yi ypivot) s.Xdeg hH, ?_⟩
  intro z hneg
  rw [decrement_neighbors_getD x _ _ rest hb hge z] at hneg
  by_cases hcond : 0 ≤ s.Xdeg.getD z 0 ∧ z ≠ x
  · rw [if_pos hcond] at hneg
    by_cases hzmem : z ∈ seg G.Yp G.Yi ypivot
    · have := hH z hzmem hcond.1
      omega
    · rw [List.count_eq_zero.mpr hzmem] at hneg
      omega
  · rw [if_neg hcond] at hneg
    exact hneg

/-- Witness for claim C10 on the 2-by-2 identity matrix: the front of the
seed queue is column 1, whose partner is row 1. -/
theorem claim_C10_partner_scan_asserts_witness :
    dec_checks 1 (seg (fs_col_graph { m := 2, n := 2, col_start := [0, 1, 2], i := [0, 1], x := [] }).Yp (fs_col_graph { m := 2, n := 2, col_start := [0, 1, 2], i := [0, 1], x := [] }).Yi 1)
      (fs_state1 { m := 2, n := 2, col_start := [0, 1, 2], i := [0, 1], x := [] } [9, 9] [9, 9]).Xdeg = true ∧
    (∀ z, (decrement_neighbors 1 (seg (fs_col_graph { m := 2, n := 2, col_start := [0, 1, 2], i := [0, 1], x := [] }).Yp (fs_col_graph { m := 2, n := 2, col_start := [0, 1, 2], i := [0, 1], x := [] }).Yi 1)
        (fs_state1 { m := 2, n := 2, col_start := [0, 1, 2], i := [0, 1], x := [] } [9, 9] [9, 9]).Xdeg [0]).1.getD z 0 < 0 →
      (fs_state1 { m := 2, n := 2, col_start := [0, 1, 2], i := [0, 1], x := [] } [9, 9] [9, 9]).Xdeg.getD z 0 < 0) :=
  claim_C10_partner_scan_asserts (fs_col_graph { m := 2, n := 2, col_start := [0, 1, 2], i := [0, 1], x := [] }) 2 2
    (fs_graph_wf { m := 2, n := 2, col_start := [0, 1, 2], i := [0, 1], x := [] }
      (by refine ⟨by decide, by decide, by decide, by decide, by decide⟩))
    (fs_state1 { m := 2, n := 2, col_start := [0, 1, 2], i := [0, 1], x := [] } [9, 9] [9, 9])
    (fs_state1_inv { m := 2, n := 2, col_start := [0, 1, 2], i := [0, 1], x := [] }
      (by refine ⟨by decide, by decide, by decide, by decide, by decide⟩)
      [9, 9] [9, 9] (by decide) (by decide))
    1 [0] 1 (by decide) (by decide) (by decide)

end CuoptSpec
